import Mathlib

/-!
# Street map graph engine: route validation, travel time, shortest path

A shallow embedding of `streets.c` (and the `path time` handler of `main.c`).

Modelling conventions used throughout:

* C `int` ids are `Int` (a route may mention negative ids); array lengths and
  heap sizes, which the code never makes negative, are `Nat`.
* A C array together with its element count (`way_ids`/`num_ways`,
  `node_ids`/`num_nodes`, `nodes`/`nr_nodes`, `ways`/`nr_ways`, the route and its
  `size`) is one `List`; the count is the length of the list.
* C `double`/`float` values are exact rationals. Rounding is therefore not
  modelled, and a division by a zero speed limit (infinity or NaN in C) is
  outside the model: statements about leg times assume non-zero speed limits.
* `distance_between_nodes` (Haversine, built from `sin`, `cos`, `atan2`, `sqrt`)
  is a parameter `dist : node → node → ℚ` of every definition that uses it.
* A read or write outside an array (undefined behaviour in C) makes the
  embedded function return `none`; `some r` is a run free of such accesses.
* `printf` output is returned as data next to the returned value.
* Memory allocation (`malloc`, `strdup`) is taken to succeed, and
  `strstr(a, b) != NULL` is the statement that the characters of `b` occur in
  `a` as one contiguous block.
* For the properties that speak of the order of the events of a run, the two
  loops of the search are embedded a second time together with a record of
  their events (`relax_neighbors_log`, `search_loop_log`); the record changes
  nothing in the state computed (`ssmap_path_search_log_state`).
* A `while` loop and the recursion of `min_heapify` carry a bound on the number
  of iterations, large enough for every run (each iteration removes a heap
  entry or moves an index towards its limit); the properties below show that
  the embedded functions return `some`.
-/

namespace Streets

/-! ## Data model (`struct node`, `struct way`, `struct ssmap`) -/

/-- The record `struct node`; `num_ways` is `way_ids.length`. The field `osmid`
is never read or written by the code and is left out. -/
structure node where
  lat : ℚ
  lon : ℚ
  id : Int
  way_ids : List Int
deriving DecidableEq

/-- The record `struct way`; `num_nodes` is `node_ids.length`. -/
structure way where
  id : Int
  name : String
  speed_limit : ℚ
  one_way : Bool
  node_ids : List Int
deriving DecidableEq

/-- The record `struct ssmap`; `nr_nodes` and `nr_ways` are the lengths of the
two arrays allocated by `ssmap_create`. -/
structure ssmap where
  nodes : List node
  ways : List way
deriving DecidableEq

/-- The field `nr_nodes`, as the `int` the code compares ids with. -/
def ssmap.nr_nodes (m : ssmap) : Int := (m.nodes.length : Int)

/-- The field `nr_ways`. -/
def ssmap.nr_ways (m : ssmap) : Int := (m.ways.length : Int)

/-- Array read `a[i]` with an `int` index: `none` outside `[0, length)`. -/
def nth {α : Type} (l : List α) (i : Int) : Option α :=
  if 0 ≤ i then l[i.toNat]? else none

/-! ## `shared_way` and `calculate_travel_time` -/

/-- The two nested loops of `shared_way` over the incident-way arrays of the
two nodes: the first entry of `ws1` that also occurs in `ws2`, else `-1`. -/
def shared_way_scan : List Int → List Int → Int
  | [], _ => -1
  | w :: rest, ws2 => if w ∈ ws2 then w else shared_way_scan rest ws2

/-- Embedding of `shared_way(m, node1, node2)`. -/
def shared_way (m : ssmap) (node1 node2 : Int) : Option Int :=
  match nth m.nodes node1, nth m.nodes node2 with
  | some n1, some n2 => some (shared_way_scan n1.way_ids n2.way_ids)
  | _, _ => none

/-- Embedding of `calculate_travel_time(node1, node2, speed_limit)`, in minutes. -/
def calculate_travel_time (dist : node → node → ℚ) (node1 node2 : node)
    (speed_limit : ℚ) : ℚ :=
  let distance := dist node1 node2 * 1000
  let speed := speed_limit / 3.6
  let time_seconds := distance / speed
  time_seconds / 60

/-! ## `ssmap_path_travel_time` -/

/-- The five error lines `ssmap_path_travel_time` can print. -/
inductive route_error where
  | node_does_not_exist (id : Int)
  | node_appeared_more_than_once (id : Int)
  | no_roads_between (a b : Int)
  | cannot_go_directly (a b : Int)
  | cannot_go_in_reverse (a b : Int)
deriving DecidableEq

/-- What a call of `ssmap_path_travel_time` does: the error line it printed (if
any) and the `double` it returned. -/
structure travel_result where
  printed : Option route_error
  value : ℚ
deriving DecidableEq

/-- The first loop of `ssmap_path_travel_time` ("Error 1"): the first id of the
route outside `[0, nr_nodes)`, if there is one. -/
def first_invalid (nr_nodes : Int) : List Int → Option Int
  | [] => none
  | x :: xs => if x < 0 ∨ x ≥ nr_nodes then some x else first_invalid nr_nodes xs

/-- The loop `for (; j < way1.num_nodes - 1; j++)` looking for the pair of
nodes at consecutive positions, in either order. The result is the pair
`(way1.node_ids[j], way1.node_ids[j + 1])` at the `break`, or `none` when the
loop ends with `adjacent_in_way` still false. -/
def adjacent_scan (cur next : Int) : List Int → Option (Int × Int)
  | x :: y :: rest =>
    if (x = next ∧ y = cur) ∨ (x = cur ∧ y = next) then some (x, y)
    else adjacent_scan cur next (y :: rest)
  | _ => none

/-- The leg part of one iteration of the main loop (from the call of
`shared_way` to the one-way test): the error printed for the pair, or the
speed limit of `way1` for use by `calculate_travel_time`. -/
def leg_check (m : ssmap) (cur next : Int) : Option (Except route_error ℚ) :=
  match shared_way m cur next with
  | none => none
  | some way_id =>
    if way_id = -1 then some (.error (.no_roads_between cur next))
    else
      match nth m.ways way_id with
      | none => none
      | some way1 =>
        match adjacent_scan cur next way1.node_ids with
        | none => some (.error (.cannot_go_directly cur next))
        | some (x, y) =>
          if way1.one_way && !(x == cur && y == next) then
            some (.error (.cannot_go_in_reverse cur next))
          else some (.ok way1.speed_limit)

/-- The main loop `for (int i = 0; i < size - 1; i++)`, on the part of the
route from index `i` on, with the running `total_travel_time`. -/
def travel_loop (dist : node → node → ℚ) (m : ssmap) : List Int → ℚ → Option travel_result
  | cur :: next :: rest, total =>
    if cur ∈ next :: rest then
      some ⟨some (.node_appeared_more_than_once cur), -1⟩
    else
      match leg_check m cur next with
      | none => none
      | some (.error e) => some ⟨some e, -1⟩
      | some (.ok speed_limit) =>
        match nth m.nodes cur, nth m.nodes next with
        | some c, some n =>
          travel_loop dist m (next :: rest) (total + calculate_travel_time dist c n speed_limit)
        | _, _ => none
  | _, total => some ⟨none, total⟩

/-- Embedding of `ssmap_path_travel_time(m, size, node_ids)`. -/
def ssmap_path_travel_time (dist : node → node → ℚ) (m : ssmap) (node_ids : List Int) :
    Option travel_result :=
  match first_invalid m.nr_nodes node_ids with
  | some x => some ⟨some (.node_does_not_exist x), -1⟩
  | none => travel_loop dist m node_ids 0

/-! ## The `path time` command (`handle_path_travel_time` of `main.c`) -/

/-- A line printed by `handle_path_travel_time`, directly or through
`ssmap_path_travel_time`. -/
inductive handler_line where
  | not_an_integer (token : String)
  | must_specify_at_least_two_nodes
  | route (e : route_error)
  | minutes (t : ℚ)
deriving DecidableEq

/-- What a call of `handle_path_travel_time` does: the lines printed and the
`bool` returned. -/
structure handler_result where
  printed : List handler_line
  ret : Bool
deriving DecidableEq

/-- The tokenising loop: each token of the command line is either an integer
(`.ok v`, `strtol` consumed it whole) or not (`.error text`); the loop stops at
the first token that is not an integer. -/
def parse_tokens : List (Except String Int) → Except String (List Int)
  | [] => .ok []
  | .error s :: _ => .error s
  | .ok v :: rest =>
    match parse_tokens rest with
    | .error s => .error s
    | .ok vs => .ok (v :: vs)

/-- Embedding of `handle_path_travel_time(line, map)` on the tokens of `line`. -/
def handle_path_travel_time (dist : node → node → ℚ) (m : ssmap)
    (tokens : List (Except String Int)) : Option handler_result :=
  match parse_tokens tokens with
  | .error s => some ⟨[.not_an_integer s], false⟩
  | .ok node_ids =>
    if node_ids.length < 2 then some ⟨[.must_specify_at_least_two_nodes], false⟩
    else
      match ssmap_path_travel_time dist m node_ids with
      | none => none
      | some r =>
        some ⟨(match r.printed with
                | some e => [handler_line.route e]
                | none => []) ++ (if r.value ≥ 0 then [handler_line.minutes r.value] else []),
              true⟩

/-! ## The binary min-heap (`HeapNode`, `MinHeap`) -/

/-- The record `HeapNode`. -/
structure HeapNode where
  node_id : Int
  priority : ℚ
deriving DecidableEq

/-- The record `MinHeap`. `elements` lists the slots of the backing array that
have been written so far (the array is filled from index 0 upwards); slots at
indices `≥ size` hold stale entries, and a read at an index `≥ elements.length`
is a read of uninitialised or out-of-range memory. -/
structure MinHeap where
  size : Nat
  capacity : Nat
  elements : List HeapNode
deriving DecidableEq

/-- Embedding of `create_min_heap(capacity)`. -/
def create_min_heap (capacity : Nat) : MinHeap := ⟨0, capacity, []⟩

/-- Embedding of `swap_heap_nodes(&els[i], &els[j])`. -/
def swap_heap_nodes (els : List HeapNode) (i j : Nat) : Option (List HeapNode) :=
  match els[i]?, els[j]? with
  | some a, some b => some ((els.set i b).set j a)
  | _, _ => none

/-- One of the two tests of `min_heapify`:
`if (child < size && elements[child].priority < elements[smallest].priority) smallest = child;`
returning the new value of `smallest`. -/
def heapify_pick (heap : MinHeap) (child smallest : Nat) : Option Nat :=
  if child < heap.size then
    match heap.elements[child]?, heap.elements[smallest]? with
    | some c, some s => some (if c.priority < s.priority then child else smallest)
    | _, _ => none
  else some smallest

/-- The recursion of `min_heapify(heap, idx)`, with a bound on its depth. -/
def min_heapify_fuel : Nat → MinHeap → Nat → Option MinHeap
  | 0, _, _ => none
  | fuel + 1, heap, idx =>
    match heapify_pick heap (2 * idx + 1) idx with
    | none => none
    | some s1 =>
      match heapify_pick heap (2 * idx + 2) s1 with
      | none => none
      | some smallest =>
        if smallest ≠ idx then
          match swap_heap_nodes heap.elements idx smallest with
          | none => none
          | some els => min_heapify_fuel fuel { heap with elements := els } smallest
        else some heap

/-- Embedding of `min_heapify(heap, idx)`: the index grows at every recursive
call and stays below `size`, so `size + 1` levels are enough. -/
def min_heapify (heap : MinHeap) (idx : Nat) : Option MinHeap :=
  min_heapify_fuel (heap.size + 1) heap idx

/-- Embedding of `remove_min(heap)`: the entry returned and the heap afterwards. -/
def remove_min (heap : MinHeap) : Option (HeapNode × MinHeap) :=
  if heap.size ≤ 0 then some (⟨-1, 0⟩, heap)
  else
    match heap.elements[0]?, heap.elements[heap.size - 1]? with
    | some root, some last =>
      match min_heapify { heap with size := heap.size - 1, elements := heap.elements.set 0 last } 0 with
      | none => none
      | some heap2 => some (root, heap2)
    | _, _ => none

/-- The sift-up loop shared by `decrease_key` and `insert_into_heap`:
`while (i != 0 && elements[(i-1)/2].priority > elements[i].priority) ...`,
with a bound on the number of iterations. -/
def sift_up : Nat → List HeapNode → Nat → Option (List HeapNode)
  | 0, _, _ => none
  | fuel + 1, els, i =>
    if i = 0 then some els
    else
      match els[(i - 1) / 2]?, els[i]? with
      | some p, some c =>
        if p.priority > c.priority then
          match swap_heap_nodes els i ((i - 1) / 2) with
          | none => none
          | some els2 => sift_up fuel els2 ((i - 1) / 2)
        else some els
      | _, _ => none

/-- The search loop of `decrease_key`: `for (i = 0; i < size; i++)` with `k`
iterations left, stopping at the first entry with the given `node_id`. The
result is the value of `i` after the loop (`size` when no entry matched). -/
def key_scan (els : List HeapNode) (node_id : Int) : Nat → Nat → Option Nat
  | 0, i => some i
  | k + 1, i =>
    match els[i]? with
    | none => none
    | some e => if e.node_id = node_id then some i else key_scan els node_id k (i + 1)

/-- The assignment `elements[i].priority = priority`. -/
def set_priority (els : List HeapNode) (i : Nat) (priority : ℚ) : List HeapNode :=
  match els[i]? with
  | some e => els.set i { e with priority := priority }
  | none => els

/-- Embedding of `decrease_key(heap, node_id, priority)`. -/
def decrease_key (heap : MinHeap) (node_id : Int) (priority : ℚ) : Option MinHeap :=
  match key_scan heap.elements node_id heap.size 0 with
  | none => none
  | some i =>
    let els := if i < heap.size then set_priority heap.elements i priority else heap.elements
    match sift_up (i + 1) els i with
    | none => none
    | some els2 => some { heap with elements := els2 }

/-- The two field writes `elements[i].node_id = ...; elements[i].priority = ...`
at the slot `i` of an array of `capacity` slots. -/
def write_slot (els : List HeapNode) (capacity i : Nat) (x : HeapNode) : Option (List HeapNode) :=
  if capacity ≤ i then none
  else if i < els.length then some (els.set i x)
  else if i = els.length then some (els ++ [x])
  else none

/-- Embedding of `insert_into_heap(heap, node_id, priority)`. -/
def insert_into_heap (heap : MinHeap) (node_id : Int) (priority : ℚ) : Option MinHeap :=
  if heap.size = heap.capacity then some heap
  else
    match write_slot heap.elements heap.capacity heap.size ⟨node_id, priority⟩ with
    | none => none
    | some els =>
      match sift_up (heap.size + 1) els heap.size with
      | none => none
      | some els2 => some { heap with size := heap.size + 1, elements := els2 }

/-! ## `find_neighbors` -/

/-- The innermost loop of `find_neighbors`, `for (int j = 0; j < way1.num_nodes; j++)`,
with `k` iterations left. -/
def interior_scan (node_id : Int) (way1 : way) : Nat → Nat → MinHeap → Option MinHeap
  | 0, _, heap => some heap
  | k + 1, j, heap =>
    match way1.node_ids[j]? with
    | none => none
    | some x =>
      if x = node_id then
        if way1.one_way then
          match way1.node_ids[j + 1]? with
          | none => none
          | some nxt =>
            match insert_into_heap heap nxt 0 with
            | none => none
            | some h1 => interior_scan node_id way1 k (j + 1) h1
        else
          match nth way1.node_ids ((j : Int) - 1), way1.node_ids[j + 1]? with
          | some prv, some nxt =>
            match insert_into_heap heap prv 0 with
            | none => none
            | some h1 =>
              match insert_into_heap h1 nxt 0 with
              | none => none
              | some h2 => interior_scan node_id way1 k (j + 1) h2
          | _, _ => none
      else interior_scan node_id way1 k (j + 1) heap

/-- The body of the loop of `find_neighbors` for one incident way. -/
def neighbors_of_way (node_id : Int) (way1 : way) (heap : MinHeap) : Option MinHeap :=
  match way1.node_ids[0]? with
  | none => none
  | some first =>
    if first = node_id then
      match way1.node_ids[1]? with
      | none => none
      | some nxt => insert_into_heap heap nxt 0
    else
      match nth way1.node_ids ((way1.node_ids.length : Int) - 1) with
      | none => none
      | some last =>
        if last = node_id then
          if !way1.one_way then
            match nth way1.node_ids ((way1.node_ids.length : Int) - 2) with
            | none => none
            | some prv => insert_into_heap heap prv 0
          else some heap
        else interior_scan node_id way1 way1.node_ids.length 0 heap

/-- The loop of `find_neighbors` over the incident ways still to visit. -/
def find_neighbors_loop (m : ssmap) (node_id : Int) : List Int → MinHeap → Option MinHeap
  | [], heap => some heap
  | w :: rest, heap =>
    match nth m.ways w with
    | none => none
    | some way1 =>
      match neighbors_of_way node_id way1 heap with
      | none => none
      | some h1 => find_neighbors_loop m node_id rest h1

/-- Embedding of `find_neighbors(m, node_id)`. -/
def find_neighbors (m : ssmap) (node_id : Int) : Option MinHeap :=
  match nth m.nodes node_id with
  | none => none
  | some curr_node =>
    find_neighbors_loop m node_id curr_node.way_ids (create_min_heap (curr_node.way_ids.length * 2))

/-! ## `ssmap_path_create` -/

/-- The constant `INFINITY_COST`, `1e308`. -/
def INFINITY_COST : ℚ := 10 ^ 308

/-- The arrays and the queue private to one run of `ssmap_path_create`. -/
structure search_state where
  heap : MinHeap
  times : List ℚ
  predecessors : List Int
  visited : List Bool
deriving DecidableEq

/-- Array write `a[i] = x` with an `int` index: `none` outside `[0, length)`. -/
def store {α : Type} (l : List α) (i : Int) (x : α) : Option (List α) :=
  if 0 ≤ i ∧ i < (l.length : Int) then some (l.set i.toNat x) else none

/-- The initialising loop `for (int i = 0; i < V; i++)` as far as the queue is
concerned: every `i ≠ start_id` is inserted with priority `INFINITY_COST`. -/
def init_heap (start_id : Int) : List Nat → MinHeap → Option MinHeap
  | [], heap => some heap
  | i :: rest, heap =>
    if (i : Int) ≠ start_id then
      match insert_into_heap heap (i : Int) INFINITY_COST with
      | none => none
      | some h1 => init_heap start_id rest h1
    else init_heap start_id rest heap

/-- The state of the search when the main loop is entered (lines 645 to 673). -/
def search_init (m : ssmap) (start_id : Int) : Option search_state :=
  let V := m.nodes.length
  if 0 ≤ start_id ∧ start_id < (V : Int) then
    match init_heap start_id (List.range V) (create_min_heap V) with
    | none => none
    | some h1 =>
      match insert_into_heap h1 start_id 0 with
      | none => none
      | some h2 =>
        some ⟨h2,
          (List.range V).map (fun i : Nat => if (i : Int) = start_id then 0 else INFINITY_COST),
          List.replicate V (-1),
          List.replicate V false⟩
  else none

/-- The loop `while (neighbors->size > 0)` relaxing the neighbours of
`current_node`, with a bound on the number of iterations. -/
def relax_neighbors (dist : node → node → ℚ) (m : ssmap) (current_node : Int)
    (current_map_node : node) : Nat → MinHeap → search_state → Option search_state
  | 0, _, _ => none
  | fuel + 1, neighbors, st =>
    if neighbors.size > 0 then
      match remove_min neighbors with
      | none => none
      | some (e, neighbors2) =>
        let next_node := e.node_id
        match nth st.visited next_node with
        | none => none
        | some true => relax_neighbors dist m current_node current_map_node fuel neighbors2 st
        | some false =>
          match shared_way m current_node next_node with
          | none => none
          | some common_way =>
            match nth m.nodes next_node, nth m.ways common_way,
                  nth st.times current_node, nth st.times next_node with
            | some next_map_node, some way1, some t_cur, some t_next =>
              let time := calculate_travel_time dist current_map_node next_map_node way1.speed_limit
              let new_time := t_cur + time
              if new_time < t_next then
                match store st.times next_node new_time,
                      store st.predecessors next_node current_node,
                      decrease_key st.heap next_node new_time with
                | some ts, some ps, some h =>
                  relax_neighbors dist m current_node current_map_node fuel neighbors2
                    { st with heap := h, times := ts, predecessors := ps }
                | _, _, _ => none
              else relax_neighbors dist m current_node current_map_node fuel neighbors2 st
            | _, _, _, _ => none
    else some st

/-- The main loop `while (heap->size > 0)` of `ssmap_path_create`, with a bound
on the number of iterations. -/
def search_loop (dist : node → node → ℚ) (m : ssmap) (end_id : Int) :
    Nat → search_state → Option search_state
  | 0, _ => none
  | fuel + 1, st =>
    if st.heap.size > 0 then
      match remove_min st.heap with
      | none => none
      | some (e, h1) =>
        let current_node := e.node_id
        if current_node = end_id then some { st with heap := h1 }
        else
          match store st.visited current_node true, nth m.nodes current_node,
                find_neighbors m current_node with
          | some vis, some current_map_node, some neighbors =>
            match relax_neighbors dist m current_node current_map_node (neighbors.size + 1)
                    neighbors { st with heap := h1, visited := vis } with
            | none => none
            | some st2 => search_loop dist m end_id fuel st2
          | _, _, _ => none
    else some st

/-- The search part of `ssmap_path_create` (lines 645 to 698): the state after
the main loop. Every iteration removes one entry of the queue, so
`size + 1` iterations are enough. -/
def ssmap_path_search (dist : node → node → ℚ) (m : ssmap) (start_id end_id : Int) :
    Option search_state :=
  match search_init m start_id with
  | none => none
  | some st => search_loop dist m end_id (st.heap.size + 1) st

/-- The reconstruction loop `while (u != -1) { path[cc++] = u; u = predecessors[u]; }`
with `room` free slots left in the `path` buffer; `path` holds the ids written
so far, last written first, which is the order in which they are printed. -/
def walk_back (predecessors : List Int) : Nat → Int → List Int → Option (List Int)
  | room, u, path =>
    if u = -1 then some path
    else
      match room with
      | 0 => none
      | room2 + 1 =>
        match nth predecessors u with
        | none => none
        | some p => walk_back predecessors room2 p (u :: path)

/-- What `ssmap_path_create` prints. -/
inductive create_output where
  | no_path_found (start_id end_id : Int)
  | path (node_ids : List Int)
deriving DecidableEq

/-- Embedding of `ssmap_path_create(m, start_id, end_id)`. -/
def ssmap_path_create (dist : node → node → ℚ) (m : ssmap) (start_id end_id : Int) :
    Option create_output :=
  if start_id < 0 ∨ end_id ≥ m.nr_nodes then some (.no_path_found start_id end_id)
  else
    match ssmap_path_search dist m start_id end_id with
    | none => none
    | some st =>
      if end_id = start_id then
        (walk_back st.predecessors m.nodes.length end_id []).map create_output.path
      else
        match nth st.predecessors end_id with
        | none => none
        | some p =>
          if p ≠ -1 then
            (walk_back st.predecessors m.nodes.length end_id []).map create_output.path
          else some (.no_path_found start_id end_id)

/-! ## The search with a record of its events -/

/-- The two events of the search that the properties about its run speak of.
`extracted v`: a call `remove_min(heap)` of the main loop returned the node
`v`; unless `v` is `end_id`, the next statement sets `visited[v] = true`.
`relaxed v`: one execution of the block
`times[v] = new_time; predecessors[v] = current_node; decrease_key(heap, v, new_time);`,
which holds the only writes to `times` and `predecessors` after the
initialisation and the only call of `decrease_key`. -/
inductive search_event where
  | extracted (v : Int)
  | relaxed (v : Int)
deriving DecidableEq

/-- The loop of `relax_neighbors`, returning next to the final state the
events of the run, in the order in which they happen. -/
def relax_neighbors_log (dist : node → node → ℚ) (m : ssmap) (current_node : Int)
    (current_map_node : node) :
    Nat → MinHeap → search_state → Option (search_state × List search_event)
  | 0, _, _ => none
  | fuel + 1, neighbors, st =>
    if neighbors.size > 0 then
      match remove_min neighbors with
      | none => none
      | some (e, neighbors2) =>
        let next_node := e.node_id
        match nth st.visited next_node with
        | none => none
        | some true => relax_neighbors_log dist m current_node current_map_node fuel neighbors2 st
        | some false =>
          match shared_way m current_node next_node with
          | none => none
          | some common_way =>
            match nth m.nodes next_node, nth m.ways common_way,
                  nth st.times current_node, nth st.times next_node with
            | some next_map_node, some way1, some t_cur, some t_next =>
              let time := calculate_travel_time dist current_map_node next_map_node way1.speed_limit
              let new_time := t_cur + time
              if new_time < t_next then
                match store st.times next_node new_time,
                      store st.predecessors next_node current_node,
                      decrease_key st.heap next_node new_time with
                | some ts, some ps, some h =>
                  match relax_neighbors_log dist m current_node current_map_node fuel neighbors2
                      { st with heap := h, times := ts, predecessors := ps } with
                  | none => none
                  | some (st2, log) => some (st2, .relaxed next_node :: log)
                | _, _, _ => none
              else relax_neighbors_log dist m current_node current_map_node fuel neighbors2 st
            | _, _, _, _ => none
    else some (st, [])

/-- The loop of `search_loop`, returning next to the final state the events of
the run, in the order in which they happen. -/
def search_loop_log (dist : node → node → ℚ) (m : ssmap) (end_id : Int) :
    Nat → search_state → Option (search_state × List search_event)
  | 0, _ => none
  | fuel + 1, st =>
    if st.heap.size > 0 then
      match remove_min st.heap with
      | none => none
      | some (e, h1) =>
        let current_node := e.node_id
        if current_node = end_id then some ({ st with heap := h1 }, [.extracted current_node])
        else
          match store st.visited current_node true, nth m.nodes current_node,
                find_neighbors m current_node with
          | some vis, some current_map_node, some neighbors =>
            match relax_neighbors_log dist m current_node current_map_node (neighbors.size + 1)
                    neighbors { st with heap := h1, visited := vis } with
            | none => none
            | some (st2, log1) =>
              match search_loop_log dist m end_id fuel st2 with
              | none => none
              | some (st3, log2) => some (st3, .extracted current_node :: (log1 ++ log2))
          | _, _, _ => none
    else some (st, [])

/-- The search of `ssmap_path_search` with the events of its run. -/
def ssmap_path_search_log (dist : node → node → ℚ) (m : ssmap) (start_id end_id : Int) :
    Option (search_state × List search_event) :=
  match search_init m start_id with
  | none => none
  | some st => search_loop_log dist m end_id (st.heap.size + 1) st

/-- The nodes returned by the calls of `remove_min` of the main loop, in order. -/
def extracted_ids : List search_event → List Int
  | [] => []
  | .extracted v :: rest => v :: extracted_ids rest
  | .relaxed _ :: rest => extracted_ids rest

/-! ## The name searches (`ssmap_find_way_by_name`, `ssmap_find_node_by_names`) -/

/-- The test `strstr(haystack, needle) != NULL` of the C library: the
characters of `needle` occur in `haystack` as one contiguous block. -/
def strstr_found (haystack needle : String) : Bool :=
  decide (List.IsInfix needle.toList haystack.toList)

/-- The loop of `ssmap_find_way_by_name` over the array `ways`: the ids printed. -/
def find_way_loop (name : String) : List way → List Int
  | [] => []
  | w :: rest =>
    if strstr_found w.name name then w.id :: find_way_loop name rest
    else find_way_loop name rest

/-- Embedding of `ssmap_find_way_by_name(m, name)`: the ids printed, in the
order in which they are printed. -/
def ssmap_find_way_by_name (m : ssmap) (name : String) : List Int :=
  find_way_loop name m.ways

/-- The inner loop of `ssmap_find_node_by_names` when `name2` is `NULL`: is
there an incident way whose name holds `name1` (the loop stops at the first). -/
def one_name_scan (m : ssmap) (name1 : String) : List Int → Option Bool
  | [] => some false
  | w :: rest =>
    match nth m.ways w with
    | none => none
    | some way1 => if strstr_found way1.name name1 then some true else one_name_scan m name1 rest

/-- The inner loop of `ssmap_find_node_by_names` with two keywords, started
with the current values of `found1` and `found2`: their values after the loop. -/
def two_names_scan (m : ssmap) (name1 name2 : String) :
    List Int → Bool → Bool → Option (Bool × Bool)
  | [], found1, found2 => some (found1, found2)
  | w :: rest, found1, found2 =>
    match nth m.ways w with
    | none => none
    | some way1 =>
      two_names_scan m name1 name2 rest
        (if strstr_found way1.name name1 then true else found1)
        (if strstr_found way1.name name2 then true else found2)

/-- The body of the outer loop of `ssmap_find_node_by_names` for one node: is
the node printed. `name2` is `none` for a `NULL` pointer. -/
def node_printed (m : ssmap) (name1 : String) (name2 : Option String) (n : node) :
    Option Bool :=
  match name2 with
  | none => one_name_scan m name1 n.way_ids
  | some second =>
    match two_names_scan m name1 second n.way_ids false false with
    | none => none
    | some (found1, found2) => some (found1 && found2)

/-- The outer loop of `ssmap_find_node_by_names` over the array `nodes`. -/
def find_node_loop (m : ssmap) (name1 : String) (name2 : Option String) :
    List node → Option (List Int)
  | [] => some []
  | n :: rest =>
    match node_printed m name1 name2 n with
    | none => none
    | some printed =>
      match find_node_loop m name1 name2 rest with
      | none => none
      | some ids => some (if printed then n.id :: ids else ids)

/-- Embedding of `ssmap_find_node_by_names(m, name1, name2)`: the ids printed. -/
def ssmap_find_node_by_names (m : ssmap) (name1 : String) (name2 : Option String) :
    Option (List Int) :=
  find_node_loop m name1 name2 m.nodes

/-! ## Filling the store (`ssmap_add_way`, `ssmap_add_node`) -/

/-- Embedding of `ssmap_add_way(m, id, name, maxspeed, oneway, num_nodes, node_ids)`;
`num_nodes` is the length of `node_ids`, and `strdup` and `malloc` are taken to
succeed. The result is the pointer returned (`none` for `NULL`, else the
record it points to) and the store afterwards. -/
def ssmap_add_way (m : ssmap) (id : Int) (name : String) (maxspeed : ℚ) (oneway : Bool)
    (node_ids : List Int) : Option (Option way × ssmap) :=
  if node_ids.length ≤ 0 then some (none, m)
  else
    match store m.ways id ⟨id, name, maxspeed, oneway, node_ids⟩ with
    | none => none
    | some ws => some (some ⟨id, name, maxspeed, oneway, node_ids⟩, { m with ways := ws })

/-- Embedding of `ssmap_add_node(m, id, lat, lon, num_ways, way_ids)`; `num_ways`
is the length of `way_ids`, and `malloc` is taken to succeed. The result is
the pointer returned (`none` for `NULL`, else the record it points to) and the
store afterwards. -/
def ssmap_add_node (m : ssmap) (id : Int) (lat lon : ℚ) (way_ids : List Int) :
    Option (Option node × ssmap) :=
  match store m.nodes id ⟨lat, lon, id, way_ids⟩ with
  | none => none
  | some ns => some (some ⟨lat, lon, id, way_ids⟩, { m with nodes := ns })

/-! ## Notions used to state the properties -/

/-- The id `x` denotes an existing node: `0 ≤ x < nr_nodes`. -/
def node_exists (m : ssmap) (x : Int) : Prop := 0 ≤ x ∧ x < m.nr_nodes

instance (m : ssmap) (x : Int) : Decidable (node_exists m x) := by
  unfold node_exists; infer_instance

/-- The leg `(a, b)` passes the three leg checks of `ssmap_path_travel_time`
(a connecting road, no skipped node, no reverse travel on a one-way). -/
def leg_passes (m : ssmap) (a b : Int) : Bool :=
  match leg_check m a b with
  | some (.ok _) => true
  | _ => false

/-- The time of the leg `(a, b)` taken on its own: `calculate_travel_time` of
the two node records and the speed limit of the way `shared_way` gives for
the pair. -/
def leg_time (dist : node → node → ℚ) (m : ssmap) (a b : Int) : Option ℚ :=
  match nth m.nodes a, nth m.nodes b, shared_way m a b with
  | some na, some nb, some w =>
    match nth m.ways w with
    | some way1 => some (calculate_travel_time dist na nb way1.speed_limit)
    | none => none
  | _, _, _ => none

/-- The sum of the leg times over the consecutive pairs of a route. -/
def route_time (dist : node → node → ℚ) (m : ssmap) : List Int → Option ℚ
  | a :: b :: rest =>
    match leg_time dist m a b, route_time dist m (b :: rest) with
    | some t, some s => some (t + s)
    | _, _ => none
  | _ => some 0

/-- Every way id listed by a node is the index of a way of the map. -/
def incident_ways_exist (m : ssmap) : Prop :=
  ∀ n ∈ m.nodes, ∀ w ∈ n.way_ids, 0 ≤ w ∧ w < m.nr_ways

instance (m : ssmap) : Decidable (incident_ways_exist m) := by
  unfold incident_ways_exist; infer_instance

/-- The nodes `a` and `b` have no way id in common in their incident-way lists. -/
def no_common_way (m : ssmap) (a b : Int) : Prop :=
  ∀ na nb, nth m.nodes a = some na → nth m.nodes b = some nb →
    ∀ w ∈ na.way_ids, w ∉ nb.way_ids

/-! ## Notions used to state the heap properties -/

/-- The priority stored in slot `i` of the backing array (`0` for a slot that
was never written). -/
def slot_priority (els : List HeapNode) (i : Nat) : ℚ :=
  match els[i]? with
  | some e => e.priority
  | none => 0

/-- The min-heap order property on the first `n` slots: for every index `i` in
`[1, n)` the priority of entry `(i - 1) / 2` is at most the priority of entry `i`. -/
def heap_ordered (els : List HeapNode) (n : Nat) : Prop :=
  ∀ i, 0 < i → i < n → slot_priority els ((i - 1) / 2) ≤ slot_priority els i

/-- The entries present in the heap: the slots at indices `[0, size)`. -/
def heap_entries (h : MinHeap) : List HeapNode := h.elements.take h.size

/-- The slots `[0, size)` have all been written and lie inside the array. -/
def heap_wf (h : MinHeap) : Prop :=
  h.size ≤ h.elements.length ∧ h.elements.length ≤ h.capacity

/-- The heap order on the first `n` slots with one exception: slot `i` may be
smaller than its parent. (The children of `i` are not smaller than the
parent of `i`.) This is the state in which the sift-up loop runs. -/
def ordered_above (els : List HeapNode) (n i : Nat) : Prop :=
  (∀ j, 0 < j → j < n → j ≠ i → slot_priority els ((j - 1) / 2) ≤ slot_priority els j) ∧
  (∀ j, 0 < j → j < n → (j - 1) / 2 = i → 0 < i →
    slot_priority els ((i - 1) / 2) ≤ slot_priority els j)

/-- The heap order on the first `n` slots with one exception: slot `i` may be
larger than its children. (The children of `i` are not smaller than the
parent of `i`.) This is the state in which `min_heapify(heap, i)` runs. -/
def ordered_below (els : List HeapNode) (n i : Nat) : Prop :=
  (∀ j, 0 < j → j < n → (j - 1) / 2 ≠ i → slot_priority els ((j - 1) / 2) ≤ slot_priority els j) ∧
  (∀ j, 0 < j → j < n → (j - 1) / 2 = i → 0 < i →
    slot_priority els ((i - 1) / 2) ≤ slot_priority els j)

/-! ## Sequences of heap calls -/

/-- A call of one of the two operations that put or move entries of a heap:
`insert_into_heap(heap, node_id, priority)` or `decrease_key(heap, node_id, priority)`. -/
inductive heap_call where
  | insert (node_id : Int) (priority : ℚ)
  | decrease (node_id : Int) (priority : ℚ)
deriving DecidableEq

/-- One call applied to a heap. -/
def apply_call (h : MinHeap) : heap_call → Option MinHeap
  | .insert node_id priority => insert_into_heap h node_id priority
  | .decrease node_id priority => decrease_key h node_id priority

/-- A sequence of calls applied to a heap, one after the other. -/
def run_calls : MinHeap → List heap_call → Option MinHeap
  | h, [] => some h
  | h, c :: rest =>
    match apply_call h c with
    | none => none
    | some h1 => run_calls h1 rest

/-- The call does what the name of its operation says: an insertion always
does; a `decrease_key` call does when its node id is present in the heap and
the new priority is not above the priority of an entry with that id. -/
def call_lowers (h : MinHeap) : heap_call → Prop
  | .insert _ _ => True
  | .decrease node_id priority =>
    (∃ e ∈ heap_entries h, e.node_id = node_id) ∧
      ∀ e ∈ heap_entries h, e.node_id = node_id → priority ≤ e.priority

instance (h : MinHeap) (c : heap_call) : Decidable (call_lowers h c) := by
  cases c <;> (unfold call_lowers; infer_instance)

/-- Every call of the sequence, applied in turn from the heap `h` on, is one
that `call_lowers` describes. -/
def calls_lower : MinHeap → List heap_call → Prop
  | _, [] => True
  | h, c :: rest =>
    call_lowers h c ∧
      match apply_call h c with
      | some h1 => calls_lower h1 rest
      | none => True

instance calls_lower_decidable : (h : MinHeap) → (cs : List heap_call) →
    Decidable (calls_lower h cs)
  | _, [] => isTrue trivial
  | h, c :: rest =>
    match hc : apply_call h c with
    | some h1 =>
      have := calls_lower_decidable h1 rest
      decidable_of_iff (call_lowers h c ∧ calls_lower h1 rest) (by simp [calls_lower, hc])
    | none => decidable_of_iff (call_lowers h c) (by simp [calls_lower, hc])

/-! ## Notions used to state the properties of the search -/

/-- A well-formed graph: every way has at least two nodes, all existing and
pairwise distinct (no way repeats a node); every way id listed by a node is a
way of the map; and a node lists a way exactly when the way's node sequence
contains the node. -/
def well_formed (m : ssmap) : Prop :=
  (∀ w ∈ m.ways, 2 ≤ w.node_ids.length ∧ w.node_ids.Nodup ∧
    ∀ x ∈ w.node_ids, node_exists m x) ∧
  incident_ways_exist m ∧
  (∀ i : Fin m.nodes.length, ∀ w : Fin m.ways.length,
    ((w.val : Int) ∈ (m.nodes.get i).way_ids ↔ (i.val : Int) ∈ (m.ways.get w).node_ids))

instance (m : ssmap) : Decidable (well_formed m) := by
  unfold well_formed; infer_instance

/-- Going from `u` to `v` is one legal step along `way1`: the two nodes are at
consecutive positions, `u` first, or `v` first on a way that is not one-way. -/
def legal_step (way1 : way) (u v : Int) : Prop :=
  ∃ j : Nat, (way1.node_ids[j]? = some u ∧ way1.node_ids[j + 1]? = some v) ∨
    (way1.one_way = false ∧ way1.node_ids[j]? = some v ∧ way1.node_ids[j + 1]? = some u)

/-- The node `v` is among the neighbours `find_neighbors` returns for `u`. -/
def search_edge (m : ssmap) (u v : Int) : Prop :=
  ∃ h, find_neighbors m u = some h ∧ ∃ e ∈ heap_entries h, e.node_id = v

/-- The tentative time `times[v]` (`0` outside the array). -/
def tm (st : search_state) (v : Int) : ℚ := (nth st.times v).getD 0

/-- The link `predecessors[v]` (`-1` outside the array). -/
def pd (st : search_state) (v : Int) : Int := (nth st.predecessors v).getD (-1)

/-- The flag `visited[v]` (`false` outside the array). -/
def vis (st : search_state) (v : Int) : Bool := (nth st.visited v).getD false

/-- The time of the leg `(u, v)` as the search computes it (`0` when undefined). -/
def wt (dist : node → node → ℚ) (m : ssmap) (u v : Int) : ℚ := (leg_time dist m u v).getD 0

/-- The invariant of the search of `ssmap_path_create`. `c` is the node whose
neighbours are being relaxed and `pend` the neighbours still waiting in the
`neighbors` heap (`pend = []` between two iterations of the main loop);
`rank` orders the nodes by the moment they were marked visited, `k` counts the
nodes marked so far. -/
structure search_inv (dist : node → node → ℚ) (m : ssmap) (start_id : Int)
    (st : search_state) (rank : Int → Nat) (k : Nat) (c : Int) (pend : List HeapNode) :
    Prop where
  len_times : st.times.length = m.nodes.length
  len_preds : st.predecessors.length = m.nodes.length
  len_visited : st.visited.length = m.nodes.length
  heap_ok : heap_wf st.heap
  ordered : heap_ordered st.heap.elements st.heap.size
  keys : ((heap_entries st.heap).map HeapNode.node_id).Nodup
  entry : ∀ e ∈ heap_entries st.heap,
    node_exists m e.node_id ∧ vis st e.node_id = false ∧ tm st e.node_id = e.priority
  present : ∀ v, node_exists m v → vis st v = false →
    ∃ e ∈ heap_entries st.heap, e.node_id = v
  count : k + st.heap.size ≤ m.nodes.length
  start_zero : tm st start_id = 0
  start_pred : pd st start_id = -1
  nonneg : ∀ v, 0 ≤ tm st v
  le_inf : ∀ v, tm st v ≤ INFINITY_COST
  relaxed : ∀ u v, vis st u = true → search_edge m u v →
    (u = c ∧ ∃ e ∈ pend, e.node_id = v) ∨ tm st v ≤ tm st u + wt dist m u v
  mono : ∀ u v, vis st u = true → node_exists m v → vis st v = false → tm st u ≤ tm st v
  cur_max : ∀ u, vis st u = true → tm st u ≤ tm st c
  pend_edge : ∀ e ∈ pend, search_edge m c e.node_id
  cur_visited : pend ≠ [] → vis st c = true
  pred_some : ∀ v, pd st v ≠ -1 →
    vis st (pd st v) = true ∧ search_edge m (pd st v) v ∧
      tm st v = tm st (pd st v) + wt dist m (pd st v) v ∧ tm st v < INFINITY_COST ∧
      rank (pd st v) < rank v
  pred_none : ∀ v, node_exists m v → pd st v = -1 → v = start_id ∨ tm st v = INFINITY_COST
  rank_unvisited : ∀ v, vis st v = false → rank v = k
  rank_visited : ∀ v, vis st v = true → rank v < k

/-- One legal step along some way of the map. -/
def road_step (m : ssmap) (u v : Int) : Prop := ∃ way1 ∈ m.ways, legal_step way1 u v

/-! ## Notions used to state the properties of `find_neighbors` -/

/-- The rule of the adjacency resolver for a way and the position `p` at which
the node sits in the way's node sequence: at the first position the entry at
`p + 1`; at the last position the entry at `p - 1` unless the way is one-way;
at an interior position the entry at `p + 1`, and the entry at `p - 1` unless
the way is one-way. -/
def way_contribution (way1 : way) (p : Nat) : List Int :=
  if p = 0 then (way1.node_ids[p + 1]?).toList
  else if p + 1 = way1.node_ids.length then
    if way1.one_way then [] else (way1.node_ids[p - 1]?).toList
  else
    (way1.node_ids[p + 1]?).toList ++
      if way1.one_way then [] else (way1.node_ids[p - 1]?).toList

/-- The contributions of the ways listed in `way_ids` to the neighbours of the
node `n`, each way taken at the position of `n` in its node sequence. -/
def neighbor_contributions (m : ssmap) (n : Int) (way_ids : List Int) : List Int :=
  way_ids.flatMap (fun w =>
    match nth m.ways w with
    | some way1 => way_contribution way1 (way1.node_ids.indexOf n)
    | none => [])

/-- The nodes `u` and `v` sit at two positions of the way's node sequence
whose indices differ by exactly 1. -/
def adjacent_in_way (way1 : way) (u v : Int) : Prop :=
  ∃ j : Nat, (way1.node_ids[j]? = some u ∧ way1.node_ids[j + 1]? = some v) ∨
    (way1.node_ids[j]? = some v ∧ way1.node_ids[j + 1]? = some u)

/-! ## Notions used to state the properties of the run of the search -/

/-- The event `a` is not the extraction of a node that the later event `b`
relaxes. -/
def no_relax_after (a b : search_event) : Prop :=
  ∀ v, a = .extracted v → b ≠ .relaxed v

/-- The part of the invariant of the search that does not speak of times: the
arrays have `nr_nodes` slots, the queue lies inside its array and holds every
existing node that is not marked visited exactly once, and nothing else. -/
structure search_shape (m : ssmap) (st : search_state) : Prop where
  len_times : st.times.length = m.nodes.length
  len_preds : st.predecessors.length = m.nodes.length
  len_visited : st.visited.length = m.nodes.length
  heap_ok : heap_wf st.heap
  keys : ((heap_entries st.heap).map HeapNode.node_id).Nodup
  entry : ∀ e ∈ heap_entries st.heap, node_exists m e.node_id ∧ vis st e.node_id = false
  present : ∀ v, node_exists m v → vis st v = false →
    ∃ e ∈ heap_entries st.heap, e.node_id = v

/-- Well-formedness when a way may come back to a node: all ids in range,
every way has at least two different nodes, and a node lists a way exactly
when the way's node sequence contains the node. -/
def well_formed_with_repeats (m : ssmap) : Prop :=
  (∀ w ∈ m.ways, 2 ≤ w.node_ids.dedup.length ∧ ∀ x ∈ w.node_ids, node_exists m x) ∧
  incident_ways_exist m ∧
  (∀ i : Fin m.nodes.length, ∀ w : Fin m.ways.length,
    ((w.val : Int) ∈ (m.nodes.get i).way_ids ↔ (i.val : Int) ∈ (m.ways.get w).node_ids))

instance (m : ssmap) : Decidable (well_formed_with_repeats m) := by
  unfold well_formed_with_repeats; infer_instance

/-! ## Sample data for the instances and counterexamples -/

/-- A computable stand-in for the distance parameter: the sum of the absolute
differences of the coordinates. -/
def flat_distance (x y : node) : ℚ := |x.lat - y.lat| + |x.lon - y.lon|

/-- Three nodes on the equator and two two-way roads: way 0 runs `0, 2, 1` and
way 1 joins `0` and `1` directly. -/
def detour_map : ssmap :=
  { nodes := [⟨0, 0, 0, [0, 1]⟩, ⟨0, 1, 1, [0, 1]⟩, ⟨0, 3, 2, [0]⟩],
    ways := [⟨0, "Ring Road", 60, false, [0, 2, 1]⟩, ⟨1, "Main Street", 60, false, [0, 1]⟩] }

/-- Three nodes: way 0 joins `0` and `2` directly (two-way) and way 1 runs
`0, 1, 2`. -/
def shortcut_map : ssmap :=
  { nodes := [⟨0, 0, 0, [0, 1]⟩, ⟨0, 1, 1, [1]⟩, ⟨0, 2, 2, [0, 1]⟩],
    ways := [⟨0, "Bypass", 60, false, [0, 2]⟩, ⟨1, "High Street", 40, false, [0, 1, 2]⟩] }

/-- Three nodes: way 0 joins `2` and `1` (two-way) and way 1 is the one-way
road `0, 1, 2`. -/
def one_way_map : ssmap :=
  { nodes := [⟨0, 0, 0, [1]⟩, ⟨0, 1, 1, [0, 1]⟩, ⟨0, 2, 2, [0, 1]⟩],
    ways := [⟨0, "Back Lane", 30, false, [2, 1]⟩, ⟨1, "Avenue", 50, true, [0, 1, 2]⟩] }

/-- Three nodes in a row on the single one-way road `0, 1, 2`. -/
def line_map : ssmap :=
  { nodes := [⟨0, 0, 0, [0]⟩, ⟨0, 1, 1, [0]⟩, ⟨0, 2, 2, [0]⟩],
    ways := [⟨0, "Avenue", 50, true, [0, 1, 2]⟩] }

/-- Three nodes and no road at all. -/
def roadless_map : ssmap :=
  { nodes := [⟨0, 0, 0, []⟩, ⟨0, 1, 1, []⟩, ⟨0, 2, 2, []⟩], ways := [] }

/-- Two separate roads: way 0 joins the nodes `0` and `1`, way 1 joins the
nodes `2` and `3`. -/
def two_towns_map : ssmap :=
  { nodes := [⟨0, 0, 0, [0]⟩, ⟨0, 1, 1, [0]⟩, ⟨5, 0, 2, [1]⟩, ⟨5, 1, 3, [1]⟩],
    ways := [⟨0, "Mill Lane", 50, false, [0, 1]⟩, ⟨1, "Quay Street", 50, false, [2, 3]⟩] }

/-- Three nodes on one closed two-way road `0, 1, 2, 0`, which starts and ends
at node `0`. -/
def ring_map : ssmap :=
  { nodes := [⟨0, 0, 0, [0]⟩, ⟨5, 0, 1, [0]⟩, ⟨0, 1, 2, [0]⟩],
    ways := [⟨0, "Ring Road", 60, false, [0, 1, 2, 0]⟩] }

/-- The nodes and roads of `detour_map` with two different speed limits: way 0,
30 km/h, runs `0, 2, 1`, and way 1, 60 km/h, joins `0` and `1` directly. -/
def two_speed_map : ssmap :=
  { nodes := [⟨0, 0, 0, [0, 1]⟩, ⟨0, 1, 1, [0, 1]⟩, ⟨0, 3, 2, [0]⟩],
    ways := [⟨0, "Ring Road", 30, false, [0, 2, 1]⟩, ⟨1, "Main Street", 60, false, [0, 1]⟩] }

/-- Two nodes on one two-way road whose node sequence `0, 0, 1` lists node `0`
next to itself. -/
def stutter_map : ssmap :=
  { nodes := [⟨0, 0, 0, [0]⟩, ⟨0, 1, 1, [0]⟩],
    ways := [⟨0, "Loop Lane", 50, false, [0, 0, 1]⟩] }

/-- A heap in heap order with three entries and room for a fourth. -/
def ordered_heap : MinHeap := ⟨3, 4, [⟨1, 2⟩, ⟨2, 5⟩, ⟨3, 4⟩]⟩

/-- A heap with two entries, one stale slot behind them, and room for one more
entry. -/
def stale_heap : MinHeap := ⟨2, 3, [⟨1, 2⟩, ⟨2, 5⟩, ⟨7, 1⟩]⟩

/-- The heap left by the insertions of `(1, 1)`, `(2, 9)` and `(3, 2)` into a
fresh heap of capacity 3, two calls of `remove_min` and the insertion of
`(7, 10)`: two entries, and behind them the stale entry `(3, 2)`. -/
def refilled_heap : MinHeap := ⟨2, 3, [⟨2, 9⟩, ⟨7, 10⟩, ⟨3, 2⟩]⟩

/-- Three nodes: way 0 joins `0` and `1` (two-way) and way 1 is the one-way
road `0, 1, 2`; the nodes `0` and `1` list way 0 first. -/
def side_street_map : ssmap :=
  { nodes := [⟨0, 0, 0, [0, 1]⟩, ⟨0, 1, 1, [0, 1]⟩, ⟨0, 2, 2, [1]⟩],
    ways := [⟨0, "Side Street", 30, false, [0, 1]⟩, ⟨1, "Avenue", 50, true, [0, 1, 2]⟩] }

/-- The nodes and roads of `detour_map` with a fast ring road and a slow direct
street: way 0, 100 km/h, runs `0, 2, 1`, and way 1, 5 km/h, joins `0` and `1`. -/
def slow_street_map : ssmap :=
  { nodes := [⟨0, 0, 0, [0, 1]⟩, ⟨0, 1, 1, [0, 1]⟩, ⟨0, 3, 2, [0]⟩],
    ways := [⟨0, "Ring Road", 100, false, [0, 2, 1]⟩, ⟨1, "Main Street", 5, false, [0, 1]⟩] }

/-! # Properties -/

/-! ## Array reads -/

theorem nth_eq_some_of_range {α : Type} (l : List α) (i : Int) (h0 : 0 ≤ i)
    (h1 : i < (l.length : Int)) : ∃ x, nth l i = some x ∧ x ∈ l := by
  have hlt : i.toNat < l.length := by omega
  refine ⟨l[i.toNat], ?_, List.getElem_mem _⟩
  simp [nth, h0, List.getElem?_eq_getElem hlt]

theorem nth_mem {α : Type} (l : List α) (i : Int) (x : α) (h : nth l i = some x) : x ∈ l := by
  unfold nth at h
  split at h
  · exact List.mem_iff_getElem?.mpr ⟨_, h⟩
  · cases h

theorem nth_range {α : Type} (l : List α) (i : Int) (x : α) (h : nth l i = some x) :
    0 ≤ i ∧ i < (l.length : Int) := by
  unfold nth at h
  split at h
  · rename_i h0
    have := (List.getElem?_eq_some_iff.mp h).1
    omega
  · cases h

/-! ## The id check -/

theorem first_invalid_eq_none (n : Int) (R : List Int) :
    first_invalid n R = none ↔ ∀ x ∈ R, 0 ≤ x ∧ x < n := by
  induction R with
  | nil => simp [first_invalid]
  | cons x xs ih =>
    simp only [first_invalid, List.mem_cons, forall_eq_or_imp]
    by_cases hx : x < 0 ∨ x ≥ n
    · simp only [hx, if_true]
      constructor
      · intro h; cases h
      · rintro ⟨h, _⟩; omega
    · simp only [hx, if_false, ih]
      constructor
      · intro h; exact ⟨by omega, h⟩
      · intro h; exact h.2

theorem first_invalid_append (n : Int) (pre post : List Int) (x : Int)
    (hpre : ∀ y ∈ pre, 0 ≤ y ∧ y < n) (hx : x < 0 ∨ n ≤ x) :
    first_invalid n (pre ++ x :: post) = some x := by
  induction pre with
  | nil => simp [first_invalid, hx]
  | cons y ys ih =>
    have hy := hpre y (List.mem_cons_self _ _)
    have hny : ¬ (y < 0 ∨ y ≥ n) := by omega
    simp only [List.cons_append, first_invalid, hny, if_false]
    exact ih (fun z hz => hpre z (List.mem_cons_of_mem _ hz))

/-! ## The route loop -/

theorem leg_passes_iff (m : ssmap) (a b : Int) :
    leg_passes m a b = true ↔ ∃ s, leg_check m a b = some (Except.ok s) := by
  unfold leg_passes
  split
  · rename_i s h; simp [h]
  · rename_i h
    constructor
    · intro h2; cases h2
    · rintro ⟨s, hs⟩; exact absurd hs (h s)

/-- A leg that passes its checks has a leg time, computed with the speed limit
the check hands over. -/
theorem leg_time_of_check (dist : node → node → ℚ) (m : ssmap) (a b : Int) (s : ℚ)
    (na nb : node) (ha : nth m.nodes a = some na) (hb : nth m.nodes b = some nb)
    (h : leg_check m a b = some (Except.ok s)) :
    leg_time dist m a b = some (calculate_travel_time dist na nb s) := by
  unfold leg_check at h
  unfold leg_time
  simp only [ha, hb]
  cases hsw : shared_way m a b with
  | none => simp [hsw] at h
  | some w =>
    simp only [hsw] at h ⊢
    split at h
    · cases h
    · cases hw : nth m.ways w with
      | none => simp [hw] at h
      | some way1 =>
        simp only [hw] at h ⊢
        split at h
        · cases h
        · split at h
          · cases h
          · simp only [Option.some.injEq, Except.ok.injEq] at h
            rw [h]

/-- On a route of existing, pairwise distinct nodes whose legs all pass, the
loop adds the sum of the leg times to the running total and prints nothing. -/
theorem travel_loop_of_passes (dist : node → node → ℚ) (m : ssmap) (R : List Int)
    (hr : ∀ x ∈ R, node_exists m x) (hn : R.Nodup)
    (hl : List.Chain' (fun a b => leg_passes m a b = true) R) :
    ∃ t, route_time dist m R = some t ∧
      ∀ total, travel_loop dist m R total = some ⟨none, total + t⟩ := by
  induction R with
  | nil => exact ⟨0, by simp [route_time], by intro total; simp [travel_loop]⟩
  | cons a rest ih =>
    cases rest with
    | nil => exact ⟨0, by simp [route_time], by intro total; simp [travel_loop]⟩
    | cons b rest2 =>
      have hn2 := List.nodup_cons.mp hn
      have hl2 := List.chain'_cons.mp hl
      obtain ⟨t, ht, hloop⟩ := ih (fun x hx => hr x (List.mem_cons_of_mem _ hx)) hn2.2 hl2.2
      obtain ⟨s, hs⟩ := (leg_passes_iff m a b).mp hl2.1
      have hea := hr a (List.mem_cons_self _ _)
      have heb := hr b (List.mem_cons_of_mem _ (List.mem_cons_self _ _))
      obtain ⟨na, hna, -⟩ := nth_eq_some_of_range m.nodes a hea.1 hea.2
      obtain ⟨nb, hnb, -⟩ := nth_eq_some_of_range m.nodes b heb.1 heb.2
      have hlt := leg_time_of_check dist m a b s na nb hna hnb hs
      refine ⟨calculate_travel_time dist na nb s + t, ?_, ?_⟩
      · simp [route_time, hlt, ht]
      · intro total
        rw [travel_loop]
        simp only [hn2.1, if_false, hs, hna, hnb, hloop]
        simp [add_assoc]

/-- C1: for every graph and every route whose ids all exist, are pairwise
distinct and whose legs all pass the leg checks (that is, a route passing all
validation checks), `ssmap_path_travel_time` prints no error and returns the
sum, over the consecutive pairs, of `calculate_travel_time` of the two node
records and the speed limit of the way `shared_way` gives for the pair. -/
theorem travel_time_eq_sum_of_legs (dist : node → node → ℚ) (m : ssmap) (R : List Int)
    (hr : ∀ x ∈ R, node_exists m x) (hn : R.Nodup)
    (hl : List.Chain' (fun a b => leg_passes m a b = true) R) :
    ∃ t, route_time dist m R = some t ∧
      ssmap_path_travel_time dist m R = some ⟨none, t⟩ := by
  obtain ⟨t, ht, hloop⟩ := travel_loop_of_passes dist m R hr hn hl
  refine ⟨t, ht, ?_⟩
  have hfi : first_invalid m.nr_nodes R = none :=
    (first_invalid_eq_none _ _).mpr hr
  simp [ssmap_path_travel_time, hfi, hloop]

/-- Instance of C1: the route `0, 1, 2` on `line_map`. -/
theorem travel_time_eq_sum_of_legs_witness :
    ∃ t, route_time flat_distance line_map [0, 1, 2] = some t ∧
      ssmap_path_travel_time flat_distance line_map [0, 1, 2] = some ⟨none, t⟩ :=
  travel_time_eq_sum_of_legs flat_distance line_map [0, 1, 2] (by decide) (by decide)
    (by simp only [List.chain'_cons, List.chain'_singleton]; decide)

/-- C4: a route that contains an id outside `[0, nr_nodes)` makes
`ssmap_path_travel_time` print "node does not exist" for the first such id
and return `-1.0`, whatever follows that id and whatever the graph is. -/
theorem travel_time_reports_first_missing_node (dist : node → node → ℚ) (m : ssmap)
    (pre post : List Int) (x : Int)
    (hpre : ∀ y ∈ pre, node_exists m y) (hx : ¬ node_exists m x) :
    ssmap_path_travel_time dist m (pre ++ x :: post) =
      some ⟨some (.node_does_not_exist x), -1⟩ := by
  have hx2 : x < 0 ∨ m.nr_nodes ≤ x := by
    unfold node_exists at hx; omega
  simp [ssmap_path_travel_time, first_invalid_append m.nr_nodes pre post x hpre hx2]

/-- Instance of C4: the id `7` after two existing ids on `roadless_map`. -/
theorem travel_time_reports_first_missing_node_witness :
    ssmap_path_travel_time flat_distance roadless_map ([0, 2] ++ 7 :: [2, -4, 0]) =
      some ⟨some (.node_does_not_exist 7), -1⟩ :=
  travel_time_reports_first_missing_node flat_distance roadless_map [0, 2] [2, -4, 0] 7
    (by decide) (by decide)

theorem shared_way_scan_spec (ws1 ws2 : List Int) :
    (shared_way_scan ws1 ws2 = -1 ∧ ∀ w ∈ ws1, w ≠ -1 → w ∉ ws2) ∨
      (shared_way_scan ws1 ws2 ∈ ws1 ∧ shared_way_scan ws1 ws2 ∈ ws2) := by
  induction ws1 with
  | nil => left; simp [shared_way_scan]
  | cons w rest ih =>
    unfold shared_way_scan
    by_cases hw : w ∈ ws2
    · right; simp [hw]
    · simp only [hw, if_false]
      rcases ih with ⟨h1, h2⟩ | ⟨h1, h2⟩
      · left
        refine ⟨h1, ?_⟩
        intro x hx hne
        rcases List.mem_cons.mp hx with rfl | hx
        · exact hw
        · exact h2 x hx hne
      · right; exact ⟨List.mem_cons_of_mem _ h1, h2⟩

theorem shared_way_scan_of_disjoint (ws1 ws2 : List Int) (h : ∀ w ∈ ws1, w ∉ ws2) :
    shared_way_scan ws1 ws2 = -1 := by
  induction ws1 with
  | nil => simp [shared_way_scan]
  | cons w rest ih =>
    unfold shared_way_scan
    simp only [h w (List.mem_cons_self _ _), if_false]
    exact ih (fun x hx => h x (List.mem_cons_of_mem _ hx))

/-- The loop walks over a first part of the route whose nodes exist, do not
occur again later, and whose legs all pass: it arrives at the node after that
part with some running total and nothing printed. -/
theorem travel_loop_skips_passing_legs (dist : node → node → ℚ) (m : ssmap)
    (a : Int) (tail : List Int) (ha : node_exists m a) :
    ∀ (pre : List Int) (total : ℚ), (∀ x ∈ pre, node_exists m x) → pre.Nodup →
      (∀ x ∈ pre, x ∉ a :: tail) →
      List.Chain' (fun x y => leg_passes m x y = true) (pre ++ [a]) →
      ∃ total2, travel_loop dist m (pre ++ a :: tail) total =
        travel_loop dist m (a :: tail) total2 := by
  intro pre
  induction pre with
  | nil => intro total _ _ _ _; exact ⟨total, rfl⟩
  | cons x pre2 ih =>
    intro total hr hnd hfirst hl
    have hex := hr x (List.mem_cons_self _ _)
    obtain ⟨nx, hnx, -⟩ := nth_eq_some_of_range m.nodes x hex.1 hex.2
    have hnd2 := List.nodup_cons.mp hnd
    have hr2 : ∀ y ∈ pre2, node_exists m y := fun y hy => hr y (List.mem_cons_of_mem _ hy)
    have hfirst2 : ∀ y ∈ pre2, y ∉ a :: tail :=
      fun y hy => hfirst y (List.mem_cons_of_mem _ hy)
    have hxa := hfirst x (List.mem_cons_self _ _)
    cases pre2 with
    | nil =>
      have hl2 := List.chain'_cons.mp hl
      obtain ⟨s, hs⟩ := (leg_passes_iff m x a).mp hl2.1
      obtain ⟨na, hna, -⟩ := nth_eq_some_of_range m.nodes a ha.1 ha.2
      refine ⟨total + calculate_travel_time dist nx na s, ?_⟩
      show travel_loop dist m (x :: a :: tail) total = _
      rw [travel_loop]
      simp only [hxa, if_false, hs, hnx, hna]
    | cons y pre3 =>
      have hl2 := List.chain'_cons.mp hl
      obtain ⟨s, hs⟩ := (leg_passes_iff m x y).mp hl2.1
      have hey := hr y (List.mem_cons_of_mem _ (List.mem_cons_self _ _))
      obtain ⟨ny, hny, -⟩ := nth_eq_some_of_range m.nodes y hey.1 hey.2
      obtain ⟨total2, h2⟩ :=
        ih (total + calculate_travel_time dist nx ny s) hr2 hnd2.2 hfirst2 hl2.2
      refine ⟨total2, ?_⟩
      rw [← h2]
      show travel_loop dist m (x :: y :: (pre3 ++ a :: tail)) total = _
      rw [travel_loop]
      have hxt : x ∉ y :: (pre3 ++ a :: tail) := by
        intro hmem
        rcases List.mem_cons.mp hmem with h | h
        · exact hnd2.1 (h ▸ List.mem_cons_self _ _)
        · rcases List.mem_append.mp h with h | h
          · exact hnd2.1 (List.mem_cons_of_mem _ h)
          · exact hxa h
      simp only [hxt, if_false, hs, hnx, hny]
      rfl

/-- C5 (as the code has it): on a route of existing ids, let `cur` be the first
id that occurs again later. If every leg before `cur` passes the leg checks,
`ssmap_path_travel_time` prints "node appeared more than once" for `cur` and
returns `-1.0`, whatever is wrong with the legs from `cur` on. -/
theorem travel_time_reports_duplicate (dist : node → node → ℚ) (m : ssmap)
    (pre rest : List Int) (cur : Int)
    (hr : ∀ x ∈ pre ++ cur :: rest, node_exists m x)
    (hnd : pre.Nodup) (hfirst : ∀ x ∈ pre, x ∉ cur :: rest) (hcur : cur ∈ rest)
    (hl : List.Chain' (fun x y => leg_passes m x y = true) (pre ++ [cur])) :
    ssmap_path_travel_time dist m (pre ++ cur :: rest) =
      some ⟨some (.node_appeared_more_than_once cur), -1⟩ := by
  have hfi : first_invalid m.nr_nodes (pre ++ cur :: rest) = none :=
    (first_invalid_eq_none _ _).mpr hr
  have hc : node_exists m cur := hr cur (by simp)
  obtain ⟨total2, h2⟩ := travel_loop_skips_passing_legs dist m cur rest hc pre 0
    (fun x hx => hr x (by simp [hx])) hnd hfirst hl
  simp only [ssmap_path_travel_time, hfi, h2]
  cases rest with
  | nil => cases hcur
  | cons b rest2 =>
    rw [travel_loop]
    simp only [hcur, if_true]

/-- Instance of the amended C5: the route `0, 1, 2, 1` on `line_map`, whose first leg passes. -/
theorem travel_time_reports_duplicate_witness :
    ssmap_path_travel_time flat_distance line_map ([0] ++ 1 :: [2, 1]) =
      some ⟨some (.node_appeared_more_than_once 1), -1⟩ :=
  travel_time_reports_duplicate flat_distance line_map [0] [2, 1] 1
    (by decide) (by decide) (by decide) (by decide)
    (by simp only [List.singleton_append, List.chain'_cons, List.chain'_singleton]; decide)

/-- C5 is false as stated: in `roadless_map` the route `0, 1, 2, 1` has
existing ids and repeats `1`, yet the error printed is the missing road of its
first leg. -/
theorem duplicate_not_always_reported :
    (∀ x ∈ [0, 1, 2, 1], node_exists roadless_map x) ∧ ¬ ([0, 1, 2, 1] : List Int).Nodup ∧
      ssmap_path_travel_time flat_distance roadless_map [0, 1, 2, 1] =
        some ⟨some (.no_roads_between 0 1), -1⟩ := by
  decide

/-- The message "no roads" comes out of the leg checks exactly when
`shared_way` returns `-1`. -/
theorem leg_check_no_roads_iff (m : ssmap) (a b c d : Int) :
    leg_check m a b = some (Except.error (route_error.no_roads_between c d)) ↔
      shared_way m a b = some (-1) ∧ c = a ∧ d = b := by
  unfold leg_check
  cases hsw : shared_way m a b with
  | none => simp
  | some w =>
    simp only []
    by_cases hw : w = -1
    · subst hw
      simp only [if_true, Option.some.injEq, Except.error.injEq,
        route_error.no_roads_between.injEq, true_and]
      constructor
      · rintro ⟨h1, h2⟩; exact ⟨h1.symm, h2.symm⟩
      · rintro ⟨h1, h2⟩; exact ⟨h1.symm, h2.symm⟩
    · simp only [hw, if_false, Option.some.injEq, false_and, iff_false]
      cases hway : nth m.ways w with
      | none => simp
      | some way1 =>
        simp only []
        split
        · simp
        · split <;> simp

/-- When the loop prints "no roads between a and b", the pair `(a, b)` is a
consecutive pair of the route for which `shared_way` returned `-1`. -/
theorem travel_loop_no_roads (dist : node → node → ℚ) (m : ssmap) (a b : Int) (v : ℚ) :
    ∀ (R : List Int) (total : ℚ),
      travel_loop dist m R total = some ⟨some (.no_roads_between a b), v⟩ →
      shared_way m a b = some (-1) ∧ ∃ pre post, R = pre ++ a :: b :: post := by
  intro R
  induction R with
  | nil => intro total h; simp [travel_loop] at h
  | cons x rest ih =>
    intro total h
    cases rest with
    | nil => simp [travel_loop] at h
    | cons y rest2 =>
      rw [travel_loop] at h
      split at h
      · simp at h
      · cases hlc : leg_check m x y with
        | none => simp [hlc] at h
        | some r =>
          cases r with
          | error e =>
            simp only [hlc, Option.some.injEq, travel_result.mk.injEq] at h
            have he : e = .no_roads_between a b := by
              have := h.1; simpa using this
            subst he
            obtain ⟨h1, h2, h3⟩ := (leg_check_no_roads_iff m x y a b).mp hlc
            subst h2; subst h3
            exact ⟨h1, [], rest2, rfl⟩
          | ok s =>
            simp only [hlc] at h
            split at h
            · obtain ⟨h1, pre, post, hpp⟩ := ih _ h
              exact ⟨h1, x :: pre, post, by simp [hpp]⟩
            · cases h

/-- C6: on a route of existing, pairwise distinct ids (in a graph where no
node lists the invalid id `-1` as a way): if every leg before the pair
`(a, b)` passes the leg checks and `a` and `b` have no incident way id in
common, `ssmap_path_travel_time` prints "there are no roads between node a
and node b" and returns `-1.0`; and whenever it prints that line for a pair
`(a, b)`, this pair is a consecutive pair of the route with no incident way
id in common. -/
theorem travel_time_no_roads_iff (dist : node → node → ℚ) (m : ssmap) (R : List Int)
    (hr : ∀ x ∈ R, node_exists m x) (hn : R.Nodup)
    (hw : ∀ n ∈ m.nodes, (-1 : Int) ∉ n.way_ids) :
    (∀ pre a b post, R = pre ++ a :: b :: post →
        List.Chain' (fun x y => leg_passes m x y = true) (pre ++ [a]) →
        no_common_way m a b →
        ssmap_path_travel_time dist m R = some ⟨some (.no_roads_between a b), -1⟩) ∧
    (∀ a b v, ssmap_path_travel_time dist m R = some ⟨some (.no_roads_between a b), v⟩ →
        no_common_way m a b ∧ ∃ pre post, R = pre ++ a :: b :: post) := by
  have hfi : first_invalid m.nr_nodes R = none := (first_invalid_eq_none _ _).mpr hr
  constructor
  · intro pre a b post hR hl hnc
    subst hR
    have ha : node_exists m a := hr a (by simp)
    have hb : node_exists m b := hr b (by simp)
    have hn2 := List.nodup_append.mp hn
    obtain ⟨total2, h2⟩ := travel_loop_skips_passing_legs dist m a (b :: post) ha pre 0
      (fun x hx => hr x (by simp [hx])) hn2.1 (fun x hx hx2 => hn2.2.2 hx hx2) hl
    obtain ⟨na, hna, -⟩ := nth_eq_some_of_range m.nodes a ha.1 ha.2
    obtain ⟨nb, hnb, -⟩ := nth_eq_some_of_range m.nodes b hb.1 hb.2
    have hsw : shared_way m a b = some (-1) := by
      simp only [shared_way, hna, hnb]
      rw [shared_way_scan_of_disjoint _ _ (hnc na nb hna hnb)]
    have hlc : leg_check m a b = some (.error (.no_roads_between a b)) :=
      (leg_check_no_roads_iff m a b a b).mpr ⟨hsw, rfl, rfl⟩
    have hab : a ∉ b :: post := (List.nodup_cons.mp hn2.2.1).1
    simp only [ssmap_path_travel_time, hfi, h2]
    rw [travel_loop]
    simp only [hab, if_false, hlc]
  · intro a b v h
    simp only [ssmap_path_travel_time, hfi] at h
    obtain ⟨hsw, hpp⟩ := travel_loop_no_roads dist m a b v R 0 h
    refine ⟨?_, hpp⟩
    intro na nb hna hnb w hw1 hw2
    simp only [shared_way, hna, hnb, Option.some.injEq] at hsw
    rcases shared_way_scan_spec na.way_ids nb.way_ids with ⟨-, h2⟩ | ⟨h1, -⟩
    · have hne : w ≠ -1 := by
        intro h; subst h; exact hw na (nth_mem _ _ _ hna) hw1
      exact h2 w hw1 hne hw2
    · rw [hsw] at h1
      exact hw na (nth_mem _ _ _ hna) h1

/-- Instance of C6: the route `0, 1, 2` on `roadless_map`. -/
theorem travel_time_no_roads_iff_witness :
    (∀ pre a b post, ([0, 1, 2] : List Int) = pre ++ a :: b :: post →
        List.Chain' (fun x y => leg_passes roadless_map x y = true) (pre ++ [a]) →
        no_common_way roadless_map a b →
        ssmap_path_travel_time flat_distance roadless_map [0, 1, 2] =
          some ⟨some (.no_roads_between a b), -1⟩) ∧
    (∀ a b v, ssmap_path_travel_time flat_distance roadless_map [0, 1, 2] =
          some ⟨some (.no_roads_between a b), v⟩ →
        no_common_way roadless_map a b ∧ ∃ pre post, ([0, 1, 2] : List Int) = pre ++ a :: b :: post) :=
  travel_time_no_roads_iff flat_distance roadless_map [0, 1, 2] (by decide) (by decide)
    (by decide)

theorem calculate_travel_time_nonneg (dist : node → node → ℚ) (x y : node) (s : ℚ)
    (hd : 0 ≤ dist x y) (hs : 0 < s) : 0 ≤ calculate_travel_time dist x y s := by
  unfold calculate_travel_time
  have h36 : (0 : ℚ) < 3.6 := by norm_num
  have h1 : 0 < s / 3.6 := div_pos hs h36
  have h2 : 0 ≤ dist x y * 1000 := mul_nonneg hd (by norm_num)
  exact div_nonneg (div_nonneg h2 h1.le) (by norm_num)

/-- C7 (as the code has it): when the way that `shared_way` returns for
`(a, c)` has the node sequence `a, b, c` with `a`, `b`, `c` distinct existing
nodes, `ssmap_path_travel_time` on the route `a, c` prints "cannot go
directly from node a to node c" and returns `-1.0`. -/
theorem travel_time_detects_skip (dist : node → node → ℚ) (m : ssmap) (a b c w : Int)
    (way1 : way) (hway : nth m.ways w = some way1) (hseq : way1.node_ids = [a, b, c])
    (hab : a ≠ b) (hbc : b ≠ c) (hac : a ≠ c)
    (ha : node_exists m a) (hc : node_exists m c)
    (hsw : shared_way m a c = some w) :
    ssmap_path_travel_time dist m [a, c] = some ⟨some (.cannot_go_directly a c), -1⟩ := by
  have hfi : first_invalid m.nr_nodes [a, c] = none :=
    (first_invalid_eq_none _ _).mpr (by
      intro x hx
      simp only [List.mem_cons, List.mem_singleton, List.not_mem_nil, or_false] at hx
      rcases hx with rfl | rfl
      · exact ha
      · exact hc)
  have hw1 : w ≠ -1 := by
    intro h; subst h
    have := nth_range _ _ _ hway
    omega
  have hadj : adjacent_scan a c [a, b, c] = none := by
    simp [adjacent_scan, hab, hbc, hac, Ne.symm hab, Ne.symm hbc, Ne.symm hac]
  have hlc : leg_check m a c = some (.error (.cannot_go_directly a c)) := by
    simp [leg_check, hsw, hw1, hway, hseq, hadj]
  simp [ssmap_path_travel_time, hfi, travel_loop, hac, hlc]

/-- Instance of the amended C7: the route `0, 2` on `line_map`. -/
theorem travel_time_detects_skip_witness :
    ssmap_path_travel_time flat_distance line_map [0, 2] =
      some ⟨some (.cannot_go_directly 0 2), -1⟩ :=
  travel_time_detects_skip flat_distance line_map 0 1 2 0 ⟨0, "Avenue", 50, true, [0, 1, 2]⟩
    (by decide) rfl (by decide) (by decide) (by decide) (by decide) (by decide) (by decide)

/-- C7 is false as stated: `shortcut_map` contains the way `0, 1, 2` (way 1),
listed by its three distinct existing nodes, and yet the route `0, 2` is
accepted, because `shared_way` finds the direct way 0 first. -/
theorem skip_not_always_reported :
    (∃ way1, nth shortcut_map.ways 1 = some way1 ∧ way1.node_ids = [0, 1, 2]) ∧
      (∀ x ∈ [0, 1, 2], ∃ n, nth shortcut_map.nodes x = some n ∧ (1 : Int) ∈ n.way_ids) ∧
      ∃ t, ssmap_path_travel_time flat_distance shortcut_map [0, 2] = some ⟨none, t⟩ := by
  refine ⟨⟨_, rfl, rfl⟩, by decide, ?_⟩
  exact ⟨_, by simp [ssmap_path_travel_time, first_invalid, ssmap.nr_nodes, shortcut_map,
    travel_loop, leg_check, shared_way, nth, shared_way_scan, adjacent_scan]; rfl⟩

/-- C8 (as the code has it): let a one-way way have the node sequence `a, b, c`
with `a`, `b`, `c` distinct existing nodes. If it is the way `shared_way`
returns for `(c, b)`, the route `c, b` makes `ssmap_path_travel_time` print
"cannot go in reverse from node c to node b" and return `-1.0`. And,
independently, if it is the way `shared_way` returns for `(a, b)`, the route
`a, b` is accepted and its time is the time of that one leg. -/
theorem travel_time_one_way (dist : node → node → ℚ) (m : ssmap) (a b c w : Int)
    (way1 : way) (hway : nth m.ways w = some way1) (hseq : way1.node_ids = [a, b, c])
    (hone : way1.one_way = true)
    (hab : a ≠ b) (hbc : b ≠ c) (hac : a ≠ c)
    (ha : node_exists m a) (hb : node_exists m b) (hc : node_exists m c) :
    (shared_way m c b = some w →
      ssmap_path_travel_time dist m [c, b] = some ⟨some (.cannot_go_in_reverse c b), -1⟩) ∧
    (shared_way m a b = some w →
      ∃ na nb, nth m.nodes a = some na ∧ nth m.nodes b = some nb ∧
        ssmap_path_travel_time dist m [a, b] =
          some ⟨none, calculate_travel_time dist na nb way1.speed_limit⟩) := by
  have hfi : ∀ x y, node_exists m x → node_exists m y →
      first_invalid m.nr_nodes [x, y] = none := by
    intro x y hx hy
    refine (first_invalid_eq_none _ _).mpr ?_
    intro z hz
    simp only [List.mem_cons, List.mem_singleton, List.not_mem_nil, or_false] at hz
    rcases hz with rfl | rfl
    · exact hx
    · exact hy
  have hw1 : w ≠ -1 := by
    intro h; subst h
    have := nth_range _ _ _ hway
    omega
  obtain ⟨na, hna, -⟩ := nth_eq_some_of_range m.nodes a ha.1 ha.2
  obtain ⟨nb, hnb, -⟩ := nth_eq_some_of_range m.nodes b hb.1 hb.2
  constructor
  · intro hcb
    have hadj : adjacent_scan c b [a, b, c] = some (b, c) := by
      simp [adjacent_scan, hab, hbc, hac, Ne.symm hab, Ne.symm hbc, Ne.symm hac]
    have hlc : leg_check m c b = some (.error (.cannot_go_in_reverse c b)) := by
      simp [leg_check, hcb, hw1, hway, hseq, hadj, hone, hbc]
    simp [ssmap_path_travel_time, hfi c b hc hb, travel_loop, Ne.symm hbc, hlc]
  · intro hsab
    refine ⟨na, nb, hna, hnb, ?_⟩
    have hadj : adjacent_scan a b [a, b, c] = some (a, b) := by
      simp [adjacent_scan]
    have hlc : leg_check m a b = some (.ok way1.speed_limit) := by
      simp [leg_check, hsab, hw1, hway, hseq, hadj, hone]
    simp [ssmap_path_travel_time, hfi a b ha hb, travel_loop, hab, hlc, hna, hnb]

/-- Instance of the amended C8: the routes `2, 1` and `0, 1` on `line_map`, where
both conditions hold, and the route `2, 1` on `side_street_map`, where the
one-way road is the way `shared_way` returns for `(2, 1)` but not for `(0, 1)`. -/
theorem travel_time_one_way_witness :
    (ssmap_path_travel_time flat_distance line_map [2, 1] =
        some ⟨some (.cannot_go_in_reverse 2 1), -1⟩ ∧
      ∃ na nb, nth line_map.nodes 0 = some na ∧ nth line_map.nodes 1 = some nb ∧
        ssmap_path_travel_time flat_distance line_map [0, 1] =
          some ⟨none, calculate_travel_time flat_distance na nb
            (way.speed_limit ⟨0, "Avenue", 50, true, [0, 1, 2]⟩)⟩) ∧
    (shared_way side_street_map 0 1 = some 0 ∧
      ssmap_path_travel_time flat_distance side_street_map [2, 1] =
        some ⟨some (.cannot_go_in_reverse 2 1), -1⟩) :=
  ⟨⟨(travel_time_one_way flat_distance line_map 0 1 2 0 ⟨0, "Avenue", 50, true, [0, 1, 2]⟩
        (by decide) rfl rfl (by decide) (by decide) (by decide) (by decide) (by decide)
        (by decide)).1 (by decide),
      (travel_time_one_way flat_distance line_map 0 1 2 0 ⟨0, "Avenue", 50, true, [0, 1, 2]⟩
        (by decide) rfl rfl (by decide) (by decide) (by decide) (by decide) (by decide)
        (by decide)).2 (by decide)⟩,
    ⟨by decide,
      (travel_time_one_way flat_distance side_street_map 0 1 2 1
        ⟨1, "Avenue", 50, true, [0, 1, 2]⟩ (by decide) rfl rfl (by decide) (by decide)
        (by decide) (by decide) (by decide) (by decide)).1 (by decide)⟩⟩

/-- C8 is false as stated: `one_way_map` contains the one-way way `0, 1, 2`
(way 1), listed by its three distinct existing nodes, and yet the route `2, 1`
is accepted, because `shared_way` finds the two-way way 0 first. -/
theorem reverse_not_always_reported :
    (∃ way1, nth one_way_map.ways 1 = some way1 ∧ way1.node_ids = [0, 1, 2] ∧
        way1.one_way = true) ∧
      (∀ x ∈ [0, 1, 2], ∃ n, nth one_way_map.nodes x = some n ∧ (1 : Int) ∈ n.way_ids) ∧
      ∃ t, ssmap_path_travel_time flat_distance one_way_map [2, 1] = some ⟨none, t⟩ := by
  refine ⟨⟨_, rfl, rfl, rfl⟩, by decide, ?_⟩
  exact ⟨_, by simp [ssmap_path_travel_time, first_invalid, ssmap.nr_nodes, one_way_map,
    travel_loop, leg_check, shared_way, nth, shared_way_scan, adjacent_scan]; rfl⟩

/-! ## The `path time` command -/

theorem parse_tokens_ok (ids : List Int) :
    parse_tokens (ids.map Except.ok) = Except.ok ids := by
  induction ids with
  | nil => rfl
  | cons x xs ih => simp [parse_tokens, ih]

/-- C9: given a node-id sequence of length 0 or 1, the travel-time command
prints "must specify at least two nodes", reports failure and prints no time
(it does not even call `ssmap_path_travel_time`). -/
theorem path_time_needs_two_nodes (dist : node → node → ℚ) (m : ssmap) (ids : List Int)
    (h : ids.length < 2) :
    handle_path_travel_time dist m (ids.map Except.ok) =
      some ⟨[.must_specify_at_least_two_nodes], false⟩ := by
  simp [handle_path_travel_time, parse_tokens_ok, h]

/-- Instance of C9: a command line with the single id `1`. -/
theorem path_time_needs_two_nodes_witness :
    handle_path_travel_time flat_distance line_map ([1].map Except.ok) =
      some ⟨[.must_specify_at_least_two_nodes], false⟩ :=
  path_time_needs_two_nodes flat_distance line_map [1] (by decide)

/-! ## Lists: exchanging two slots -/

theorem set_perm_cons {α : Type} (x b : α) :
    ∀ (xs : List α) (j : Nat), xs[j]? = some b → List.Perm (b :: xs.set j x) (x :: xs) := by
  intro xs
  induction xs with
  | nil => intro j h; simp at h
  | cons y ys ih =>
    intro j h
    cases j with
    | zero =>
      simp only [List.getElem?_cons_zero, Option.some.injEq] at h
      subst h
      simpa using List.Perm.swap x y ys
    | succ j2 =>
      simp only [List.getElem?_cons_succ] at h
      simp only [List.set_cons_succ]
      exact (List.Perm.swap y b _).trans (((ih j2 h).cons y).trans (List.Perm.swap x y ys))

theorem set_set_perm {α : Type} (a b : α) :
    ∀ (t : List α) (i j : Nat), t[i]? = some a → t[j]? = some b →
      List.Perm ((t.set i b).set j a) t := by
  intro t
  induction t with
  | nil => intro i j h; simp at h
  | cons y ys ih =>
    intro i j hi hj
    cases i with
    | zero =>
      simp only [List.getElem?_cons_zero, Option.some.injEq] at hi
      subst hi
      cases j with
      | zero =>
        simp only [List.getElem?_cons_zero, Option.some.injEq] at hj
        subst hj
        simp
      | succ j2 =>
        simp only [List.getElem?_cons_succ] at hj
        simpa using set_perm_cons y b ys j2 hj
    | succ i2 =>
      simp only [List.getElem?_cons_succ] at hi
      cases j with
      | zero =>
        simp only [List.getElem?_cons_zero, Option.some.injEq] at hj
        subst hj
        simpa using set_perm_cons y a ys i2 hi
      | succ j2 =>
        simp only [List.getElem?_cons_succ] at hj
        simpa using (ih i2 j2 hi hj).cons y

theorem slot_priority_set (els : List HeapNode) (i k : Nat) (x : HeapNode) (hi : i < els.length) :
    slot_priority (els.set i x) k = if k = i then x.priority else slot_priority els k := by
  unfold slot_priority
  by_cases hk : k = i
  · subst hk
    simp [hi]
  · simp [hk, List.getElem?_set_ne (Ne.symm hk)]

theorem slot_priority_of_get (els : List HeapNode) (i : Nat) (e : HeapNode)
    (h : els[i]? = some e) : slot_priority els i = e.priority := by
  simp [slot_priority, h]

/-- What `swap_heap_nodes` does to an array: same length, the two slots
exchanged, every prefix that contains both slots permuted, the rest untouched. -/
theorem swap_heap_nodes_spec (els : List HeapNode) (i j : Nat) (hi : i < els.length)
    (hj : j < els.length) :
    ∃ els2, swap_heap_nodes els i j = some els2 ∧ els2.length = els.length ∧
      (∀ k, slot_priority els2 k =
        if k = j then slot_priority els i else if k = i then slot_priority els j
        else slot_priority els k) ∧
      (∀ n, i < n → j < n → List.Perm (els2.take n) (els.take n) ∧ els2.drop n = els.drop n) := by
  have hgi : els[i]? = some els[i] := List.getElem?_eq_getElem hi
  have hgj : els[j]? = some els[j] := List.getElem?_eq_getElem hj
  refine ⟨(els.set i els[j]).set j els[i], ?_, by simp, ?_, ?_⟩
  · simp [swap_heap_nodes, hgi, hgj]
  · intro k
    rw [slot_priority_set _ _ _ _ (by simpa using hj), slot_priority_set _ _ _ _ hi]
    rw [slot_priority_of_get els i _ hgi, slot_priority_of_get els j _ hgj]
  · intro n hin hjn
    constructor
    · rw [List.set_take, List.set_take]
      apply set_set_perm
      · rw [List.getElem?_take_of_lt hin]; exact hgi
      · rw [List.getElem?_take_of_lt hjn]; exact hgj
    · rw [List.drop_set_of_lt _ _ hjn, List.drop_set_of_lt _ _ hin]

/-! ## The sift-up loop -/

theorem ordered_above_swap (els els1 : List HeapNode) (n i : Nat) (hi : 0 < i) (hin : i < n)
    (hpr : ∀ k, slot_priority els1 k =
      if k = (i - 1) / 2 then slot_priority els i else if k = i then slot_priority els ((i - 1) / 2)
      else slot_priority els k)
    (hlt : slot_priority els i < slot_priority els ((i - 1) / 2))
    (h : ordered_above els n i) : ordered_above els1 n ((i - 1) / 2) := by
  obtain ⟨h1, h2⟩ := h
  have hq : (i - 1) / 2 < i := by omega
  constructor
  · intro j hj0 hjn hjq
    by_cases hji : j = i
    · subst hji
      rw [hpr ((j - 1) / 2), hpr j]
      simp only [if_true, if_neg (show ¬ j = (j - 1) / 2 by omega)]
      exact hlt.le
    · have hj1 := h1 j hj0 hjn hji
      rw [hpr ((j - 1) / 2), hpr j]
      simp only [if_neg hjq, if_neg hji]
      by_cases hr1 : (j - 1) / 2 = (i - 1) / 2
      · simp only [if_pos hr1]
        rw [hr1] at hj1
        linarith
      · simp only [if_neg hr1]
        by_cases hr2 : (j - 1) / 2 = i
        · simp only [if_pos hr2]
          exact h2 j hj0 hjn hr2 hi
        · simp only [if_neg hr2]
          exact hj1
  · intro j hj0 hjn hjq hq0
    have hqq := h1 ((i - 1) / 2) hq0 (by omega) (by omega)
    rw [hpr (((i - 1) / 2 - 1) / 2), hpr j]
    simp only [if_neg (show ¬ ((i - 1) / 2 - 1) / 2 = (i - 1) / 2 by omega),
      if_neg (show ¬ ((i - 1) / 2 - 1) / 2 = i by omega),
      if_neg (show ¬ j = (i - 1) / 2 by omega)]
    by_cases hji : j = i
    · simp only [if_pos hji]
      exact hqq
    · simp only [if_neg hji]
      have hj1 := h1 j hj0 hjn hji
      rw [hjq] at hj1
      linarith

/-- The sift-up loop started at a written slot `i` with more than `i`
iterations allowed: it ends, permutes every prefix containing slot `i`,
leaves the slots after it alone, and restores the heap order when slot `i`
was the only exception to it. -/
theorem sift_up_spec : ∀ (fuel : Nat) (els : List HeapNode) (i : Nat),
    i < fuel → i < els.length →
    ∃ els2, sift_up fuel els i = some els2 ∧ els2.length = els.length ∧
      (∀ n, i < n → List.Perm (els2.take n) (els.take n) ∧ els2.drop n = els.drop n) ∧
      (∀ n, i < n → ordered_above els n i → heap_ordered els2 n) := by
  intro fuel
  induction fuel with
  | zero => intro els i h; omega
  | succ fuel ih =>
    intro els i hfuel hlen
    unfold sift_up
    by_cases hi0 : i = 0
    · subst hi0
      refine ⟨els, by simp, rfl, fun n _ => ⟨List.Perm.refl _, rfl⟩, ?_⟩
      intro n _ h j hj0 hjn
      exact h.1 j hj0 hjn (by omega)
    · have hq : (i - 1) / 2 < i := by omega
      have hqlen : (i - 1) / 2 < els.length := by omega
      have hgi : els[i]? = some els[i] := List.getElem?_eq_getElem hlen
      have hgq : els[(i - 1) / 2]? = some els[(i - 1) / 2] := List.getElem?_eq_getElem hqlen
      have hpi := slot_priority_of_get els i _ hgi
      have hpq := slot_priority_of_get els _ _ hgq
      simp only [if_neg hi0, hgi, hgq]
      by_cases hgt : els[(i - 1) / 2].priority > els[i].priority
      · simp only [if_pos hgt]
        obtain ⟨els1, hsw, hlen1, hpr1, hperm1⟩ :=
          swap_heap_nodes_spec els i ((i - 1) / 2) hlen hqlen
        simp only [hsw]
        obtain ⟨els2, hs2, hlen2, hperm2, hord2⟩ :=
          ih els1 ((i - 1) / 2) (by omega) (by omega)
        refine ⟨els2, hs2, by omega, ?_, ?_⟩
        · intro n hn
          obtain ⟨pa, da⟩ := hperm1 n hn (by omega)
          obtain ⟨pb, db⟩ := hperm2 n (by omega)
          exact ⟨pb.trans pa, db.trans da⟩
        · intro n hn h
          apply hord2 n (by omega)
          exact ordered_above_swap els els1 n i (by omega) hn hpr1 (by rw [hpi, hpq]; exact hgt) h
      · simp only [if_neg hgt]
        refine ⟨els, rfl, rfl, fun n _ => ⟨List.Perm.refl _, rfl⟩, ?_⟩
        intro n _ h j hj0 hjn
        by_cases hji : j = i
        · subst hji
          rw [hpi, hpq]
          exact not_lt.mp hgt
        · exact h.1 j hj0 hjn hji

/-! ## `min_heapify` -/

theorem heapify_pick_spec (h : MinHeap) (child smallest : Nat) (hwf : h.size ≤ h.elements.length)
    (hlt : smallest < child) :
    heapify_pick h child smallest =
      some (if child < h.size ∧
              slot_priority h.elements child < slot_priority h.elements smallest
            then child else smallest) := by
  unfold heapify_pick
  by_cases hc : child < h.size
  · have hcl : child < h.elements.length := by omega
    have hsl : smallest < h.elements.length := by omega
    have hgc : h.elements[child]? = some h.elements[child] := List.getElem?_eq_getElem hcl
    have hgs : h.elements[smallest]? = some h.elements[smallest] := List.getElem?_eq_getElem hsl
    simp only [if_pos hc, hgc, hgs, slot_priority_of_get _ _ _ hgc,
      slot_priority_of_get _ _ _ hgs]
    simp [hc]
  · simp [hc]

theorem ordered_below_swap (els els1 : List HeapNode) (n idx s : Nat) (hsn : s < n)
    (hpar : (s - 1) / 2 = idx) (hs0 : 0 < s)
    (hpr : ∀ k, slot_priority els1 k =
      if k = s then slot_priority els idx else if k = idx then slot_priority els s
      else slot_priority els k)
    (hlt : slot_priority els s < slot_priority els idx)
    (hmin : ∀ j, 0 < j → j < n → (j - 1) / 2 = idx → slot_priority els s ≤ slot_priority els j)
    (h : ordered_below els n idx) : ordered_below els1 n s := by
  obtain ⟨h1, h2⟩ := h
  have hidx : idx < s := by omega
  constructor
  · intro j hj0 hjn hjs
    by_cases hj1 : j = s
    · subst hj1
      rw [hpr ((j - 1) / 2), hpr j]
      simp only [if_true, if_neg hjs, if_pos hpar]
      exact hlt.le
    · by_cases hj2 : j = idx
      · subst hj2
        rw [hpr ((j - 1) / 2), hpr j]
        simp only [if_neg hjs, if_neg hj1, if_true,
          if_neg (show ¬ (j - 1) / 2 = j by omega)]
        exact h2 s hs0 hsn hpar hj0
      · rw [hpr ((j - 1) / 2), hpr j]
        simp only [if_neg hjs, if_neg hj1, if_neg hj2]
        by_cases hr : (j - 1) / 2 = idx
        · simp only [if_pos hr]
          exact hmin j hj0 hjn hr
        · simp only [if_neg hr]
          exact h1 j hj0 hjn hr
  · intro j hj0 hjn hjs _
    rw [hpr ((s - 1) / 2), hpr j]
    simp only [if_neg (show ¬ (s - 1) / 2 = s by omega), if_pos hpar,
      if_neg (show ¬ j = s by omega), if_neg (show ¬ j = idx by omega)]
    have hj1 := h1 j hj0 hjn (by omega)
    rw [hjs] at hj1
    exact hj1

/-- What the two tests of `min_heapify` establish about `smallest`. -/
theorem heapify_smallest_facts (pr : Nat → ℚ) (n idx s1 s : Nat)
    (hs1 : s1 = if 2 * idx + 1 < n ∧ pr (2 * idx + 1) < pr idx then 2 * idx + 1 else idx)
    (hs : s = if 2 * idx + 2 < n ∧ pr (2 * idx + 2) < pr s1 then 2 * idx + 2 else s1) :
    (s = idx ∨ (s < n ∧ (s - 1) / 2 = idx ∧ 0 < s ∧ pr s < pr idx)) ∧
      (∀ j, 0 < j → j < n → (j - 1) / 2 = idx → pr s ≤ pr j) := by
  by_cases hA1 : 2 * idx + 1 < n ∧ pr (2 * idx + 1) < pr idx
  · rw [if_pos hA1] at hs1
    subst hs1
    by_cases hA2 : 2 * idx + 2 < n ∧ pr (2 * idx + 2) < pr (2 * idx + 1)
    · rw [if_pos hA2] at hs
      subst hs
      refine ⟨Or.inr ⟨hA2.1, by omega, by omega, lt_trans hA2.2 hA1.2⟩, ?_⟩
      intro j hj0 hjn hjp
      have hj : j = 2 * idx + 1 ∨ j = 2 * idx + 2 := by omega
      rcases hj with rfl | rfl
      · exact hA2.2.le
      · exact le_rfl
    · rw [if_neg hA2] at hs
      subst hs
      refine ⟨Or.inr ⟨hA1.1, by omega, by omega, hA1.2⟩, ?_⟩
      intro j hj0 hjn hjp
      have hj : j = 2 * idx + 1 ∨ j = 2 * idx + 2 := by omega
      rcases hj with rfl | rfl
      · exact le_rfl
      · exact not_lt.mp (fun hlt => hA2 ⟨hjn, hlt⟩)
  · rw [if_neg hA1] at hs1
    rw [hs1] at hs
    by_cases hA2 : 2 * idx + 2 < n ∧ pr (2 * idx + 2) < pr idx
    · rw [if_pos hA2] at hs
      subst hs
      refine ⟨Or.inr ⟨hA2.1, by omega, by omega, hA2.2⟩, ?_⟩
      intro j hj0 hjn hjp
      have hj : j = 2 * idx + 1 ∨ j = 2 * idx + 2 := by omega
      rcases hj with rfl | rfl
      · have h1 : pr idx ≤ pr (2 * idx + 1) := not_lt.mp (fun hlt => hA1 ⟨hjn, hlt⟩)
        exact le_trans hA2.2.le h1
      · exact le_rfl
    · rw [if_neg hA2] at hs
      subst hs
      refine ⟨Or.inl rfl, ?_⟩
      intro j hj0 hjn hjp
      have hj : j = 2 * s + 1 ∨ j = 2 * s + 2 := by omega
      rcases hj with rfl | rfl
      · exact not_lt.mp (fun hlt => hA1 ⟨hjn, hlt⟩)
      · exact not_lt.mp (fun hlt => hA2 ⟨hjn, hlt⟩)

/-- The recursion of `min_heapify` at index `idx`, allowed more levels than
there are slots below `idx`: it ends, keeps size and capacity, permutes the
entries, leaves the stale slots alone, and restores the heap order when the
subtree at `idx` was the only exception to it. -/
theorem min_heapify_fuel_spec : ∀ (fuel : Nat) (h : MinHeap) (idx : Nat),
    h.size ≤ h.elements.length → 0 < fuel → h.size < fuel + idx →
    ∃ h2, min_heapify_fuel fuel h idx = some h2 ∧ h2.size = h.size ∧
      h2.capacity = h.capacity ∧ h2.elements.length = h.elements.length ∧
      List.Perm (h2.elements.take h.size) (h.elements.take h.size) ∧
      h2.elements.drop h.size = h.elements.drop h.size ∧
      (ordered_below h.elements h.size idx → heap_ordered h2.elements h.size) := by
  intro fuel
  induction fuel with
  | zero => intro h idx _ h0; omega
  | succ fuel ih =>
    intro h idx hwf _ hfuel
    unfold min_heapify_fuel
    rw [heapify_pick_spec h (2 * idx + 1) idx hwf (by omega)]
    simp only []
    generalize hs1 : (if 2 * idx + 1 < h.size ∧
        slot_priority h.elements (2 * idx + 1) < slot_priority h.elements idx
        then 2 * idx + 1 else idx) = s1
    have hs1lt : s1 < 2 * idx + 2 := by
      rw [← hs1]; split <;> omega
    rw [heapify_pick_spec h (2 * idx + 2) s1 hwf hs1lt]
    simp only []
    generalize hsm : (if 2 * idx + 2 < h.size ∧
        slot_priority h.elements (2 * idx + 2) < slot_priority h.elements s1
        then 2 * idx + 2 else s1) = smallest
    obtain ⟨hcase, hmin⟩ := heapify_smallest_facts (slot_priority h.elements) h.size idx s1
      smallest hs1.symm hsm.symm
    by_cases hne : smallest = idx
    · simp only [hne, ne_eq, not_true_eq_false, if_false]
      refine ⟨h, rfl, rfl, rfl, rfl, List.Perm.refl _, rfl, ?_⟩
      intro hob j hj0 hjn
      by_cases hjp : (j - 1) / 2 = idx
      · have := hmin j hj0 hjn hjp
        rw [hne] at this
        rw [hjp]; exact this
      · exact hob.1 j hj0 hjn hjp
    · simp only [ne_eq, hne, not_false_eq_true, if_true]
      rcases hcase with hc | ⟨hsn, hpar, hs0, hlt⟩
      · exact absurd hc hne
      · have hidxl : idx < h.elements.length := by omega
        have hsl : smallest < h.elements.length := by omega
        obtain ⟨els1, hsw, hlen1, hpr1, hperm1⟩ :=
          swap_heap_nodes_spec h.elements idx smallest hidxl hsl
        simp only [hsw]
        obtain ⟨h2, hh2, hsz, hcap, hlen2, hperm2, hdrop2, hord2⟩ :=
          ih { h with elements := els1 } smallest (by simp only []; omega) (by omega)
            (by simp only []; omega)
        simp only [] at hsz hcap hlen2 hperm2 hdrop2 hord2
        obtain ⟨pa, da⟩ := hperm1 h.size (by omega) hsn
        refine ⟨h2, hh2, hsz, hcap, by omega, hperm2.trans pa, hdrop2.trans da, ?_⟩
        intro hob
        apply hord2
        exact ordered_below_swap h.elements els1 h.size idx smallest hsn hpar hs0 hpr1 hlt hmin hob

/-! ## `insert_into_heap`, `remove_min`, `decrease_key` -/

theorem heap_ordered_root_le (els : List HeapNode) (n : Nat) (h : heap_ordered els n) :
    ∀ k, k < n → slot_priority els 0 ≤ slot_priority els k := by
  intro k
  induction k using Nat.strong_induction_on with
  | _ k ih =>
    intro hk
    by_cases hk0 : k = 0
    · subst hk0; exact le_rfl
    · exact le_trans (ih ((k - 1) / 2) (by omega) (by omega)) (h k (by omega) hk)

theorem append_singleton_perm_set_zero {α : Type} (t : List α) (root last : α)
    (h : t[0]? = some root) : List.Perm (t ++ [last]) (root :: t.set 0 last) := by
  cases t with
  | nil => simp at h
  | cons a t2 =>
    simp only [List.getElem?_cons_zero, Option.some.injEq] at h
    subst h
    simp only [List.cons_append, List.set_cons_zero]
    exact (List.perm_append_singleton _ _).cons _

theorem write_slot_spec (els : List HeapNode) (capacity i : Nat) (x : HeapNode)
    (hcap : i < capacity) (hlen : i ≤ els.length) :
    ∃ els1, write_slot els capacity i x = some els1 ∧
      els1.length = max els.length (i + 1) ∧ els1.take (i + 1) = els.take i ++ [x] ∧
      (∀ k, slot_priority els1 k = if k = i then x.priority else slot_priority els k) := by
  unfold write_slot
  simp only [if_neg (show ¬ capacity ≤ i by omega)]
  by_cases hlt : i < els.length
  · simp only [if_pos hlt]
    refine ⟨_, rfl, by simp; omega, ?_, fun k => slot_priority_set els i k x hlt⟩
    rw [List.take_succ, List.getElem?_set_self hlt, List.set_take,
      List.set_eq_of_length_le (by simp)]
    rfl
  · have heq : i = els.length := by omega
    simp only [if_neg hlt, if_pos heq]
    refine ⟨_, rfl, by simp; omega, ?_, ?_⟩
    · subst heq; simp
    · intro k
      subst heq
      unfold slot_priority
      by_cases hk : k = els.length
      · subst hk; simp
      · simp only [if_neg hk]
        by_cases hk2 : k < els.length
        · rw [List.getElem?_append_left hk2]
        · rw [List.getElem?_eq_none (by simp; omega), List.getElem?_eq_none (by omega)]

/-- `insert_into_heap` on a heap with room: it succeeds, the size grows by one,
the entries gain exactly the new entry, and the heap order is kept. -/
theorem insert_into_heap_spec (h : MinHeap) (node_id : Int) (priority : ℚ)
    (hwf : heap_wf h) (hroom : h.size < h.capacity) :
    ∃ h2, insert_into_heap h node_id priority = some h2 ∧ heap_wf h2 ∧
      h2.size = h.size + 1 ∧ h2.capacity = h.capacity ∧
      List.Perm (heap_entries h2) (⟨node_id, priority⟩ :: heap_entries h) ∧
      (heap_ordered h.elements h.size → heap_ordered h2.elements h2.size) := by
  unfold insert_into_heap
  simp only [if_neg (show ¬ h.size = h.capacity by omega)]
  obtain ⟨els1, hw, hlen1, htake1, hpr1⟩ :=
    write_slot_spec h.elements h.capacity h.size ⟨node_id, priority⟩ hroom hwf.1
  simp only [hw]
  obtain ⟨els2, hs, hlen2, hperm2, hord2⟩ :=
    sift_up_spec (h.size + 1) els1 h.size (by omega) (by omega)
  simp only [hs]
  refine ⟨_, rfl, ?_, rfl, rfl, ?_, ?_⟩
  · have := hwf.1; have := hwf.2
    constructor
    · show h.size + 1 ≤ els2.length
      omega
    · show els2.length ≤ h.capacity
      rw [hlen2, hlen1]
      omega
  · show List.Perm (els2.take (h.size + 1)) (_ :: h.elements.take h.size)
    refine ((hperm2 (h.size + 1) (by omega)).1).trans ?_
    rw [htake1]
    exact List.perm_append_singleton _ _
  · intro hord
    show heap_ordered els2 (h.size + 1)
    apply hord2 (h.size + 1) (by omega)
    constructor
    · intro j hj0 hjn hji
      rw [hpr1, hpr1, if_neg hji, if_neg (show ¬ (j - 1) / 2 = h.size by omega)]
      exact hord j hj0 (by omega)
    · intro j hj0 hjn hjp _
      omega

/-- `insert_into_heap` on a full heap changes nothing. -/
theorem insert_into_heap_full (h : MinHeap) (node_id : Int) (priority : ℚ)
    (hfull : h.size = h.capacity) : insert_into_heap h node_id priority = some h := by
  simp [insert_into_heap, hfull]

/-- `remove_min` on a heap that is not empty: it succeeds and returns slot 0,
the size drops by one, and the entries lose exactly the returned entry; on
an ordered heap the order is kept and the returned entry has the least
priority of all. -/
theorem remove_min_spec (h : MinHeap) (hwf : heap_wf h) (hpos : 0 < h.size) :
    ∃ root h2, remove_min h = some (root, h2) ∧ h.elements[0]? = some root ∧ heap_wf h2 ∧
      h2.size = h.size - 1 ∧ h2.capacity = h.capacity ∧
      List.Perm (heap_entries h) (root :: heap_entries h2) ∧
      (heap_ordered h.elements h.size →
        heap_ordered h2.elements h2.size ∧ ∀ e ∈ heap_entries h, root.priority ≤ e.priority) := by
  have hl0 : 0 < h.elements.length := by have := hwf.1; omega
  have hll : h.size - 1 < h.elements.length := by have := hwf.1; omega
  have hg0 : h.elements[0]? = some h.elements[0] := List.getElem?_eq_getElem hl0
  have hgl : h.elements[h.size - 1]? = some h.elements[h.size - 1] :=
    List.getElem?_eq_getElem hll
  unfold remove_min
  simp only [if_neg (show ¬ h.size ≤ 0 by omega), hg0, hgl, min_heapify]
  obtain ⟨h2, hh2, hsz, hcap, hlen2, hperm2, hdrop2, hord2⟩ :=
    min_heapify_fuel_spec (h.size - 1 + 1)
      { h with size := h.size - 1, elements := h.elements.set 0 h.elements[h.size - 1] } 0
      (by simp only [List.length_set]; omega) (by omega) (by simp only []; omega)
  simp only [List.length_set] at hsz hcap hlen2 hperm2 hdrop2 hord2
  simp only [hh2]
  refine ⟨_, h2, rfl, rfl, ?_, hsz, hcap, ?_, ?_⟩
  · have := hwf.1; have := hwf.2
    exact ⟨by omega, by omega⟩
  · show List.Perm (h.elements.take h.size) (_ :: h2.elements.take h2.size)
    rw [hsz]
    refine List.Perm.trans ?_ ((hperm2.symm).cons _)
    have hsplit : h.elements.take h.size = h.elements.take (h.size - 1) ++ [h.elements[h.size - 1]] := by
      conv_lhs => rw [show h.size = (h.size - 1) + 1 by omega]
      rw [List.take_succ, hgl]
      rfl
    rw [hsplit, List.set_take]
    have hg0t : 0 < h.size - 1 → (h.elements.take (h.size - 1))[0]? = some h.elements[0] := by
      intro hn
      rw [List.getElem?_take_of_lt hn]; exact hg0
    by_cases hn : h.size - 1 = 0
    · simp only [hn, List.take_zero, List.nil_append, List.set_nil]
      exact List.Perm.refl _
    · exact append_singleton_perm_set_zero _ _ _ (hg0t (by omega))
  · intro hord
    constructor
    · rw [hsz]
      apply hord2
      constructor
      · intro j hj0 hjn hjp
        rw [slot_priority_set _ _ _ _ hl0, slot_priority_set _ _ _ _ hl0,
          if_neg hjp, if_neg (show ¬ j = 0 by omega)]
        exact hord j hj0 (by omega)
      · intro j _ _ _ h0
        omega
    · intro e he
      obtain ⟨k, hke⟩ := List.mem_iff_getElem?.mp he
      unfold heap_entries at hke
      rw [List.getElem?_take] at hke
      have hklen : k < h.size := by
        by_contra hcon
        rw [if_neg hcon] at hke
        cases hke
      rw [if_pos hklen] at hke
      have hgk : h.elements[k]? = some e := hke
      have h1 := heap_ordered_root_le h.elements h.size hord k hklen
      rw [slot_priority_of_get _ _ _ hg0, slot_priority_of_get _ _ _ hgk] at h1
      exact h1

theorem key_scan_spec (els : List HeapNode) (node_id : Int) :
    ∀ (k i : Nat), i + k ≤ els.length →
      ∃ j, key_scan els node_id k i = some j ∧ i ≤ j ∧ j ≤ i + k ∧
        (∀ t, i ≤ t → t < j → ∀ e, els[t]? = some e → e.node_id ≠ node_id) ∧
        (j < i + k → ∃ e, els[j]? = some e ∧ e.node_id = node_id) := by
  intro k
  induction k with
  | zero =>
    intro i _
    exact ⟨i, rfl, le_rfl, le_rfl, fun t h1 h2 => by omega, fun h => by omega⟩
  | succ k ih =>
    intro i hlen
    have hg : els[i]? = some els[i] := List.getElem?_eq_getElem (by omega)
    unfold key_scan
    simp only [hg]
    by_cases hm : els[i].node_id = node_id
    · simp only [if_pos hm]
      exact ⟨i, rfl, le_rfl, by omega, fun t h1 h2 => by omega, fun _ => ⟨_, hg, hm⟩⟩
    · simp only [if_neg hm]
      obtain ⟨j, hj, h1, h2, h3, h4⟩ := ih (i + 1) (by omega)
      refine ⟨j, hj, by omega, by omega, ?_, fun h => h4 (by omega)⟩
      intro t ht1 ht2 e he
      by_cases hti : t = i
      · subst hti
        rw [hg] at he
        cases he
        exact hm
      · exact h3 t (by omega) ht2 e he

/-- `decrease_key` for a key present in the heap: it succeeds, keeps size and
capacity, gives the (first) entry with that key its new priority and leaves
all other entries as they are; and if the new priority is not larger than the
old one, the heap order is kept. -/
theorem decrease_key_spec (h : MinHeap) (node_id : Int) (priority : ℚ) (hwf : heap_wf h)
    (hpresent : ∃ e ∈ heap_entries h, e.node_id = node_id) :
    ∃ h2 i e, decrease_key h node_id priority = some h2 ∧ heap_wf h2 ∧ h2.size = h.size ∧
      h2.capacity = h.capacity ∧ (heap_entries h)[i]? = some e ∧ e.node_id = node_id ∧
      List.Perm (heap_entries h2) ((heap_entries h).set i ⟨node_id, priority⟩) ∧
      (heap_ordered h.elements h.size → priority ≤ e.priority →
        heap_ordered h2.elements h2.size) := by
  obtain ⟨j, hj, -, hjle, hbefore, hfound⟩ :=
    key_scan_spec h.elements node_id h.size 0 (by have := hwf.1; omega)
  have hjlt : j < h.size := by
    obtain ⟨e0, he0, hid0⟩ := hpresent
    obtain ⟨t, ht⟩ := List.mem_iff_getElem?.mp he0
    unfold heap_entries at ht
    rw [List.getElem?_take] at ht
    by_cases htn : t < h.size
    · rw [if_pos htn] at ht
      by_contra hcon
      exact hbefore t (by omega) (by omega) e0 ht hid0
    · rw [if_neg htn] at ht; cases ht
  obtain ⟨e, hge, hide⟩ := hfound (by omega)
  have hjlen : j < h.elements.length := by have := hwf.1; omega
  obtain ⟨els2, hs, hlen2, hperm2, hord2⟩ :=
    sift_up_spec (j + 1) (h.elements.set j ⟨node_id, priority⟩) j (by omega)
      (by simpa using hjlen)
  have hsetp : set_priority h.elements j priority = h.elements.set j ⟨node_id, priority⟩ := by
    simp only [set_priority, hge, hide]
  refine ⟨{ h with elements := els2 }, j, e, ?_, ?_, rfl, rfl, ?_, hide, ?_, ?_⟩
  · simp only [decrease_key, hj, if_pos hjlt, hsetp, hs]
  · have := hwf.1; have := hwf.2
    simp only [List.length_set] at hlen2
    exact ⟨by show h.size ≤ els2.length; omega, by show els2.length ≤ h.capacity; omega⟩
  · unfold heap_entries
    rw [List.getElem?_take_of_lt hjlt]
    exact hge
  · show List.Perm (els2.take h.size) ((h.elements.take h.size).set j _)
    rw [← List.set_take]
    exact (hperm2 h.size hjlt).1
  · intro hord hle
    show heap_ordered els2 h.size
    apply hord2 h.size hjlt
    have hpe := slot_priority_of_get _ _ _ hge
    constructor
    · intro t ht0 htn htj
      rw [slot_priority_set _ _ _ _ hjlen, slot_priority_set _ _ _ _ hjlen, if_neg htj]
      have h1 := hord t ht0 htn
      by_cases hp : (t - 1) / 2 = j
      · rw [if_pos hp]
        rw [hp, hpe] at h1
        exact le_trans hle h1
      · rw [if_neg hp]
        exact h1
    · intro t ht0 htn htp hj0
      rw [slot_priority_set _ _ _ _ hjlen, slot_priority_set _ _ _ _ hjlen,
        if_neg (show ¬ (j - 1) / 2 = j by omega), if_neg (show ¬ t = j by omega)]
      have h1 := hord t ht0 htn
      have h2 := hord j hj0 hjlt
      rw [htp] at h1
      exact le_trans h2 h1

/-! ## `find_neighbors` -/

theorem nodup_getElem?_inj {α : Type} (l : List α) (hn : l.Nodup) (i j : Nat) (x : α)
    (hi : l[i]? = some x) (hj : l[j]? = some x) : i = j := by
  obtain ⟨hi1, hi2⟩ := List.getElem?_eq_some_iff.mp hi
  obtain ⟨hj1, hj2⟩ := List.getElem?_eq_some_iff.mp hj
  exact (List.Nodup.getElem_inj_iff hn).mp (hi2.trans hj2.symm)

theorem nth_natCast {α : Type} (l : List α) (i : Nat) : nth l (i : Int) = l[i]? := by
  simp [nth]

theorem nth_eq_getElem? {α : Type} (l : List α) (i : Int) (x : α) (h : nth l i = some x) :
    i = ((i.toNat : Nat) : Int) ∧ l[i.toNat]? = some x := by
  unfold nth at h
  split at h
  · rename_i h0
    exact ⟨(Int.toNat_of_nonneg h0).symm, h⟩
  · cases h

/-- The scan of the interior positions finds nothing when the node does not
occur from position `j` on. -/
theorem interior_scan_absent (u : Int) (way1 : way) :
    ∀ (k j : Nat) (heap : MinHeap), j + k = way1.node_ids.length →
      (∀ t, j ≤ t → way1.node_ids[t]? ≠ some u) →
      interior_scan u way1 k j heap = some heap := by
  intro k
  induction k with
  | zero => intro j heap _ _; rfl
  | succ k ih =>
    intro j heap hlen habs
    have hg : way1.node_ids[j]? = some way1.node_ids[j] := List.getElem?_eq_getElem (by omega)
    unfold interior_scan
    simp only [hg]
    have hne : ¬ way1.node_ids[j] = u := by
      intro h
      exact habs j le_rfl (by rw [hg, h])
    simp only [if_neg hne]
    exact ih (j + 1) heap (by omega) (fun t ht => habs t (by omega))

/-- The scan of the interior positions, when the node sits at the interior
position `p` of a way without repeated nodes: the next node is inserted, and
before it the previous node unless the way is one-way. -/
theorem interior_scan_present (u : Int) (way1 : way) (hn : way1.node_ids.Nodup) (p : Nat)
    (prv nxt : Int) (hp : way1.node_ids[p]? = some u) (hp0 : 0 < p)
    (hprv : way1.node_ids[p - 1]? = some prv) (hnxt : way1.node_ids[p + 1]? = some nxt) :
    ∀ (k j : Nat) (heap : MinHeap), j + k = way1.node_ids.length → j ≤ p →
      heap_wf heap → heap.size + 2 ≤ heap.capacity →
      ∃ heap2, interior_scan u way1 k j heap = some heap2 ∧ heap_wf heap2 ∧
        heap2.capacity = heap.capacity ∧
        heap2.size = heap.size + (if way1.one_way then [nxt] else [nxt, prv]).length ∧
        List.Perm (heap_entries heap2)
          ((if way1.one_way then [nxt] else [nxt, prv]).map (fun v => (⟨v, 0⟩ : HeapNode)) ++
            heap_entries heap) := by
  intro k
  induction k with
  | zero =>
    intro j heap hlen hjp _ _
    have := (List.getElem?_eq_some_iff.mp hp).1
    omega
  | succ k ih =>
    intro j heap hlen hjp hwf hroom
    have hg : way1.node_ids[j]? = some way1.node_ids[j] := List.getElem?_eq_getElem (by omega)
    unfold interior_scan
    simp only [hg]
    by_cases heq : way1.node_ids[j] = u
    · have hjp2 : j = p := nodup_getElem?_inj _ hn j p u (by rw [hg, heq]) hp
      subst hjp2
      have hafter : ∀ t, j + 1 ≤ t → way1.node_ids[t]? ≠ some u := by
        intro t ht hcon
        have := nodup_getElem?_inj _ hn t j u hcon hp
        omega
      simp only [if_pos heq]
      by_cases hone : way1.one_way = true
      · simp only [hone, if_true, hnxt]
        obtain ⟨h1, hi1, hwf1, hsz1, hcap1, hperm1, -⟩ :=
          insert_into_heap_spec heap nxt 0 hwf (by omega)
        simp only [hi1]
        rw [interior_scan_absent u way1 k (j + 1) h1 (by omega) hafter]
        exact ⟨h1, rfl, hwf1, hcap1, by simp [hsz1], by simpa using hperm1⟩
      · have hone2 : way1.one_way = false := by simpa using hone
        have hprv2 : nth way1.node_ids ((j : Int) - 1) = some prv := by
          have : ((j : Int) - 1) = ((j - 1 : Nat) : Int) := by omega
          rw [this, nth_natCast]; exact hprv
        simp only [hone2, hprv2, hnxt]
        obtain ⟨h1, hi1, hwf1, hsz1, hcap1, hperm1, -⟩ :=
          insert_into_heap_spec heap prv 0 hwf (by omega)
        obtain ⟨h2, hi2, hwf2, hsz2, hcap2, hperm2, -⟩ :=
          insert_into_heap_spec h1 nxt 0 hwf1 (by omega)
        simp only [hi1, hi2]
        rw [interior_scan_absent u way1 k (j + 1) h2 (by omega) hafter]
        refine ⟨h2, rfl, hwf2, by omega, by simp; omega, ?_⟩
        simp only [Bool.false_eq_true, if_false, List.map_cons, List.map_nil, List.cons_append,
          List.nil_append]
        exact hperm2.trans (hperm1.cons _)
    · simp only [if_neg heq]
      have hjp2 : j ≠ p := by
        intro h; subst h
        rw [hg] at hp
        exact heq (Option.some.inj hp)
      exact ih (j + 1) heap (by omega) (by omega) hwf hroom

/-- What the body of the loop of `find_neighbors` does for one incident way
(with at least two, pairwise distinct nodes, and room for two entries): the
nodes inserted are exactly the nodes one legal step away from `u` on that way. -/
theorem neighbors_of_way_spec (u : Int) (way1 : way) (heap : MinHeap)
    (hn : way1.node_ids.Nodup) (hlen : 2 ≤ way1.node_ids.length)
    (hwf : heap_wf heap) (hroom : heap.size + 2 ≤ heap.capacity) :
    ∃ (heap2 : MinHeap) (added : List Int), neighbors_of_way u way1 heap = some heap2 ∧
      heap_wf heap2 ∧
      heap2.capacity = heap.capacity ∧ heap2.size = heap.size + added.length ∧
      added.length ≤ 2 ∧
      List.Perm (heap_entries heap2)
        (added.map (fun v => (⟨v, 0⟩ : HeapNode)) ++ heap_entries heap) ∧
      ∀ v, v ∈ added ↔ legal_step way1 u v := by
  have hg0 : way1.node_ids[0]? = some way1.node_ids[0] := List.getElem?_eq_getElem (by omega)
  have hg1 : way1.node_ids[1]? = some way1.node_ids[1] := List.getElem?_eq_getElem (by omega)
  have hgl : way1.node_ids[way1.node_ids.length - 1]? =
      some way1.node_ids[way1.node_ids.length - 1] := List.getElem?_eq_getElem (by omega)
  have hgl2 : way1.node_ids[way1.node_ids.length - 2]? =
      some way1.node_ids[way1.node_ids.length - 2] := List.getElem?_eq_getElem (by omega)
  have hnl : nth way1.node_ids ((way1.node_ids.length : Int) - 1) =
      some way1.node_ids[way1.node_ids.length - 1] := by
    have : ((way1.node_ids.length : Int) - 1) = ((way1.node_ids.length - 1 : Nat) : Int) := by
      omega
    rw [this, nth_natCast]; exact hgl
  have hnl2 : nth way1.node_ids ((way1.node_ids.length : Int) - 2) =
      some way1.node_ids[way1.node_ids.length - 2] := by
    have : ((way1.node_ids.length : Int) - 2) = ((way1.node_ids.length - 2 : Nat) : Int) := by
      omega
    rw [this, nth_natCast]; exact hgl2
  have hrange : ∀ (j : Nat) (x : Int), way1.node_ids[j]? = some x → j < way1.node_ids.length :=
    fun j x h => (List.getElem?_eq_some_iff.mp h).1
  unfold neighbors_of_way
  simp only [hg0]
  by_cases hfirst : way1.node_ids[0] = u
  · -- the node is the first entry of the way
    simp only [if_pos hfirst, hg1]
    obtain ⟨h1, hi1, hwf1, hsz1, hcap1, hperm1, -⟩ :=
      insert_into_heap_spec heap way1.node_ids[1] 0 hwf (by omega)
    refine ⟨h1, [way1.node_ids[1]], hi1, hwf1, hcap1, by simp [hsz1], by simp,
      by simpa using hperm1, ?_⟩
    intro v
    simp only [List.mem_singleton]
    constructor
    · intro hv
      exact ⟨0, Or.inl ⟨by rw [hg0, hfirst], by rw [hv]; exact hg1⟩⟩
    · rintro ⟨j, ⟨hj1, hj2⟩ | ⟨-, -, hj2⟩⟩
      · have hj0 : j = 0 := nodup_getElem?_inj _ hn j 0 u hj1 (by rw [hg0, hfirst])
        subst hj0
        rw [hg1] at hj2
        exact (Option.some.inj hj2).symm
      · have : j + 1 = 0 := nodup_getElem?_inj _ hn (j + 1) 0 u hj2 (by rw [hg0, hfirst])
        omega
  · simp only [if_neg hfirst, hnl]
    by_cases hlast : way1.node_ids[way1.node_ids.length - 1] = u
    · -- the node is the last entry of the way
      have hupos : way1.node_ids[way1.node_ids.length - 1]? = some u := by rw [hgl, hlast]
      simp only [if_pos hlast]
      by_cases hone : way1.one_way = true
      · simp only [hone, Bool.not_true, Bool.false_eq_true, if_false]
        refine ⟨heap, [], rfl, hwf, rfl, by simp, by simp, by simp, ?_⟩
        intro v
        simp only [List.not_mem_nil, false_iff]
        rintro ⟨j, ⟨hj1, hj2⟩ | ⟨hj0, -, -⟩⟩
        · have hj : j = way1.node_ids.length - 1 := nodup_getElem?_inj _ hn _ _ u hj1 hupos
          have := hrange _ _ hj2
          omega
        · rw [hone] at hj0; cases hj0
      · have hone2 : way1.one_way = false := by simpa using hone
        simp only [hone2, Bool.not_false, if_true, hnl2]
        obtain ⟨h1, hi1, hwf1, hsz1, hcap1, hperm1, -⟩ :=
          insert_into_heap_spec heap way1.node_ids[way1.node_ids.length - 2] 0 hwf (by omega)
        refine ⟨h1, [way1.node_ids[way1.node_ids.length - 2]], hi1, hwf1, hcap1,
          by simp [hsz1], by simp, by simpa using hperm1, ?_⟩
        intro v
        simp only [List.mem_singleton]
        constructor
        · intro hv
          refine ⟨way1.node_ids.length - 2, Or.inr ⟨hone2, by rw [hv]; exact hgl2, ?_⟩⟩
          have : way1.node_ids.length - 2 + 1 = way1.node_ids.length - 1 := by omega
          rw [this]; exact hupos
        · rintro ⟨j, ⟨hj1, hj2⟩ | ⟨-, hj1, hj2⟩⟩
          · have hj : j = way1.node_ids.length - 1 := nodup_getElem?_inj _ hn _ _ u hj1 hupos
            have := hrange _ _ hj2
            omega
          · have hj : j + 1 = way1.node_ids.length - 1 :=
              nodup_getElem?_inj _ hn _ _ u hj2 hupos
            have hj' : j = way1.node_ids.length - 2 := by omega
            subst hj'
            rw [hgl2] at hj1
            exact (Option.some.inj hj1).symm
    · simp only [if_neg hlast]
      by_cases hmem : ∃ p : Nat, way1.node_ids[p]? = some u
      · -- the node is an interior entry of the way
        obtain ⟨p, hp⟩ := hmem
        have hplt := hrange _ _ hp
        have hp0 : 0 < p := by
          by_contra hcon
          have : p = 0 := by omega
          subst this
          rw [hg0] at hp
          exact hfirst (Option.some.inj hp)
        have hpl : p + 1 < way1.node_ids.length := by
          by_contra hcon
          have : p = way1.node_ids.length - 1 := by omega
          subst this
          rw [hgl] at hp
          exact hlast (Option.some.inj hp)
        have hgprv : way1.node_ids[p - 1]? = some way1.node_ids[p - 1] :=
          List.getElem?_eq_getElem (by omega)
        have hgnxt : way1.node_ids[p + 1]? = some way1.node_ids[p + 1] :=
          List.getElem?_eq_getElem hpl
        obtain ⟨heap2, hscan, hwf2, hcap2, hsz2, hperm2⟩ :=
          interior_scan_present u way1 hn p _ _ hp hp0 hgprv hgnxt way1.node_ids.length 0 heap
            (by omega) (by omega) hwf hroom
        refine ⟨heap2, _, hscan, hwf2, hcap2, hsz2, by split <;> simp, hperm2, ?_⟩
        intro v
        constructor
        · intro hv
          by_cases hone : way1.one_way = true
          · simp only [hone, if_true, List.mem_singleton] at hv
            exact ⟨p, Or.inl ⟨hp, by rw [hv]; exact hgnxt⟩⟩
          · have hone2 : way1.one_way = false := by simpa using hone
            simp only [hone2, Bool.false_eq_true, if_false, List.mem_cons, List.mem_singleton,
              List.not_mem_nil, or_false] at hv
            rcases hv with hv | hv
            · exact ⟨p, Or.inl ⟨hp, by rw [hv]; exact hgnxt⟩⟩
            · refine ⟨p - 1, Or.inr ⟨hone2, by rw [hv]; exact hgprv, ?_⟩⟩
              have : p - 1 + 1 = p := by omega
              rw [this]; exact hp
        · rintro ⟨j, ⟨hj1, hj2⟩ | ⟨hj0, hj1, hj2⟩⟩
          · have hj : j = p := nodup_getElem?_inj _ hn _ _ u hj1 hp
            subst hj
            rw [hgnxt] at hj2
            have hv := (Option.some.inj hj2).symm
            split <;> simp [hv]
          · have hj : j + 1 = p := nodup_getElem?_inj _ hn _ _ u hj2 hp
            have hj' : j = p - 1 := by omega
            subst hj'
            rw [hgprv] at hj1
            have hv := (Option.some.inj hj1).symm
            simp [hj0, hv]
      · -- the node does not occur in the way
        have habs : ∀ t, 0 ≤ t → way1.node_ids[t]? ≠ some u :=
          fun t _ hcon => hmem ⟨t, hcon⟩
        rw [interior_scan_absent u way1 way1.node_ids.length 0 heap (by omega) habs]
        refine ⟨heap, [], rfl, hwf, rfl, by simp, by simp, by simp, ?_⟩
        intro v
        simp only [List.not_mem_nil, false_iff]
        rintro ⟨j, ⟨hj1, -⟩ | ⟨-, -, hj2⟩⟩
        · exact hmem ⟨j, hj1⟩
        · exact hmem ⟨j + 1, hj2⟩

theorem find_neighbors_loop_spec (m : ssmap) (u : Int)
    (hways : ∀ w ∈ m.ways, 2 ≤ w.node_ids.length ∧ w.node_ids.Nodup) :
    ∀ (ws : List Int) (heap : MinHeap), (∀ w ∈ ws, 0 ≤ w ∧ w < m.nr_ways) → heap_wf heap →
      heap.size + 2 * ws.length ≤ heap.capacity →
      ∃ heap2, find_neighbors_loop m u ws heap = some heap2 ∧ heap_wf heap2 ∧
        ∀ e, e ∈ heap_entries heap2 ↔
          (e ∈ heap_entries heap ∨
            (e.priority = 0 ∧ ∃ w ∈ ws, ∃ way1, nth m.ways w = some way1 ∧
              legal_step way1 u e.node_id)) := by
  intro ws
  induction ws with
  | nil =>
    intro heap _ hwf _
    exact ⟨heap, rfl, hwf, by simp⟩
  | cons w rest ih =>
    intro heap hr hwf hroom
    have hw := hr w (List.mem_cons_self _ _)
    obtain ⟨way1, hway, hmem⟩ := nth_eq_some_of_range m.ways w hw.1 hw.2
    obtain ⟨hlen, hnd⟩ := hways way1 hmem
    simp only [List.length_cons] at hroom
    obtain ⟨h1, added, hnw, hwf1, hcap1, hsz1, hadd, hperm1, hiff1⟩ :=
      neighbors_of_way_spec u way1 heap hnd hlen hwf (by omega)
    obtain ⟨h2, hloop, hwf2, hiff2⟩ :=
      ih h1 (fun x hx => hr x (List.mem_cons_of_mem _ hx)) hwf1 (by omega)
    refine ⟨h2, by simp only [find_neighbors_loop, hway, hnw, hloop], hwf2, ?_⟩
    intro e
    rw [hiff2 e, hperm1.mem_iff]
    simp only [List.mem_append, List.mem_map, List.mem_cons]
    constructor
    · rintro (⟨⟨v, hv, rfl⟩ | he⟩ | ⟨hp, w2, hw2, way2, hway2, hstep⟩)
      · exact Or.inr ⟨rfl, w, Or.inl rfl, way1, hway, (hiff1 v).mp hv⟩
      · exact Or.inl he
      · exact Or.inr ⟨hp, w2, Or.inr hw2, way2, hway2, hstep⟩
    · rintro (he | ⟨hp, w2, hw2 | hw2, way2, hway2, hstep⟩)
      · exact Or.inl (Or.inr he)
      · subst hw2
        rw [hway] at hway2
        cases hway2
        refine Or.inl (Or.inl ⟨e.node_id, (hiff1 _).mpr hstep, ?_⟩)
        cases e
        simp only [HeapNode.mk.injEq, true_and]
        exact hp.symm
      · exact Or.inr ⟨hp, w2, hw2, way2, hway2, hstep⟩

/-- `find_neighbors` on a well-formed graph: it returns a heap whose entries
(all with priority 0) are exactly the nodes one legal step away from `u` on a
way that `u` lists; none is dropped. -/
theorem find_neighbors_spec (m : ssmap) (hwf : well_formed m) (u : Int) (nu : node)
    (hnu : nth m.nodes u = some nu) :
    ∃ h, find_neighbors m u = some h ∧ heap_wf h ∧
      ∀ e, e ∈ heap_entries h ↔
        (e.priority = 0 ∧ ∃ w ∈ nu.way_ids, ∃ way1, nth m.ways w = some way1 ∧
          legal_step way1 u e.node_id) := by
  obtain ⟨hw1, hw2, -⟩ := hwf
  obtain ⟨h, hloop, hwfh, hiff⟩ :=
    find_neighbors_loop_spec m u (fun w hw => ⟨(hw1 w hw).1, (hw1 w hw).2.1⟩) nu.way_ids
      (create_min_heap (nu.way_ids.length * 2))
      (fun w hw => hw2 nu (nth_mem _ _ _ hnu) w hw)
      ⟨by simp [create_min_heap], by simp [create_min_heap]⟩
      (by simp [create_min_heap]; omega)
  refine ⟨h, by simp only [find_neighbors, hnu, hloop], hwfh, ?_⟩
  intro e
  rw [hiff e]
  simp [heap_entries, create_min_heap]

theorem search_edge_iff (m : ssmap) (hwf : well_formed m) (u v : Int) (nu : node)
    (hnu : nth m.nodes u = some nu) :
    search_edge m u v ↔
      ∃ w ∈ nu.way_ids, ∃ way1, nth m.ways w = some way1 ∧ legal_step way1 u v := by
  obtain ⟨h, hfn, -, hiff⟩ := find_neighbors_spec m hwf u nu hnu
  unfold search_edge
  constructor
  · rintro ⟨h2, hfn2, e, he, hid⟩
    rw [hfn] at hfn2
    cases hfn2
    obtain ⟨-, hrest⟩ := (hiff e).mp he
    rw [hid] at hrest
    exact hrest
  · intro hrest
    exact ⟨h, hfn, ⟨v, 0⟩, (hiff _).mpr ⟨rfl, hrest⟩, rfl⟩

theorem adjacent_scan_spec (cur next : Int) :
    ∀ (ids : List Int) (x y : Int), adjacent_scan cur next ids = some (x, y) →
      ∃ j : Nat, ids[j]? = some x ∧ ids[j + 1]? = some y ∧
        ((x = next ∧ y = cur) ∨ (x = cur ∧ y = next)) := by
  intro ids
  induction ids with
  | nil => intro x y h; simp [adjacent_scan] at h
  | cons a rest ih =>
    intro x y h
    cases rest with
    | nil => simp [adjacent_scan] at h
    | cons b rest2 =>
      rw [adjacent_scan] at h
      split at h
      · rename_i hc
        simp only [Option.some.injEq, Prod.mk.injEq] at h
        obtain ⟨rfl, rfl⟩ := h
        exact ⟨0, rfl, by simp, hc⟩
      · obtain ⟨j, hj1, hj2, hj3⟩ := ih x y h
        exact ⟨j + 1, by simpa using hj1, by simpa using hj2, hj3⟩

/-- What a leg that passes the leg checks looks like: both nodes exist, the
way `shared_way` returns is a way of the map listed by the first node, and
the leg is one legal step along it; the speed limit handed over is its own. -/
theorem leg_check_ok_spec (m : ssmap) (a b : Int) (s : ℚ)
    (h : leg_check m a b = some (Except.ok s)) :
    ∃ na nb w way1, nth m.nodes a = some na ∧ nth m.nodes b = some nb ∧
      shared_way m a b = some w ∧ w ∈ na.way_ids ∧ nth m.ways w = some way1 ∧
      legal_step way1 a b ∧ s = way1.speed_limit := by
  unfold leg_check at h
  cases hsw : shared_way m a b with
  | none => simp [hsw] at h
  | some w =>
    simp only [hsw] at h
    have hsw2 := hsw
    unfold shared_way at hsw2
    cases hna : nth m.nodes a with
    | none => simp [hna] at hsw2
    | some na =>
      cases hnb : nth m.nodes b with
      | none => simp [hna, hnb] at hsw2
      | some nb =>
        simp only [hna, hnb, Option.some.injEq] at hsw2
        by_cases hw1 : w = -1
        · simp [hw1] at h
        · simp only [if_neg hw1] at h
          cases hway : nth m.ways w with
          | none => simp [hway] at h
          | some way1 =>
            simp only [hway] at h
            cases hadj : adjacent_scan a b way1.node_ids with
            | none => simp [hadj] at h
            | some xy =>
              obtain ⟨x, y⟩ := xy
              simp only [hadj] at h
              obtain ⟨j, hj1, hj2, hj3⟩ := adjacent_scan_spec a b _ x y hadj
              have hwmem : w ∈ na.way_ids := by
                rcases shared_way_scan_spec na.way_ids nb.way_ids with ⟨h1, -⟩ | ⟨h1, -⟩
                · rw [hsw2] at h1; exact absurd h1 hw1
                · rw [hsw2] at h1; exact h1
              split at h
              · cases h
              · rename_i hdir
                simp only [Option.some.injEq, Except.ok.injEq] at h
                refine ⟨na, nb, w, way1, rfl, rfl, rfl, hwmem, hway, ?_, h.symm⟩
                rcases hj3 with ⟨hx, hy⟩ | ⟨hx, hy⟩
                · by_cases hone : way1.one_way = true
                  · simp only [hone, Bool.true_and, Bool.not_eq_true', Bool.and_eq_false_imp,
                      beq_iff_eq, beq_eq_false_iff_ne, ne_eq, not_forall, not_not,
                      Bool.not_eq_true, Bool.not_eq_false', Bool.and_eq_true, Classical.not_imp] at hdir
                    have : x = a ∧ y = b := by tauto
                    exact ⟨j, Or.inl ⟨by rw [hj1, this.1], by rw [hj2, this.2]⟩⟩
                  · have hone2 : way1.one_way = false := by simpa using hone
                    exact ⟨j, Or.inr ⟨hone2, by rw [hj1, hx], by rw [hj2, hy]⟩⟩
                · exact ⟨j, Or.inl ⟨by rw [hj1, hx], by rw [hj2, hy]⟩⟩

/-- The search knows every leg the validator accepts. -/
theorem search_edge_of_leg_passes (m : ssmap) (hwf : well_formed m) (a b : Int)
    (h : leg_passes m a b = true) : search_edge m a b := by
  obtain ⟨s, hs⟩ := (leg_passes_iff m a b).mp h
  obtain ⟨na, nb, w, way1, hna, -, -, hwmem, hway, hstep, -⟩ := leg_check_ok_spec m a b s hs
  exact (search_edge_iff m hwf a b na hna).mpr ⟨w, hwmem, way1, hway, hstep⟩

theorem well_formed_incident (m : ssmap) (hwf : well_formed m) (v w : Int) (nv : node)
    (way1 : way) (hnv : nth m.nodes v = some nv) (hway : nth m.ways w = some way1) :
    w ∈ nv.way_ids ↔ v ∈ way1.node_ids := by
  obtain ⟨hv1, hv2⟩ := nth_eq_getElem? _ _ _ hnv
  obtain ⟨hw1, hw2⟩ := nth_eq_getElem? _ _ _ hway
  obtain ⟨hvl, hvg⟩ := List.getElem?_eq_some_iff.mp hv2
  obtain ⟨hwl, hwg⟩ := List.getElem?_eq_some_iff.mp hw2
  have h := hwf.2.2 ⟨v.toNat, hvl⟩ ⟨w.toNat, hwl⟩
  simp only [List.get_eq_getElem, hvg, hwg] at h
  rw [← hv1, ← hw1] at h
  exact h

theorem legal_step_mem (way1 : way) (u v : Int) (h : legal_step way1 u v) :
    u ∈ way1.node_ids ∧ v ∈ way1.node_ids := by
  obtain ⟨j, ⟨h1, h2⟩ | ⟨-, h1, h2⟩⟩ := h
  · exact ⟨List.mem_iff_getElem?.mpr ⟨_, h1⟩, List.mem_iff_getElem?.mpr ⟨_, h2⟩⟩
  · exact ⟨List.mem_iff_getElem?.mpr ⟨_, h2⟩, List.mem_iff_getElem?.mpr ⟨_, h1⟩⟩

/-- Every neighbour the search is given exists, and `shared_way` returns a
way of the map for the pair: the relaxation reads no memory outside the
arrays and its leg time is defined. -/
theorem search_edge_spec (m : ssmap) (hwf : well_formed m) (u v : Int)
    (h : search_edge m u v) :
    node_exists m u ∧ node_exists m v ∧
      ∃ nu nv w way1, nth m.nodes u = some nu ∧ nth m.nodes v = some nv ∧
        shared_way m u v = some w ∧ nth m.ways w = some way1 ∧ way1 ∈ m.ways := by
  have hnu : ∃ nu, nth m.nodes u = some nu := by
    obtain ⟨h1, hfn, -⟩ := h
    unfold find_neighbors at hfn
    cases hn : nth m.nodes u with
    | none => simp [hn] at hfn
    | some nu => exact ⟨nu, rfl⟩
  obtain ⟨nu, hnu⟩ := hnu
  obtain ⟨w0, hw0, way0, hway0, hstep⟩ := (search_edge_iff m hwf u v nu hnu).mp h
  have hru := nth_range _ _ _ hnu
  have hvmem := (legal_step_mem way0 u v hstep).2
  have hev : node_exists m v := (hwf.1 way0 (nth_mem _ _ _ hway0)).2.2 v hvmem
  obtain ⟨nv, hnv, -⟩ := nth_eq_some_of_range m.nodes v hev.1 hev.2
  have hw0v : w0 ∈ nv.way_ids := (well_formed_incident m hwf v w0 nv way0 hnv hway0).mpr hvmem
  have hw0r := hwf.2.1 nu (nth_mem _ _ _ hnu) w0 hw0
  refine ⟨⟨hru.1, hru.2⟩, hev, nu, nv, shared_way_scan nu.way_ids nv.way_ids, ?_⟩
  have hsw : shared_way m u v = some (shared_way_scan nu.way_ids nv.way_ids) := by
    simp only [shared_way, hnu, hnv]
  rcases shared_way_scan_spec nu.way_ids nv.way_ids with ⟨-, h2⟩ | ⟨h1, -⟩
  · exact absurd hw0v (h2 w0 hw0 (by omega))
  · have hr := hwf.2.1 nu (nth_mem _ _ _ hnu) _ h1
    obtain ⟨way1, hway1, hmem1⟩ := nth_eq_some_of_range m.ways _ hr.1 hr.2
    exact ⟨way1, hnu, hnv, hsw, hway1, hmem1⟩

/-- The time of a leg the search is given is defined, and it is not negative
when distances are not negative and speed limits are positive. -/
theorem search_edge_leg_time (dist : node → node → ℚ) (m : ssmap) (hwf : well_formed m)
    (u v : Int) (h : search_edge m u v) :
    ∃ t, leg_time dist m u v = some t ∧
      ((∀ x y, 0 ≤ dist x y) → (∀ w ∈ m.ways, 0 < w.speed_limit) → 0 ≤ t) := by
  obtain ⟨-, -, nu, nv, w, way1, hnu, hnv, hsw, hway, hmem⟩ := search_edge_spec m hwf u v h
  refine ⟨calculate_travel_time dist nu nv way1.speed_limit, ?_, ?_⟩
  · simp only [leg_time, hnu, hnv, hsw, hway]
  · intro hd hs
    exact calculate_travel_time_nonneg dist nu nv _ (hd _ _) (hs way1 hmem)

/-! ## Array writes -/

theorem store_spec {α : Type} (l : List α) (i : Int) (x : α) (h0 : 0 ≤ i)
    (h1 : i < (l.length : Int)) : store l i x = some (l.set i.toNat x) := by
  simp [store, h0, h1]

theorem nth_set {α : Type} (l : List α) (i j : Int) (x : α) (h0 : 0 ≤ i)
    (h1 : i < (l.length : Int)) :
    nth (l.set i.toNat x) j = if j = i then some x else nth l j := by
  unfold nth
  by_cases hj0 : 0 ≤ j
  · simp only [if_pos hj0]
    by_cases hji : j = i
    · subst hji
      simp only [if_true]
      rw [List.getElem?_set_self (by omega)]
    · simp only [if_neg hji]
      rw [List.getElem?_set_ne (by omega)]
  · simp only [if_neg hj0]
    have : ¬ j = i := by omega
    simp [this]

theorem nth_of_exists {α : Type} (l : List α) (i : Int) (d : α) (h0 : 0 ≤ i)
    (h1 : i < (l.length : Int)) : nth l i = some ((nth l i).getD d) := by
  obtain ⟨x, hx, -⟩ := nth_eq_some_of_range l i h0 h1
  simp [hx]

theorem mem_set_cases {α : Type} (l : List α) (i : Nat) (x a : α) (h : a ∈ l.set i x) :
    a = x ∨ ∃ t, t ≠ i ∧ l[t]? = some a := by
  obtain ⟨t, ht⟩ := List.mem_iff_getElem?.mp h
  by_cases hti : t = i
  · subst hti
    left
    rw [List.getElem?_set] at ht
    simp only [if_true] at ht
    split at ht
    · exact (Option.some.inj ht).symm
    · cases ht
  · right
    rw [List.getElem?_set_ne (Ne.symm hti)] at ht
    exact ⟨t, hti, ht⟩

theorem mem_set_of_ne {α : Type} (l : List α) (i t : Nat) (x a : α) (hti : t ≠ i)
    (h : l[t]? = some a) : a ∈ l.set i x := by
  apply List.mem_iff_getElem?.mpr
  exact ⟨t, by rw [List.getElem?_set_ne (Ne.symm hti)]; exact h⟩

/-! ## The accessors of the search state -/

theorem vis_true_exists (m : ssmap) (st : search_state)
    (hlen : st.visited.length = m.nodes.length) (v : Int) (h : vis st v = true) :
    node_exists m v := by
  unfold vis at h
  cases hn : nth st.visited v with
  | none => simp [hn] at h
  | some b =>
    have := nth_range _ _ _ hn
    unfold node_exists ssmap.nr_nodes
    omega

theorem pd_ne_exists (m : ssmap) (st : search_state)
    (hlen : st.predecessors.length = m.nodes.length) (v : Int) (h : pd st v ≠ -1) :
    node_exists m v := by
  unfold pd at h
  cases hn : nth st.predecessors v with
  | none => simp [hn] at h
  | some b =>
    have := nth_range _ _ _ hn
    unfold node_exists ssmap.nr_nodes
    omega

theorem wt_nonneg (dist : node → node → ℚ) (m : ssmap) (hwf : well_formed m)
    (hd : ∀ x y, 0 ≤ dist x y) (hs : ∀ w ∈ m.ways, 0 < w.speed_limit) (u v : Int)
    (h : search_edge m u v) : 0 ≤ wt dist m u v := by
  obtain ⟨t, ht, hpos⟩ := search_edge_leg_time dist m hwf u v h
  simp only [wt, ht, Option.getD_some]
  exact hpos hd hs

/-! ## The invariant through one relaxation -/

/-- A pending neighbour whose relaxation condition already holds can be taken
off the list of pending neighbours. -/
theorem search_inv_drop (dist : node → node → ℚ) (m : ssmap) (start_id : Int)
    (st : search_state) (rank : Int → Nat) (k : Nat) (c : Int) (pend pend2 : List HeapNode)
    (e : HeapNode) (hinv : search_inv dist m start_id st rank k c pend)
    (hsub : ∀ x ∈ pend, x = e ∨ x ∈ pend2) (hsup : ∀ x ∈ pend2, x ∈ pend)
    (he : vis st c = true → tm st e.node_id ≤ tm st c + wt dist m c e.node_id) :
    search_inv dist m start_id st rank k c pend2 :=
  { len_times := hinv.len_times
    len_preds := hinv.len_preds
    len_visited := hinv.len_visited
    heap_ok := hinv.heap_ok
    ordered := hinv.ordered
    keys := hinv.keys
    entry := hinv.entry
    present := hinv.present
    count := hinv.count
    start_zero := hinv.start_zero
    start_pred := hinv.start_pred
    nonneg := hinv.nonneg
    le_inf := hinv.le_inf
    relaxed := by
      intro u v hu huv
      rcases hinv.relaxed u v hu huv with ⟨huc, x, hx, hxv⟩ | h
      · rcases hsub x hx with hxe | hx2
        · right
          subst huc; subst hxe; subst hxv
          exact he hu
        · exact Or.inl ⟨huc, x, hx2, hxv⟩
      · exact Or.inr h
    mono := hinv.mono
    cur_max := hinv.cur_max
    pend_edge := fun x hx => hinv.pend_edge x (hsup x hx)
    cur_visited := by
      intro hne
      apply hinv.cur_visited
      intro hnil
      cases pend2 with
      | nil => exact hne rfl
      | cons y ys =>
        have := hsup y (List.mem_cons_self _ _)
        rw [hnil] at this
        cases this
    pred_some := hinv.pred_some
    pred_none := hinv.pred_none
    rank_unvisited := hinv.rank_unvisited
    rank_visited := hinv.rank_visited }

/-- The invariant is kept when the tentative time of an unvisited neighbour `v`
of the current node is lowered, its predecessor set and its key decreased. -/
theorem search_inv_relax (dist : node → node → ℚ) (m : ssmap) (hwf : well_formed m)
    (hd : ∀ x y, 0 ≤ dist x y) (hs : ∀ w ∈ m.ways, 0 < w.speed_limit) (start_id : Int)
    (st : search_state) (rank : Int → Nat) (k : Nat) (c : Int) (pend : List HeapNode)
    (hinv : search_inv dist m start_id st rank k c pend) (v : Int)
    (hv : node_exists m v) (hvis : vis st v = false) (hc : vis st c = true)
    (hedge : search_edge m c v) (hlt : tm st c + wt dist m c v < tm st v)
    (ts : List ℚ) (ps : List Int) (h2 : MinHeap)
    (hts : store st.times v (tm st c + wt dist m c v) = some ts)
    (hps : store st.predecessors v c = some ps)
    (hdk : decrease_key st.heap v (tm st c + wt dist m c v) = some h2) :
    search_inv dist m start_id { st with heap := h2, times := ts, predecessors := ps }
      rank k c pend := by
  generalize hnew : tm st c + wt dist m c v = new at hlt hts hdk ⊢
  have hv0 : 0 ≤ v := hv.1
  have hvt : v < (st.times.length : Int) := by
    rw [hinv.len_times]; exact hv.2
  have hvp : v < (st.predecessors.length : Int) := by
    rw [hinv.len_preds]; exact hv.2
  rw [store_spec _ _ _ hv0 hvt] at hts
  rw [store_spec _ _ _ hv0 hvp] at hps
  cases hts
  cases hps
  obtain ⟨e0, he0, he0v⟩ := hinv.present v hv hvis
  obtain ⟨h2', i, e, hdk', hwf2, hsz2, hcap2, hgi, hide, hperm, hord⟩ :=
    decrease_key_spec st.heap v (new) hinv.heap_ok ⟨e0, he0, he0v⟩
  rw [hdk] at hdk'
  cases hdk'
  have hilen : i < (heap_entries st.heap).length := (List.getElem?_eq_some_iff.mp hgi).1
  have hemem : e ∈ heap_entries st.heap := List.mem_iff_getElem?.mpr ⟨i, hgi⟩
  have hepr : tm st v = e.priority := by
    rw [← hide]; exact (hinv.entry e hemem).2.2
  have hw0 : 0 ≤ wt dist m c v := wt_nonneg dist m hwf hd hs c v hedge
  have hcv : c ≠ v := by
    intro h; rw [h] at hc; rw [hc] at hvis; cases hvis
  -- the accessors of the new state
  have htm : ∀ x, tm { st with heap := h2, times := st.times.set v.toNat new, predecessors := st.predecessors.set v.toNat c } x =
      if x = v then new else tm st x := by
    intro x
    simp only [tm, nth_set _ _ _ _ hv0 hvt]
    split <;> rfl
  have hpd : ∀ x, pd { st with heap := h2, times := st.times.set v.toNat new, predecessors := st.predecessors.set v.toNat c } x =
      if x = v then c else pd st x := by
    intro x
    simp only [pd, nth_set _ _ _ _ hv0 hvp]
    split <;> rfl
  have hvs : ∀ x, vis { st with heap := h2, times := st.times.set v.toNat new, predecessors := st.predecessors.set v.toNat c } x =
      vis st x := fun x => rfl
  have hmapset : ((heap_entries st.heap).set i ⟨v, new⟩).map
      HeapNode.node_id = (heap_entries st.heap).map HeapNode.node_id := by
    rw [List.map_set]
    apply List.ext_getElem?
    intro t
    by_cases hti : t = i
    · subst hti
      rw [List.getElem?_set_self (by simpa using hilen)]
      simp only [List.getElem?_map, hgi, Option.map_some', hide]
    · rw [List.getElem?_set_ne (Ne.symm hti)]
  have hother : ∀ a, a ∈ heap_entries h2 → a ≠ ⟨v, new⟩ →
      a ∈ heap_entries st.heap ∧ a.node_id ≠ v := by
    intro a ha hne
    rcases mem_set_cases _ _ _ _ (hperm.mem_iff.mp ha) with h | ⟨t, hti, hgt⟩
    · exact absurd h hne
    · refine ⟨List.mem_iff_getElem?.mpr ⟨t, hgt⟩, ?_⟩
      intro hav
      have h1 : ((heap_entries st.heap).map HeapNode.node_id)[t]? = some v := by
        simp only [List.getElem?_map, hgt, Option.map_some', hav]
      have h2 : ((heap_entries st.heap).map HeapNode.node_id)[i]? = some v := by
        simp only [List.getElem?_map, hgi, Option.map_some', hide]
      exact hti (nodup_getElem?_inj _ hinv.keys t i v h1 h2)
  exact
  { len_times := by simp only [List.length_set]; exact hinv.len_times
    len_preds := by simp only [List.length_set]; exact hinv.len_preds
    len_visited := hinv.len_visited
    heap_ok := hwf2
    ordered := by
      have := hord hinv.ordered (by rw [← hepr]; exact hlt.le)
      rw [hsz2] at this ⊢
      exact this
    keys := by
      show ((heap_entries h2).map HeapNode.node_id).Nodup
      exact ((hperm.map HeapNode.node_id).nodup_iff).mpr (by rw [hmapset]; exact hinv.keys)
    entry := by
      intro a ha
      show node_exists m a.node_id ∧ _ ∧ _
      rw [hvs, htm]
      by_cases hax : a = ⟨v, new⟩
      · subst hax
        simp only [if_true]
        exact ⟨hv, hvis, trivial⟩
      · obtain ⟨ha1, ha2⟩ := hother a ha hax
        simp only [if_neg ha2]
        exact hinv.entry a ha1
    present := by
      intro x hx hxv
      rw [hvs] at hxv
      show ∃ a ∈ heap_entries h2, a.node_id = x
      by_cases hxeq : x = v
      · refine ⟨⟨v, new⟩, hperm.mem_iff.mpr ?_, hxeq.symm⟩
        exact List.mem_iff_getElem?.mpr ⟨i, List.getElem?_set_self hilen⟩
      · obtain ⟨a, ha, hax⟩ := hinv.present x hx hxv
        obtain ⟨t, hgt⟩ := List.mem_iff_getElem?.mp ha
        have hti : t ≠ i := by
          intro h; subst h
          rw [hgi] at hgt
          cases hgt
          exact hxeq (hax.symm.trans hide)
        exact ⟨a, hperm.mem_iff.mpr (mem_set_of_ne _ _ _ _ _ hti hgt), hax⟩
    count := by
      show k + h2.size ≤ m.nodes.length
      rw [hsz2]; exact hinv.count
    start_zero := by
      rw [htm]
      by_cases hsv : start_id = v
      · exfalso
        have h0 := hinv.start_zero
        rw [hsv] at h0
        have h1 := hinv.nonneg c
        linarith [hnew, hw0]
      · simp only [if_neg hsv]; exact hinv.start_zero
    start_pred := by
      rw [hpd]
      by_cases hsv : start_id = v
      · exfalso
        have h0 := hinv.start_zero
        rw [hsv] at h0
        have h1 := hinv.nonneg c
        linarith [hnew, hw0]
      · simp only [if_neg hsv]; exact hinv.start_pred
    nonneg := by
      intro x
      rw [htm]
      split
      · have := hinv.nonneg c; linarith [hnew, hw0]
      · exact hinv.nonneg x
    le_inf := by
      intro x
      rw [htm]
      split
      · have := hinv.le_inf v; linarith [hnew, hw0]
      · exact hinv.le_inf x
    relaxed := by
      intro u x hu hux
      rw [hvs] at hu
      have huv : u ≠ v := by
        intro h; rw [h] at hu; rw [hu] at hvis; cases hvis
      rcases hinv.relaxed u x hu hux with h | h
      · exact Or.inl h
      · right
        rw [htm, htm, if_neg huv]
        split
        · rename_i hxv
          rw [hxv] at h ⊢
          linarith [hnew, hw0]
        · exact h
    mono := by
      intro u x hu hx hxv
      rw [hvs] at hu hxv
      have huv : u ≠ v := by
        intro h; rw [h] at hu; rw [hu] at hvis; cases hvis
      rw [htm, htm, if_neg huv]
      split
      · have := hinv.cur_max u hu; linarith [hnew, hw0]
      · exact hinv.mono u x hu hx hxv
    cur_max := by
      intro u hu
      rw [hvs] at hu
      have huv : u ≠ v := by
        intro h; rw [h] at hu; rw [hu] at hvis; cases hvis
      rw [htm, htm, if_neg huv, if_neg hcv]
      exact hinv.cur_max u hu
    pend_edge := hinv.pend_edge
    cur_visited := hinv.cur_visited
    pred_some := by
      intro x hx
      rw [hpd] at hx ⊢
      rw [hvs, htm]
      by_cases hxv : x = v
      · simp only [hxv, if_true] at hx ⊢
        rw [htm, if_neg hcv]
        refine ⟨hc, hedge, hnew.symm, ?_, ?_⟩
        · have := hinv.le_inf v; linarith [hnew, hw0]
        · rw [hinv.rank_unvisited v hvis]
          exact hinv.rank_visited c hc
      · simp only [if_neg hxv] at hx ⊢
        obtain ⟨h1, h2, h3, h4, h5⟩ := hinv.pred_some x hx
        have hpv : pd st x ≠ v := by
          intro h; rw [h] at h1; rw [h1] at hvis; cases hvis
        rw [htm, if_neg hpv]
        exact ⟨h1, h2, h3, h4, h5⟩
    pred_none := by
      intro x hx hpx
      rw [hpd] at hpx
      rw [htm]
      by_cases hxv : x = v
      · simp only [hxv, if_true] at hpx
        have := (vis_true_exists m st hinv.len_visited c hc).1
        omega
      · simp only [if_neg hxv] at hpx ⊢
        exact hinv.pred_none x hx hpx
    rank_unvisited := hinv.rank_unvisited
    rank_visited := hinv.rank_visited }

theorem heap_entries_of_size_zero (h : MinHeap) (hz : h.size = 0) : heap_entries h = [] := by
  simp [heap_entries, hz]

/-- The loop relaxing the neighbours of the current node `c`: it ends, touches
no memory outside the arrays, leaves `visited` alone and re-establishes the
invariant with no neighbour pending. -/
theorem relax_neighbors_spec (dist : node → node → ℚ) (m : ssmap) (hwf : well_formed m)
    (hd : ∀ x y, 0 ≤ dist x y) (hs : ∀ w ∈ m.ways, 0 < w.speed_limit) (start_id : Int)
    (rank : Int → Nat) (k : Nat) (c : Int) (c_node : node)
    (hcn : nth m.nodes c = some c_node) :
    ∀ (fuel : Nat) (nb : MinHeap) (st : search_state), nb.size < fuel → heap_wf nb →
      search_inv dist m start_id st rank k c (heap_entries nb) →
      ∃ st2, relax_neighbors dist m c c_node fuel nb st = some st2 ∧
        search_inv dist m start_id st2 rank k c [] ∧ st2.visited = st.visited ∧
        st2.heap.size = st.heap.size := by
  intro fuel
  induction fuel with
  | zero => intro nb st h; omega
  | succ fuel ih =>
    intro nb st hfuel hnbwf hinv
    unfold relax_neighbors
    by_cases hsz : nb.size > 0
    · simp only [if_pos hsz]
      obtain ⟨root, nb2, hrm, -, hwf2, hsz2, -, hperm, -⟩ := remove_min_spec nb hnbwf hsz
      simp only [hrm]
      have hrmem : root ∈ heap_entries nb := hperm.mem_iff.mpr (List.mem_cons_self _ _)
      have hedge := hinv.pend_edge root hrmem
      have hcvis : vis st c = true := hinv.cur_visited (List.ne_nil_of_mem hrmem)
      obtain ⟨-, hev, nu, nv, w, way1, hnu, hnv, hsw, hway, -⟩ :=
        search_edge_spec m hwf c root.node_id hedge
      rw [hcn] at hnu
      cases hnu
      have hw0 := wt_nonneg dist m hwf hd hs c root.node_id hedge
      have hsub : ∀ x ∈ heap_entries nb, x = root ∨ x ∈ heap_entries nb2 := by
        intro x hx
        exact List.mem_cons.mp (hperm.mem_iff.mp hx)
      have hsup : ∀ x ∈ heap_entries nb2, x ∈ heap_entries nb :=
        fun x hx => hperm.mem_iff.mpr (List.mem_cons_of_mem _ hx)
      have hvisn : nth st.visited root.node_id = some (vis st root.node_id) :=
        nth_of_exists _ _ false hev.1 (by rw [hinv.len_visited]; exact hev.2)
      have hec := vis_true_exists m st hinv.len_visited c hcvis
      have htc : nth st.times c = some (tm st c) :=
        nth_of_exists _ _ 0 hec.1 (by rw [hinv.len_times]; exact hec.2)
      have htv : nth st.times root.node_id = some (tm st root.node_id) :=
        nth_of_exists _ _ 0 hev.1 (by rw [hinv.len_times]; exact hev.2)
      have hwt : calculate_travel_time dist c_node nv way1.speed_limit = wt dist m c root.node_id := by
        simp only [wt, leg_time, hcn, hnv, hsw, hway, Option.getD_some]
      rw [hvisn]
      cases hvv : vis st root.node_id with
      | true =>
        simp only []
        have hinv2 : search_inv dist m start_id st rank k c (heap_entries nb2) :=
          search_inv_drop dist m start_id st rank k c _ _ root hinv hsub hsup
            (fun _ => by have := hinv.cur_max root.node_id hvv; linarith)
        exact ih nb2 st (by omega) hwf2 hinv2
      | false =>
        simp only [hsw, hnv, hway, htc, htv, hwt]
        by_cases hlt : tm st c + wt dist m c root.node_id < tm st root.node_id
        · simp only [if_pos hlt]
          have hts := store_spec st.times root.node_id (tm st c + wt dist m c root.node_id)
            hev.1 (by rw [hinv.len_times]; exact hev.2)
          have hps := store_spec st.predecessors root.node_id c
            hev.1 (by rw [hinv.len_preds]; exact hev.2)
          obtain ⟨e0, he0, he0v⟩ := hinv.present root.node_id hev hvv
          obtain ⟨h2, -, -, hdk, -, hdsz, -⟩ :=
            decrease_key_spec st.heap root.node_id (tm st c + wt dist m c root.node_id)
              hinv.heap_ok ⟨e0, he0, he0v⟩
          simp only [hts, hps, hdk]
          have hinv1 := search_inv_relax dist m hwf hd hs start_id st rank k c _ hinv
            root.node_id hev hvv hcvis hedge hlt _ _ h2 hts hps hdk
          have hcv : c ≠ root.node_id := by
            intro h; rw [← h] at hvv; rw [hvv] at hcvis; cases hcvis
          have hinv2 := search_inv_drop dist m start_id _ rank k c _ _ root hinv1 hsub hsup
            (fun _ => by
              have hlen : root.node_id < (st.times.length : Int) := by
                rw [hinv.len_times]; exact hev.2
              simp only [tm, nth_set _ _ _ _ hev.1 hlen, if_true, if_neg hcv,
                Option.getD_some, le_refl])
          obtain ⟨st2, hr, hi, hvis2, hsz3⟩ := ih nb2 _ (by omega) hwf2 hinv2
          exact ⟨st2, hr, hi, hvis2, hsz3.trans hdsz⟩
        · simp only [if_neg hlt]
          have hinv2 : search_inv dist m start_id st rank k c (heap_entries nb2) :=
            search_inv_drop dist m start_id st rank k c _ _ root hinv hsub hsup
              (fun _ => not_lt.mp hlt)
          exact ih nb2 st (by omega) hwf2 hinv2
    · simp only [if_neg hsz]
      have hz : nb.size = 0 := by omega
      rw [heap_entries_of_size_zero nb hz] at hinv
      exact ⟨st, rfl, hinv, rfl, rfl⟩

/-! ## The invariant through one extraction -/

/-- The invariant after the node with the least tentative time has been taken
from the queue and marked visited: all its neighbours are pending. -/
theorem search_inv_extract (dist : node → node → ℚ) (m : ssmap) (start_id : Int)
    (st : search_state) (rank : Int → Nat) (k : Nat) (c0 : Int)
    (hinv : search_inv dist m start_id st rank k c0 [])
    (root : HeapNode) (h1 nb : MinHeap)
    (hwf1 : heap_wf h1) (hsz1 : h1.size = st.heap.size - 1) (hpos : 0 < st.heap.size)
    (hperm : List.Perm (heap_entries st.heap) (root :: heap_entries h1))
    (hord1 : heap_ordered h1.elements h1.size)
    (hmin : ∀ e ∈ heap_entries st.heap, root.priority ≤ e.priority)
    (hfn : find_neighbors m root.node_id = some nb) (st1 : search_state)
    (hst1 : st1 = { st with heap := h1, visited := st.visited.set root.node_id.toNat true }) :
    search_inv dist m start_id st1 (fun v => if vis st1 v = false then k + 1 else rank v)
      (k + 1) root.node_id (heap_entries nb) := by
  subst hst1
  have hrmem : root ∈ heap_entries st.heap := hperm.mem_iff.mpr (List.mem_cons_self _ _)
  obtain ⟨hrex, hrvis, hrtm⟩ := hinv.entry root hrmem
  have hr0 : 0 ≤ root.node_id := hrex.1
  have hrl : root.node_id < (st.visited.length : Int) := by
    rw [hinv.len_visited]; exact hrex.2
  have hvs : ∀ x, vis { st with heap := h1, visited := st.visited.set root.node_id.toNat true } x =
      if x = root.node_id then true else vis st x := by
    intro x
    simp only [vis, nth_set _ _ _ _ hr0 hrl]
    split <;> rfl
  have htm : ∀ x, tm { st with heap := h1, visited := st.visited.set root.node_id.toNat true } x = tm st x := fun x => rfl
  have hpd : ∀ x, pd { st with heap := h1, visited := st.visited.set root.node_id.toNat true } x = pd st x := fun x => rfl
  have hnd : (root.node_id :: (heap_entries h1).map HeapNode.node_id).Nodup := by
    have := ((hperm.map HeapNode.node_id).nodup_iff).mp hinv.keys
    simpa using this
  have hnotin : ∀ e ∈ heap_entries h1, e.node_id ≠ root.node_id := by
    intro e he heq
    exact (List.nodup_cons.mp hnd).1 (heq ▸ List.mem_map_of_mem _ he)
  have hrank_le : ∀ v, rank v ≤ k := by
    intro v
    cases hv : vis st v with
    | false => exact (hinv.rank_unvisited v hv).le
    | true => exact (hinv.rank_visited v hv).le
  exact
  { len_times := hinv.len_times
    len_preds := hinv.len_preds
    len_visited := by simp only [List.length_set]; exact hinv.len_visited
    heap_ok := hwf1
    ordered := hord1
    keys := (List.nodup_cons.mp hnd).2
    entry := by
      intro e he
      show node_exists m e.node_id ∧ _ ∧ _
      rw [hvs, htm, if_neg (hnotin e he)]
      exact hinv.entry e (hperm.mem_iff.mpr (List.mem_cons_of_mem _ he))
    present := by
      intro v hv hvv
      rw [hvs] at hvv
      show ∃ e ∈ heap_entries h1, e.node_id = v
      by_cases hvr : v = root.node_id
      · rw [if_pos hvr] at hvv; cases hvv
      · rw [if_neg hvr] at hvv
        obtain ⟨e, he, hev⟩ := hinv.present v hv hvv
        rcases List.mem_cons.mp (hperm.mem_iff.mp he) with h | h
        · exact absurd (by rw [← hev, h]) hvr
        · exact ⟨e, h, hev⟩
    count := by
      show k + 1 + h1.size ≤ m.nodes.length
      have := hinv.count
      omega
    start_zero := hinv.start_zero
    start_pred := hinv.start_pred
    nonneg := hinv.nonneg
    le_inf := hinv.le_inf
    relaxed := by
      intro u v hu huv
      rw [hvs] at hu
      by_cases hur : u = root.node_id
      · left
        refine ⟨hur, ?_⟩
        obtain ⟨h, hh, e, he, hev⟩ := huv
        rw [hur, hfn] at hh
        cases hh
        exact ⟨e, he, hev⟩
      · rw [if_neg hur] at hu
        rcases hinv.relaxed u v hu huv with ⟨-, e, he, -⟩ | h
        · cases he
        · exact Or.inr h
    mono := by
      intro u v hu hv hvv
      rw [hvs] at hu hvv
      rw [htm, htm]
      by_cases hvr : v = root.node_id
      · rw [if_pos hvr] at hvv; cases hvv
      · rw [if_neg hvr] at hvv
        by_cases hur : u = root.node_id
        · obtain ⟨e, he, hev⟩ := hinv.present v hv hvv
          have g1 := hmin e he
          have g2 := (hinv.entry e he).2.2
          rw [hur, hrtm, ← hev, g2]
          exact g1
        · rw [if_neg hur] at hu
          exact hinv.mono u v hu hv hvv
    cur_max := by
      intro u hu
      rw [hvs] at hu
      rw [htm, htm]
      by_cases hur : u = root.node_id
      · rw [hur]
      · rw [if_neg hur] at hu
        exact hinv.mono u root.node_id hu hrex hrvis
    pend_edge := fun e he => ⟨nb, hfn, e, he, rfl⟩
    cur_visited := by
      intro _
      rw [hvs, if_pos rfl]
    pred_some := by
      intro v hv
      rw [hpd] at hv ⊢
      obtain ⟨g1, g2, g3, g4, g5⟩ := hinv.pred_some v hv
      have hpr : pd st v ≠ root.node_id := by
        intro h; rw [h] at g1; rw [g1] at hrvis; cases hrvis
      have hp1 : vis { st with heap := h1, visited := st.visited.set root.node_id.toNat true } (pd st v) = true := by
        rw [hvs, if_neg hpr]; exact g1
      refine ⟨hp1, g2, g3, g4, ?_⟩
      have hlhs : (if vis { st with heap := h1, visited := st.visited.set root.node_id.toNat true } (pd st v) = false then k + 1 else rank (pd st v)) = rank (pd st v) := by
        rw [hp1]; rfl
      show (if vis { st with heap := h1, visited := st.visited.set root.node_id.toNat true } (pd st v) = false then k + 1 else rank (pd st v)) < _
      rw [hlhs]
      have := hrank_le (pd st v)
      have := hrank_le v
      split <;> omega
    pred_none := hinv.pred_none
    rank_unvisited := by
      intro v hv
      simp only [hv, if_true]
    rank_visited := by
      intro v hv
      simp only [hv, Bool.true_eq_false, if_false]
      rw [hvs] at hv
      by_cases hvr : v = root.node_id
      · rw [hvr, hinv.rank_unvisited _ hrvis]; omega
      · rw [if_neg hvr] at hv
        have := hinv.rank_visited v hv
        omega }

/-! ## The main loop -/

/-- The main loop of the search, started in a state satisfying the invariant
with `end_id` not yet extracted: it ends by extracting `end_id`, and at that
moment the invariant holds and `end_id` has the least tentative time of all
nodes not yet visited. The state returned has the times and predecessors of
that moment. -/
theorem search_loop_spec (dist : node → node → ℚ) (m : ssmap) (hwf : well_formed m)
    (hd : ∀ x y, 0 ≤ dist x y) (hs : ∀ w ∈ m.ways, 0 < w.speed_limit) (start_id end_id : Int)
    (hend : node_exists m end_id) :
    ∀ (fuel : Nat) (st : search_state) (rank : Int → Nat) (k : Nat) (c : Int),
      st.heap.size < fuel → search_inv dist m start_id st rank k c [] →
      vis st end_id = false →
      ∃ st2 st0 rank0 k0 c0, search_loop dist m end_id fuel st = some st2 ∧
        search_inv dist m start_id st0 rank0 k0 c0 [] ∧
        st2.times = st0.times ∧ st2.predecessors = st0.predecessors ∧
        vis st0 end_id = false ∧ 0 < st0.heap.size ∧
        ∀ v, node_exists m v → vis st0 v = false → tm st0 end_id ≤ tm st0 v := by
  intro fuel
  induction fuel with
  | zero => intro st rank k c h; omega
  | succ fuel ih =>
    intro st rank k c hfuel hinv hvend
    have hpos : 0 < st.heap.size := by
      obtain ⟨e, he, -⟩ := hinv.present end_id hend hvend
      by_contra hcon
      have hz : st.heap.size = 0 := by omega
      rw [heap_entries_of_size_zero _ hz] at he
      cases he
    obtain ⟨root, h1, hrm, -, hwf1, hsz1, -, hperm, hordmin⟩ :=
      remove_min_spec st.heap hinv.heap_ok hpos
    obtain ⟨hord1, hmin⟩ := hordmin hinv.ordered
    have hrmem : root ∈ heap_entries st.heap := hperm.mem_iff.mpr (List.mem_cons_self _ _)
    obtain ⟨hrex, hrvis, hrtm⟩ := hinv.entry root hrmem
    unfold search_loop
    simp only [if_pos (show st.heap.size > 0 from hpos), hrm]
    by_cases hre : root.node_id = end_id
    · simp only [if_pos hre]
      refine ⟨_, st, rank, k, c, rfl, hinv, rfl, rfl, hvend, hpos, ?_⟩
      intro v hv hvv
      obtain ⟨e, he, hev⟩ := hinv.present v hv hvv
      have g1 := hmin e he
      have g2 := (hinv.entry e he).2.2
      rw [← hre, hrtm, ← hev, g2]
      exact g1
    · simp only [if_neg hre]
      have hstore := store_spec st.visited root.node_id true hrex.1
        (by rw [hinv.len_visited]; exact hrex.2)
      obtain ⟨c_node, hcn, -⟩ := nth_eq_some_of_range m.nodes root.node_id hrex.1 hrex.2
      obtain ⟨nb, hfn, hnbwf, -⟩ := find_neighbors_spec m hwf root.node_id c_node hcn
      simp only [hstore, hcn, hfn]
      have hinv1 := search_inv_extract dist m start_id st rank k c hinv root h1 nb hwf1 hsz1
        hpos hperm hord1 hmin hfn _ rfl
      obtain ⟨st2, hrelax, hinv2, hvis2, hsz2⟩ :=
        relax_neighbors_spec dist m hwf hd hs start_id _ (k + 1) root.node_id c_node hcn
          (nb.size + 1) nb _ (by omega) hnbwf hinv1
      simp only [hrelax]
      have hvend2 : vis st2 end_id = false := by
        simp only [vis, hvis2]
        rw [nth_set _ _ _ _ hrex.1 (by rw [hinv.len_visited]; exact hrex.2),
          if_neg (Ne.symm hre)]
        exact hvend
      have hfuel2 : st2.heap.size < fuel := by
        rw [hsz2]
        show h1.size < fuel
        omega
      exact ih st2 _ (k + 1) root.node_id hfuel2 hinv2 hvend2

/-! ## The initial state -/

theorem INFINITY_COST_pos : 0 < INFINITY_COST := by
  unfold INFINITY_COST; positivity

theorem init_heap_spec (start_id : Int) :
    ∀ (l : List Nat) (heap : MinHeap), heap_wf heap → heap.size + l.length ≤ heap.capacity →
      heap_ordered heap.elements heap.size →
      ∃ h2, init_heap start_id l heap = some h2 ∧ heap_wf h2 ∧
        heap_ordered h2.elements h2.size ∧ h2.capacity = heap.capacity ∧
        h2.size ≤ heap.size + l.length ∧
        List.Perm (heap_entries h2)
          ((l.filter (fun i : Nat => decide ((i : Int) ≠ start_id))).map
            (fun i : Nat => (⟨(i : Int), INFINITY_COST⟩ : HeapNode)) ++ heap_entries heap) := by
  intro l
  induction l with
  | nil => intro heap hwf _ hord; exact ⟨heap, rfl, hwf, hord, rfl, by simp, by simp⟩
  | cons i rest ih =>
    intro heap hwf hroom hord
    simp only [List.length_cons] at hroom
    unfold init_heap
    by_cases hi : (i : Int) ≠ start_id
    · simp only [if_pos hi]
      obtain ⟨h1, hins, hwf1, hsz1, hcap1, hperm1, hord1⟩ :=
        insert_into_heap_spec heap (i : Int) INFINITY_COST hwf (by omega)
      simp only [hins]
      obtain ⟨h2, hinit, hwf2, hord2, hcap2, hsz2, hperm2⟩ :=
        ih h1 hwf1 (by omega) (hord1 hord)
      refine ⟨h2, hinit, hwf2, hord2, by omega, by simp only [List.length_cons]; omega, ?_⟩
      have hf : List.filter (fun i : Nat => decide ((i : Int) ≠ start_id)) (i :: rest) =
          i :: List.filter (fun i : Nat => decide ((i : Int) ≠ start_id)) rest := by
        simp [List.filter_cons, hi]
      rw [hf]
      simp only [List.map_cons, List.cons_append]
      exact hperm2.trans ((List.Perm.append_left _ hperm1).trans List.perm_middle)
    · simp only [if_neg hi]
      obtain ⟨h2, hinit, hwf2, hord2, hcap2, hsz2, hperm2⟩ := ih heap hwf (by omega) hord
      refine ⟨h2, hinit, hwf2, hord2, hcap2, by simp only [List.length_cons]; omega, ?_⟩
      have hf : List.filter (fun i : Nat => decide ((i : Int) ≠ start_id)) (i :: rest) =
          List.filter (fun i : Nat => decide ((i : Int) ≠ start_id)) rest := by
        simp only [ne_eq, not_not] at hi
        simp [List.filter_cons, hi]
      rw [hf]
      exact hperm2

/-- The state in which the main loop is entered satisfies the invariant, with
no node visited. -/
theorem search_init_spec (dist : node → node → ℚ) (m : ssmap) (start_id : Int)
    (hstart : node_exists m start_id) :
    ∃ st, search_init m start_id = some st ∧
      search_inv dist m start_id st (fun _ => 0) 0 start_id [] ∧ ∀ v, vis st v = false := by
  have hs0 : 0 ≤ start_id := hstart.1
  have hs1 : start_id < (m.nodes.length : Int) := hstart.2
  obtain ⟨h1, hinit, hwf1, hord1, hcap1, hsz1, hperm1⟩ :=
    init_heap_spec start_id (List.range m.nodes.length) (create_min_heap m.nodes.length)
      ⟨by simp [create_min_heap], by simp [create_min_heap]⟩
      (by simp [create_min_heap])
      (by intro i hi0 hin; simp [create_min_heap] at hin)
  simp only [create_min_heap, heap_entries, List.take_nil, List.append_nil,
    List.length_range, Nat.zero_add] at hcap1 hsz1 hperm1
  have hlt : (List.filter (fun i : Nat => decide ((i : Int) ≠ start_id))
      (List.range m.nodes.length)).length < m.nodes.length := by
    have := (List.length_filter_lt_length_iff_exists (l := List.range m.nodes.length)
      (p := fun i : Nat => decide ((i : Int) ≠ start_id))).mpr
      ⟨start_id.toNat, by simp; omega, by simp; omega⟩
    simpa using this
  have hsz1' : h1.size < h1.capacity := by
    have hl := hperm1.length_eq
    simp only [List.length_take, List.length_map] at hl
    have := hwf1.1
    rw [hcap1]
    omega
  obtain ⟨h2, hins, hwf2, hsz2, hcap2, hperm2, hord2⟩ :=
    insert_into_heap_spec h1 start_id 0 hwf1 hsz1'
  have hperm : List.Perm (heap_entries h2) (⟨start_id, 0⟩ ::
      (List.filter (fun i : Nat => decide ((i : Int) ≠ start_id)) (List.range m.nodes.length)).map
        (fun i : Nat => (⟨(i : Int), INFINITY_COST⟩ : HeapNode))) :=
    hperm2.trans (hperm1.cons _)
  have hmem : ∀ e, e ∈ heap_entries h2 ↔ (e = ⟨start_id, 0⟩ ∨
      ∃ i : Nat, i < m.nodes.length ∧ (i : Int) ≠ start_id ∧ e = ⟨(i : Int), INFINITY_COST⟩) := by
    intro e
    rw [hperm.mem_iff]
    simp only [List.mem_cons, List.mem_map, List.mem_filter, List.mem_range, decide_eq_true_eq]
    constructor
    · rintro (h | ⟨i, ⟨hi1, hi2⟩, rfl⟩)
      · exact Or.inl h
      · exact Or.inr ⟨i, hi1, hi2, rfl⟩
    · rintro (h | ⟨i, hi1, hi2, rfl⟩)
      · exact Or.inl h
      · exact Or.inr ⟨i, ⟨hi1, hi2⟩, rfl⟩
  refine ⟨_, by simp only [search_init, hs0, hs1, and_self, if_true, hinit, hins]; rfl, ?_, ?_⟩
  · -- the accessors of the initial state
    have htm : ∀ v, tm ⟨h2, (List.range m.nodes.length).map
          (fun i : Nat => if (i : Int) = start_id then 0 else INFINITY_COST),
          List.replicate m.nodes.length (-1), List.replicate m.nodes.length false⟩ v =
        if node_exists m v then (if v = start_id then 0 else INFINITY_COST) else 0 := by
      intro v
      unfold tm nth node_exists ssmap.nr_nodes
      by_cases hv0 : 0 ≤ v
      · by_cases hv1 : v < (m.nodes.length : Int)
        · have hvn : v.toNat < m.nodes.length := by omega
          have hcast : ((v.toNat : Nat) : Int) = v := Int.toNat_of_nonneg hv0
          simp only [if_pos hv0, List.getElem?_map, List.getElem?_range hvn, Option.map_some',
            Option.getD_some, hcast, hv1, and_self, if_true]
          simp [hv0]
        · have hvn : ¬ v.toNat < m.nodes.length := by omega
          simp only [if_pos hv0, List.getElem?_map,
            List.getElem?_eq_none (show (List.range m.nodes.length).length ≤ v.toNat by
              simp; omega), Option.map_none', Option.getD_none, hv1, and_false, if_false]
      · simp only [if_neg hv0, Option.getD_none, hv0, false_and, if_false]
    have hpd : ∀ v, pd ⟨h2, (List.range m.nodes.length).map
          (fun i : Nat => if (i : Int) = start_id then 0 else INFINITY_COST),
          List.replicate m.nodes.length (-1), List.replicate m.nodes.length false⟩ v = -1 := by
      intro v
      unfold pd nth
      by_cases hv0 : 0 ≤ v
      · simp only [if_pos hv0]
        cases hg : (List.replicate m.nodes.length (-1 : Int))[v.toNat]? with
        | none => rfl
        | some x =>
          have := List.mem_iff_getElem?.mpr ⟨_, hg⟩
          simp only [List.mem_replicate] at this
          simp [this.2]
      · simp only [if_neg hv0, Option.getD_none]
    have hvs : ∀ v, vis ⟨h2, (List.range m.nodes.length).map
          (fun i : Nat => if (i : Int) = start_id then 0 else INFINITY_COST),
          List.replicate m.nodes.length (-1), List.replicate m.nodes.length false⟩ v = false := by
      intro v
      unfold vis nth
      by_cases hv0 : 0 ≤ v
      · simp only [if_pos hv0]
        cases hg : (List.replicate m.nodes.length false)[v.toNat]? with
        | none => rfl
        | some x =>
          have := List.mem_iff_getElem?.mpr ⟨_, hg⟩
          simp only [List.mem_replicate] at this
          simp [this.2]
      · simp only [if_neg hv0, Option.getD_none]
    have hinf := INFINITY_COST_pos
    exact
    { len_times := by simp
      len_preds := by simp
      len_visited := by simp
      heap_ok := hwf2
      ordered := hord2 hord1
      keys := by
        show ((heap_entries h2).map HeapNode.node_id).Nodup
        refine ((hperm.map HeapNode.node_id).nodup_iff).mpr ?_
        simp only [List.map_cons, List.map_map]
        refine List.nodup_cons.mpr ⟨?_, ?_⟩
        · simp only [List.mem_map, List.mem_filter, List.mem_range, decide_eq_true_eq,
            Function.comp_apply, not_exists, not_and]
          intro i hi hne
          exact hi.2 hne
        · refine List.Nodup.map ?_ ((List.nodup_range _).filter _)
          intro a b hab
          simpa using hab
      entry := by
        intro e he
        show node_exists m e.node_id ∧ _ ∧ _
        rw [hvs, htm]
        rcases (hmem e).mp he with rfl | ⟨i, hi1, hi2, rfl⟩
        · simp only [hstart, if_true]
          exact ⟨trivial, trivial, trivial⟩
        · have hex : node_exists m (i : Int) := by
            unfold node_exists ssmap.nr_nodes; omega
          simp only [hex, if_true, if_neg hi2]
          exact ⟨trivial, trivial, trivial⟩
      present := by
        intro v hv _
        show ∃ e ∈ heap_entries h2, e.node_id = v
        by_cases hvs2 : v = start_id
        · exact ⟨⟨start_id, 0⟩, (hmem _).mpr (Or.inl rfl), hvs2.symm⟩
        · have hcast : ((v.toNat : Nat) : Int) = v := Int.toNat_of_nonneg hv.1
          refine ⟨⟨v, INFINITY_COST⟩, (hmem _).mpr (Or.inr ⟨v.toNat, ?_, ?_, ?_⟩), rfl⟩
          · have := hv.2; unfold ssmap.nr_nodes at this; omega
          · rw [hcast]; exact hvs2
          · rw [hcast]
      count := by
        show 0 + h2.size ≤ m.nodes.length
        have := hwf2.1; have := hwf2.2
        omega
      start_zero := by rw [htm]; simp [hstart]
      start_pred := hpd _
      nonneg := by
        intro v
        rw [htm]
        split
        · split
          · exact le_rfl
          · exact hinf.le
        · exact le_rfl
      le_inf := by
        intro v
        rw [htm]
        split
        · split
          · exact hinf.le
          · exact le_rfl
        · exact hinf.le
      relaxed := by intro u v hu; rw [hvs] at hu; cases hu
      mono := by intro u v hu; rw [hvs] at hu; cases hu
      cur_max := by intro u hu; rw [hvs] at hu; cases hu
      pend_edge := by intro e he; cases he
      cur_visited := by intro h; exact absurd rfl h
      pred_some := by intro v hv; exact absurd (hpd v) hv
      pred_none := by
        intro v hv _
        rw [htm]
        by_cases hvs2 : v = start_id
        · exact Or.inl hvs2
        · right; simp only [hv, if_true, if_neg hvs2]
      rank_unvisited := fun _ _ => rfl
      rank_visited := by intro v hv; rw [hvs] at hv; cases hv }
  · intro v
    unfold vis nth
    by_cases hv0 : 0 ≤ v
    · simp only [if_pos hv0]
      cases hg : (List.replicate m.nodes.length false)[v.toNat]? with
      | none => rfl
      | some x =>
        have := List.mem_iff_getElem?.mpr ⟨_, hg⟩
        simp only [List.mem_replicate] at this
        simp [this.2]
    · simp only [if_neg hv0, Option.getD_none]

/-! ## Routes accepted by the validator, seen from the search -/

/-- A route on which the loop prints no error: every leg passes the leg
checks and the value returned is the running total plus the sum of the leg
times. -/
theorem travel_loop_accepts (dist : node → node → ℚ) (m : ssmap) :
    ∀ (R : List Int) (total v : ℚ), travel_loop dist m R total = some ⟨none, v⟩ →
      List.Chain' (fun a b => leg_passes m a b = true) R ∧
        ∃ t, route_time dist m R = some t ∧ v = total + t := by
  intro R
  induction R with
  | nil =>
    intro total v h
    simp only [travel_loop, Option.some.injEq, travel_result.mk.injEq, true_and] at h
    exact ⟨List.chain'_nil, 0, rfl, by rw [← h]; simp⟩
  | cons a rest ih =>
    intro total v h
    cases rest with
    | nil =>
      simp only [travel_loop, Option.some.injEq, travel_result.mk.injEq, true_and] at h
      exact ⟨List.chain'_singleton _, 0, rfl, by rw [← h]; simp⟩
    | cons b rest2 =>
      rw [travel_loop] at h
      split at h
      · simp at h
      · cases hlc : leg_check m a b with
        | none => simp [hlc] at h
        | some r =>
          cases r with
          | error e => simp [hlc] at h
          | ok s =>
            simp only [hlc] at h
            cases hna : nth m.nodes a with
            | none => simp [hna] at h
            | some na =>
              cases hnb : nth m.nodes b with
              | none => simp [hna, hnb] at h
              | some nb =>
                simp only [hna, hnb] at h
                obtain ⟨hch, t, ht, hv⟩ := ih _ _ h
                have hpass : leg_passes m a b = true := (leg_passes_iff m a b).mpr ⟨s, hlc⟩
                have hlt := leg_time_of_check dist m a b s na nb hna hnb hlc
                refine ⟨List.chain'_cons.mpr ⟨hpass, hch⟩,
                  calculate_travel_time dist na nb s + t, ?_, ?_⟩
                · simp [route_time, hlt, ht]
                · rw [hv]; ring

theorem travel_time_accepts (dist : node → node → ℚ) (m : ssmap) (R : List Int) (v : ℚ)
    (h : ssmap_path_travel_time dist m R = some ⟨none, v⟩) :
    List.Chain' (fun a b => leg_passes m a b = true) R ∧ route_time dist m R = some v := by
  unfold ssmap_path_travel_time at h
  cases hfi : first_invalid m.nr_nodes R with
  | some x => simp [hfi] at h
  | none =>
    simp only [hfi] at h
    obtain ⟨hch, t, ht, hv⟩ := travel_loop_accepts dist m R 0 v h
    refine ⟨hch, ?_⟩
    rw [ht, hv]; simp

theorem route_time_append (dist : node → node → ℚ) (m : ssmap) (v : Int) (t : ℚ) :
    ∀ (P : List Int) (p : Int) (T : ℚ), P.getLast? = some p → route_time dist m P = some T →
      leg_time dist m p v = some t → route_time dist m (P ++ [v]) = some (T + t) := by
  intro P
  induction P with
  | nil => intro p T h; simp at h
  | cons a rest ih =>
    intro p T hl hT hleg
    cases rest with
    | nil =>
      simp only [List.getLast?_singleton, Option.some.injEq] at hl
      subst hl
      simp only [route_time, Option.some.injEq] at hT
      subst hT
      simp [route_time, hleg]
    | cons b rest2 =>
      have hl2 : (b :: rest2).getLast? = some p := by
        simpa [List.getLast?_cons_cons] using hl
      rw [route_time] at hT
      cases hab : leg_time dist m a b with
      | none => simp [hab] at hT
      | some tab =>
        cases hr : route_time dist m (b :: rest2) with
        | none => simp [hab, hr] at hT
        | some T2 =>
          simp only [hab, hr, Option.some.injEq] at hT
          have := ih p T2 hl2 hr hleg
          simp only [List.cons_append] at this ⊢
          rw [route_time]
          simp only [hab, this, Option.some.injEq]
          rw [← hT]; ring

theorem route_time_nonneg (dist : node → node → ℚ) (m : ssmap) (hwf : well_formed m)
    (hd : ∀ x y, 0 ≤ dist x y) (hs : ∀ w ∈ m.ways, 0 < w.speed_limit) :
    ∀ (R : List Int) (T : ℚ), List.Chain' (search_edge m) R → route_time dist m R = some T →
      0 ≤ T := by
  intro R
  induction R with
  | nil => intro T _ h; simp only [route_time, Option.some.injEq] at h; rw [← h]
  | cons a rest ih =>
    intro T hch hT
    cases rest with
    | nil => simp only [route_time, Option.some.injEq] at hT; rw [← hT]
    | cons b rest2 =>
      have hc2 := List.chain'_cons.mp hch
      obtain ⟨t, ht, hpos⟩ := search_edge_leg_time dist m hwf a b hc2.1
      rw [route_time] at hT
      cases hr : route_time dist m (b :: rest2) with
      | none => simp [ht, hr] at hT
      | some T2 =>
        simp only [ht, hr, Option.some.injEq] at hT
        have := ih T2 hc2.2 hr
        have := hpos hd hs
        linarith

/-- At the moment `end_id` is extracted, its tentative time is a lower bound
for the time of every route to `end_id` along legs the search knows, counted
from the tentative time of the first node of the route. -/
theorem search_lower_bound (dist : node → node → ℚ) (m : ssmap) (hwf : well_formed m)
    (hd : ∀ x y, 0 ≤ dist x y) (hs : ∀ w ∈ m.ways, 0 < w.speed_limit) (start_id end_id : Int)
    (st : search_state) (rank : Int → Nat) (k : Nat) (c : Int)
    (hinv : search_inv dist m start_id st rank k c [])
    (hmin : ∀ v, node_exists m v → vis st v = false → tm st end_id ≤ tm st v) :
    ∀ (R : List Int) (a : Int) (T : ℚ), List.Chain' (search_edge m) (a :: R) →
      (a :: R).getLast? = some end_id → route_time dist m (a :: R) = some T →
      tm st end_id ≤ tm st a + T := by
  intro R
  induction R with
  | nil =>
    intro a T _ hl hT
    simp only [List.getLast?_singleton, Option.some.injEq] at hl
    simp only [route_time, Option.some.injEq] at hT
    rw [hl, ← hT]; simp
  | cons b rest ih =>
    intro a T hch hl hT
    have hc2 := List.chain'_cons.mp hch
    have hl2 : (b :: rest).getLast? = some end_id := by
      simpa [List.getLast?_cons_cons] using hl
    obtain ⟨t, ht, hpos⟩ := search_edge_leg_time dist m hwf a b hc2.1
    have hea := (search_edge_spec m hwf a b hc2.1).1
    have hT0 := route_time_nonneg dist m hwf hd hs _ T hch hT
    rw [route_time] at hT
    cases hr : route_time dist m (b :: rest) with
    | none => simp [ht, hr] at hT
    | some T2 =>
      simp only [ht, hr, Option.some.injEq] at hT
      cases hva : vis st a with
      | false =>
        have := hmin a hea hva
        linarith
      | true =>
        have hrel : tm st b ≤ tm st a + wt dist m a b := by
          rcases hinv.relaxed a b hva hc2.1 with ⟨-, e, he, -⟩ | h
          · cases he
          · exact h
        have hwt : wt dist m a b = t := by simp [wt, ht]
        have := ih b T2 hc2.2 hl2 hr
        linarith

/-! ## The reconstruction loop -/

theorem walk_back_stop (predecessors : List Int) (room : Nat) (acc : List Int) :
    walk_back predecessors room (-1) acc = some acc := by
  cases room <;> simp [walk_back]

/-- Walking the predecessor links back from a node `v` that is the start node
or has a finite tentative time, with more free slots than the rank of `v`:
the loop ends at `start_id`, and the ids written, read in printing order, form
a path from `start_id` to `v` along legs the search knows whose time is the
tentative time of `v`. -/
theorem walk_back_spec (dist : node → node → ℚ) (m : ssmap) (hwf : well_formed m)
    (hd : ∀ x y, 0 ≤ dist x y) (hs : ∀ w ∈ m.ways, 0 < w.speed_limit) (start_id : Int)
    (st : search_state) (rank : Int → Nat) (k : Nat) (c : Int)
    (hinv : search_inv dist m start_id st rank k c []) :
    ∀ (room : Nat) (v : Int) (acc : List Int), node_exists m v →
      (v = start_id ∨ tm st v < INFINITY_COST) → rank v < room →
      ∃ P, walk_back st.predecessors room v acc = some (P ++ acc) ∧
        P.head? = some start_id ∧ P.getLast? = some v ∧
        route_time dist m P = some (tm st v) ∧ List.Chain' (search_edge m) P := by
  intro room
  induction room with
  | zero => intro v acc _ _ h; omega
  | succ room ih =>
    intro v acc hv hfin hrank
    have hv1 : ¬ v = -1 := by have := hv.1; omega
    have hnp : nth st.predecessors v = some (pd st v) :=
      nth_of_exists _ _ (-1) hv.1 (by rw [hinv.len_preds]; exact hv.2)
    rw [walk_back]
    simp only [if_neg hv1, hnp]
    by_cases hp : pd st v = -1
    · rw [hp, walk_back_stop]
      have hvs : v = start_id := by
        rcases hfin with h | h
        · exact h
        · rcases hinv.pred_none v hv hp with h2 | h2
          · exact h2
          · rw [h2] at h; exact absurd h (lt_irrefl _)
      refine ⟨[v], rfl, by rw [hvs]; rfl, rfl, ?_, List.chain'_singleton _⟩
      rw [hvs, hinv.start_zero]
      rfl
    · obtain ⟨g1, g2, g3, g4, g5⟩ := hinv.pred_some v hp
      have hpe := vis_true_exists m st hinv.len_visited _ g1
      have hw0 := wt_nonneg dist m hwf hd hs _ _ g2
      obtain ⟨P, hP1, hP2, hP3, hP4, hP5⟩ :=
        ih (pd st v) (v :: acc) hpe (Or.inr (by linarith)) (by omega)
      obtain ⟨t, ht, -⟩ := search_edge_leg_time dist m hwf _ _ g2
      have hwt : wt dist m (pd st v) v = t := by simp [wt, ht]
      refine ⟨P ++ [v], by rw [hP1]; simp, ?_, by simp, ?_, ?_⟩
      · cases P with
        | nil => simp at hP3
        | cons a rest => simpa using hP2
      · rw [route_time_append dist m v t P (pd st v) _ hP3 hP4 ht, g3, hwt]
      · refine List.Chain'.append hP5 (List.chain'_singleton _) ?_
        intro x hx y hy
        simp only [List.head?_cons, Option.mem_def, Option.some.injEq] at hy
        rw [Option.mem_def, hP3, Option.some.injEq] at hx
        rw [← hx, ← hy]
        exact g2

/-! ## `ssmap_path_create` -/

/-- The search part of `ssmap_path_create` on a well-formed graph with
existing end points: it ends without touching memory outside the arrays, and
its final times and predecessors are those of a state that satisfies the
invariant, in which `end_id` is unvisited and has the least tentative time of
the unvisited nodes. -/
theorem ssmap_path_search_spec (dist : node → node → ℚ) (m : ssmap) (hwf : well_formed m)
    (hd : ∀ x y, 0 ≤ dist x y) (hs : ∀ w ∈ m.ways, 0 < w.speed_limit) (start_id end_id : Int)
    (hstart : node_exists m start_id) (hend : node_exists m end_id) :
    ∃ st2 st0 rank0 k0 c0, ssmap_path_search dist m start_id end_id = some st2 ∧
      search_inv dist m start_id st0 rank0 k0 c0 [] ∧
      st2.times = st0.times ∧ st2.predecessors = st0.predecessors ∧
      vis st0 end_id = false ∧ 0 < st0.heap.size ∧
      ∀ v, node_exists m v → vis st0 v = false → tm st0 end_id ≤ tm st0 v := by
  obtain ⟨st, hinit, hinv, hvis⟩ := search_init_spec dist m start_id hstart
  obtain ⟨st2, st0, rank0, k0, c0, hloop, hrest⟩ :=
    search_loop_spec dist m hwf hd hs start_id end_id hend (st.heap.size + 1) st _ 0 start_id
      (by omega) hinv (hvis end_id)
  exact ⟨st2, st0, rank0, k0, c0, by simp only [ssmap_path_search, hinit, hloop], hrest⟩

theorem road_step_of_search_edge (m : ssmap) (hwf : well_formed m) (u v : Int)
    (h : search_edge m u v) : road_step m u v := by
  obtain ⟨-, -, nu, -, -, -, hnu, -⟩ := search_edge_spec m hwf u v h
  obtain ⟨w, -, way1, hway, hstep⟩ := (search_edge_iff m hwf u v nu hnu).mp h
  exact ⟨way1, nth_mem _ _ _ hway, hstep⟩

/-- What the search minimises. On a graph with ids in range, ways of at least
two pairwise distinct nodes and exact incident-way lists, with distances not
negative and speed limits positive, for existing `start_id` and `end_id` such
that some route from `start_id` to `end_id` is accepted by
`ssmap_path_travel_time` (with a time below `INFINITY_COST`),
`ssmap_path_create` returns and prints a node sequence that starts at
`start_id`, ends at `end_id` and moves by legal steps along ways of the map;
and the sum of its leg times, each leg priced the way the search prices it
(with the speed limit of the way `shared_way` returns for the pair), is at
most the travel time of every route from `start_id` to `end_id` that
`ssmap_path_travel_time` accepts. This does not make the printed sequence a
route that `ssmap_path_travel_time` accepts, nor its price the time it takes
on the roads that join its nodes: see the last section of this file. -/
theorem path_create_optimal (dist : node → node → ℚ) (m : ssmap) (hwf : well_formed m)
    (hd : ∀ x y, 0 ≤ dist x y) (hs : ∀ w ∈ m.ways, 0 < w.speed_limit) (start_id end_id : Int)
    (hstart : node_exists m start_id) (hend : node_exists m end_id)
    (R0 : List Int) (t0 : ℚ) (hR0h : R0.head? = some start_id)
    (hR0l : R0.getLast? = some end_id)
    (hR0 : ssmap_path_travel_time dist m R0 = some ⟨none, t0⟩) (ht0 : t0 < INFINITY_COST) :
    ∃ P tP, ssmap_path_create dist m start_id end_id = some (.path P) ∧
      P.head? = some start_id ∧ P.getLast? = some end_id ∧ List.Chain' (road_step m) P ∧
      route_time dist m P = some tP ∧
      ∀ R tR, R.head? = some start_id → R.getLast? = some end_id →
        ssmap_path_travel_time dist m R = some ⟨none, tR⟩ → tP ≤ tR := by
  obtain ⟨st2, st0, rank0, k0, c0, hsearch, hinv, htimes, hpreds, hvend, hpos, hmin⟩ :=
    ssmap_path_search_spec dist m hwf hd hs start_id end_id hstart hend
  -- the tentative time of `end_id` is a lower bound for every accepted route
  have hbound : ∀ R tR, R.head? = some start_id → R.getLast? = some end_id →
      ssmap_path_travel_time dist m R = some ⟨none, tR⟩ → tm st0 end_id ≤ tR := by
    intro R tR hh hl hR
    obtain ⟨hch, hrt⟩ := travel_time_accepts dist m R tR hR
    cases R with
    | nil => simp at hh
    | cons a rest =>
      simp only [List.head?_cons, Option.some.injEq] at hh
      subst hh
      have hch2 : List.Chain' (search_edge m) (a :: rest) :=
        List.Chain'.imp (fun x y hxy => search_edge_of_leg_passes m hwf x y hxy) hch
      have := search_lower_bound dist m hwf hd hs a end_id st0 rank0 k0 c0 hinv hmin
        rest a tR hch2 hl hrt
      rw [hinv.start_zero] at this
      linarith
  have hfin : tm st0 end_id < INFINITY_COST := lt_of_le_of_lt (hbound R0 t0 hR0h hR0l hR0) ht0
  have hrank : rank0 end_id < m.nodes.length := by
    have := hinv.rank_unvisited end_id hvend
    have := hinv.count
    omega
  obtain ⟨P, hwalk, hP1, hP2, hP3, hP4⟩ :=
    walk_back_spec dist m hwf hd hs start_id st0 rank0 k0 c0 hinv m.nodes.length end_id []
      hend (Or.inr hfin) hrank
  simp only [List.append_nil] at hwalk
  have hguard : ¬ (start_id < 0 ∨ end_id ≥ m.nr_nodes) := by
    have := hstart.1; have := hend.2
    omega
  have hcreate : ssmap_path_create dist m start_id end_id = some (.path P) := by
    unfold ssmap_path_create
    simp only [if_neg hguard, hsearch, hpreds]
    by_cases hes : end_id = start_id
    · simp only [if_pos hes, hwalk, Option.map_some']
    · have hnp : nth st0.predecessors end_id = some (pd st0 end_id) :=
        nth_of_exists _ _ (-1) hend.1 (by rw [hinv.len_preds]; exact hend.2)
      have hpne : pd st0 end_id ≠ -1 := by
        intro hp
        rcases hinv.pred_none end_id hend hp with h | h
        · exact hes h
        · rw [h] at hfin; exact lt_irrefl _ hfin
      simp only [if_neg hes, hnp, hpne, ne_eq, not_false_eq_true, if_true, hwalk,
        Option.map_some']
  exact ⟨P, tm st0 end_id, hcreate, hP1, hP2,
    List.Chain'.imp (fun x y hxy => road_step_of_search_edge m hwf x y hxy) hP4, hP3, hbound⟩

theorem flat_distance_nonneg (x y : node) : 0 ≤ flat_distance x y :=
  add_nonneg (abs_nonneg _) (abs_nonneg _)

/-- Instance of `path_create_optimal`: from node `0` to node `2` on `detour_map`,
where the route `0, 2` is accepted with time `3`. -/
theorem path_create_optimal_witness :
    ∃ P tP, ssmap_path_create flat_distance detour_map 0 2 = some (.path P) ∧
      P.head? = some 0 ∧ P.getLast? = some 2 ∧ List.Chain' (road_step detour_map) P ∧
      route_time flat_distance detour_map P = some tP ∧
      ∀ R tR, R.head? = some 0 → R.getLast? = some 2 →
        ssmap_path_travel_time flat_distance detour_map R = some ⟨none, tR⟩ → tP ≤ tR :=
  path_create_optimal flat_distance detour_map (by decide) flat_distance_nonneg
    (by decide!) 0 2 (by decide) (by decide) [0, 2] 3 rfl rfl (by decide!)
    (by norm_num [INFINITY_COST])

/-- C3 fails on the code: `detour_map` is well formed and `ssmap_path_create`
prints the route `0, 1` for it, but `ssmap_path_travel_time` rejects that
route with "cannot go directly from node 0 to node 1", because `shared_way`
returns way 0 (`0, 2, 1`) for the pair and not way 1, which joins them. -/
theorem path_create_output_rejected :
    well_formed detour_map ∧
      ssmap_path_create flat_distance detour_map 0 1 = some (.path [0, 1]) ∧
      ssmap_path_travel_time flat_distance detour_map [0, 1] =
        some ⟨some (.cannot_go_directly 0 1), -1⟩ := by
  decide!

/-! ## The search from a node to itself -/

theorem search_init_arrays (m : ssmap) (start_id : Int) (st : search_state)
    (h : search_init m start_id = some st) :
    st.times = (List.range m.nodes.length).map
        (fun i : Nat => if (i : Int) = start_id then 0 else INFINITY_COST) ∧
      st.predecessors = List.replicate m.nodes.length (-1) ∧
      st.visited = List.replicate m.nodes.length false := by
  unfold search_init at h
  simp only at h
  split at h
  · split at h
    · cases h
    · split at h
      · cases h
      · simp only [Option.some.injEq] at h
        subst h
        exact ⟨rfl, rfl, rfl⟩
  · cases h

theorem search_init_time (m : ssmap) (start_id : Int) (st : search_state)
    (h : search_init m start_id = some st) (v : Int) (hv : node_exists m v) :
    tm st v = if v = start_id then 0 else INFINITY_COST := by
  obtain ⟨ht, -, -⟩ := search_init_arrays m start_id st h
  have hv0 := hv.1
  have hv1 : v.toNat < m.nodes.length := by have := hv.2; unfold ssmap.nr_nodes at this; omega
  have hcast : ((v.toNat : Nat) : Int) = v := Int.toNat_of_nonneg hv0
  simp only [tm, nth, ht, if_pos hv0, List.getElem?_map, List.getElem?_range hv1,
    Option.map_some', Option.getD_some, hcast]

/-- The search from `x` to `x`: the first entry taken from the queue is `x`
itself, so the loop ends at once and the three arrays are still as they were
initialised. -/
theorem search_same_node (dist : node → node → ℚ) (m : ssmap) (x : Int)
    (hx : node_exists m x) :
    ∃ st0 h1, search_init m x = some st0 ∧
      ssmap_path_search dist m x x = some { st0 with heap := h1 } := by
  obtain ⟨st0, hinit, hinv, hvis⟩ := search_init_spec dist m x hx
  obtain ⟨ex, hex, hexid⟩ := hinv.present x hx (hvis x)
  have hpos : 0 < st0.heap.size := by
    by_contra hcon
    have hz : st0.heap.size = 0 := by omega
    rw [heap_entries_of_size_zero _ hz] at hex
    cases hex
  obtain ⟨root, h1, hrm, -, -, -, -, hperm, hord⟩ := remove_min_spec st0.heap hinv.heap_ok hpos
  obtain ⟨-, hmin⟩ := hord hinv.ordered
  have hroot : root ∈ heap_entries st0.heap := hperm.symm.subset (List.mem_cons_self _ _)
  have hrootx : root.node_id = x := by
    by_contra hne
    obtain ⟨hre, -, hrt⟩ := hinv.entry root hroot
    obtain ⟨-, -, hxt⟩ := hinv.entry ex hex
    have h1 := hmin ex hex
    rw [search_init_time m x st0 hinit _ hre, if_neg hne] at hrt
    rw [hexid, search_init_time m x st0 hinit x hx, if_pos rfl] at hxt
    have := INFINITY_COST_pos
    linarith
  refine ⟨st0, h1, hinit, ?_⟩
  unfold ssmap_path_search
  simp only [hinit]
  rw [search_loop]
  simp only [gt_iff_lt, hpos, if_true, hrm, hrootx]

/-- C11: for every graph and every `x` in `[0, nr_nodes)`, `ssmap_path_create(x, x)`
prints exactly the one-node sequence `x`; the search stops at its first
extraction, so the arrays `times`, `predecessors` and `visited` are as they
were initialised (no relaxation took place) and `times[x]` is `0`. -/
theorem path_create_same_node (dist : node → node → ℚ) (m : ssmap) (x : Int)
    (hx : node_exists m x) :
    ssmap_path_create dist m x x = some (.path [x]) ∧
      ∃ st0 st, search_init m x = some st0 ∧ ssmap_path_search dist m x x = some st ∧
        st.times = st0.times ∧ st.predecessors = st0.predecessors ∧
        st.visited = st0.visited ∧ nth st.times x = some 0 := by
  obtain ⟨st0, h1, hinit, hsearch⟩ := search_same_node dist m x hx
  obtain ⟨ht, hp, -⟩ := search_init_arrays m x st0 hinit
  have hx0 := hx.1
  have hx1 : x.toNat < m.nodes.length := by have := hx.2; unfold ssmap.nr_nodes at this; omega
  have hcast : ((x.toNat : Nat) : Int) = x := Int.toNat_of_nonneg hx0
  have hguard : ¬ (x < 0 ∨ x ≥ m.nr_nodes) := by have := hx.2; omega
  have hx1' : ¬ x = -1 := by omega
  have hpos : 0 < m.nodes.length := by omega
  have hpx : nth st0.predecessors x = some (-1) := by
    simp [nth, hp, hx0, List.getElem?_replicate, hx1]
  constructor
  · unfold ssmap_path_create
    simp only [if_neg hguard, hsearch, if_true]
    obtain ⟨room, hroom⟩ : ∃ room, m.nodes.length = room + 1 := ⟨m.nodes.length - 1, by omega⟩
    rw [hroom, walk_back]
    simp only [if_neg hx1', hpx, walk_back_stop, Option.map_some']
  · refine ⟨st0, _, hinit, hsearch, rfl, rfl, rfl, ?_⟩
    simp only [nth, ht, if_pos hx0, List.getElem?_map, List.getElem?_range hx1,
      Option.map_some', hcast, if_true]

/-- Instance of C11: node `1` of `line_map`. -/
theorem path_create_same_node_witness :
    ssmap_path_create flat_distance line_map 1 1 = some (.path [1]) ∧
      ∃ st0 st, search_init line_map 1 = some st0 ∧
        ssmap_path_search flat_distance line_map 1 1 = some st ∧
        st.times = st0.times ∧ st.predecessors = st0.predecessors ∧
        st.visited = st0.visited ∧ nth st.times 1 = some 0 :=
  path_create_same_node flat_distance line_map 1 (by decide)

/-! ## No path -/

/-- A list of nodes linked by legal steps shows that its last node can be
reached from its first. -/
theorem reachable_of_chain (m : ssmap) :
    ∀ (P : List Int) (a b : Int), List.Chain' (road_step m) P → P.head? = some a →
      P.getLast? = some b → Relation.ReflTransGen (road_step m) a b := by
  intro P
  induction P with
  | nil => intro a b _ h; simp at h
  | cons x rest ih =>
    intro a b hch hh hl
    simp only [List.head?_cons, Option.some.injEq] at hh
    subst hh
    cases rest with
    | nil =>
      simp only [List.getLast?_singleton, Option.some.injEq] at hl
      subst hl
      exact Relation.ReflTransGen.refl
    | cons y rest2 =>
      have hc := List.chain'_cons.mp hch
      have hl2 : (y :: rest2).getLast? = some b := by
        simpa [List.getLast?_cons_cons] using hl
      exact Relation.ReflTransGen.head hc.1 (ih y b hc.2 rfl hl2)

/-- C12: on a well-formed graph with non-negative leg times, for two distinct
existing nodes `start_id` and `end_id` such that `end_id` cannot be reached
from `start_id` by legal steps along the ways of the map, `ssmap_path_create`
returns after printing "No path found" and prints no node sequence. -/
theorem path_create_no_path (dist : node → node → ℚ) (m : ssmap) (hwf : well_formed m)
    (hd : ∀ x y, 0 ≤ dist x y) (hs : ∀ w ∈ m.ways, 0 < w.speed_limit) (start_id end_id : Int)
    (hstart : node_exists m start_id) (hend : node_exists m end_id) (hne : start_id ≠ end_id)
    (hun : ¬ Relation.ReflTransGen (road_step m) start_id end_id) :
    ssmap_path_create dist m start_id end_id = some (.no_path_found start_id end_id) := by
  obtain ⟨st2, st0, rank0, k0, c0, hsearch, hinv, -, hpreds, hvend, hpos, -⟩ :=
    ssmap_path_search_spec dist m hwf hd hs start_id end_id hstart hend
  have hrank : rank0 end_id < m.nodes.length := by
    have := hinv.rank_unvisited end_id hvend
    have := hinv.count
    omega
  have hpd : pd st0 end_id = -1 := by
    by_contra hp
    obtain ⟨-, -, -, hfin, -⟩ := hinv.pred_some end_id hp
    obtain ⟨P, -, hP1, hP2, -, hP4⟩ :=
      walk_back_spec dist m hwf hd hs start_id st0 rank0 k0 c0 hinv m.nodes.length end_id []
        hend (Or.inr hfin) hrank
    exact hun (reachable_of_chain m P start_id end_id
      (List.Chain'.imp (fun x y hxy => road_step_of_search_edge m hwf x y hxy) hP4) hP1 hP2)
  have hguard : ¬ (start_id < 0 ∨ end_id ≥ m.nr_nodes) := by
    have := hstart.1; have := hend.2
    omega
  have hnp : nth st0.predecessors end_id = some (pd st0 end_id) :=
    nth_of_exists _ _ (-1) hend.1 (by rw [hinv.len_preds]; exact hend.2)
  unfold ssmap_path_create
  simp only [if_neg hguard, hsearch, hpreds, if_neg (Ne.symm hne), hnp, hpd, ne_eq,
    not_true_eq_false, if_false]

/-- In `two_towns_map` a legal step from node `0` or `1` leads to node `0` or `1`. -/
theorem two_towns_step (u v : Int) (h : road_step two_towns_map u v) (hu : u = 0 ∨ u = 1) :
    v = 0 ∨ v = 1 := by
  obtain ⟨way1, hmem, hstep⟩ := h
  obtain ⟨hu2, hv2⟩ := legal_step_mem way1 u v hstep
  simp only [two_towns_map, List.mem_cons, List.mem_singleton, List.not_mem_nil, or_false]
    at hmem
  rcases hmem with rfl | rfl
  · simpa using hv2
  · simp only [List.mem_cons, List.mem_singleton, List.not_mem_nil, or_false] at hu2
    omega

theorem two_towns_unreachable : ¬ Relation.ReflTransGen (road_step two_towns_map) 0 2 := by
  intro h
  have key : ∀ v, Relation.ReflTransGen (road_step two_towns_map) 0 v → v = 0 ∨ v = 1 := by
    intro v hv
    induction hv with
    | refl => exact Or.inl rfl
    | tail _ hstep ih => exact two_towns_step _ _ hstep ih
  have := key 2 h
  omega

/-- Instance of C12: from node `0` to node `2` of `two_towns_map`, which lie on
two roads that do not meet. -/
theorem path_create_no_path_witness :
    ssmap_path_create flat_distance two_towns_map 0 2 = some (.no_path_found 0 2) :=
  path_create_no_path flat_distance two_towns_map (by decide) flat_distance_nonneg
    (by decide!) 0 2 (by decide) (by decide) (by decide) two_towns_unreachable

/-! ## The range check of `ssmap_path_create` -/

/-- C13 fails on the code: the guard `start_id < 0 || end_id >= V` tests one
bound of each id only. On `line_map` (three nodes) the query from `3` to `0`
passes the guard and writes `times[3]`, and the query from `0` to `-1` passes
it and reads `predecessors[-1]` after the search; both are accesses outside
the arrays. The two cases the guard does test are answered with
"No path found". -/
theorem path_create_partial_guard :
    ssmap_path_create flat_distance line_map 3 0 = none ∧
      ssmap_path_create flat_distance line_map 0 (-1) = none ∧
      search_init line_map 3 = none ∧
      (∃ st, ssmap_path_search flat_distance line_map 0 (-1) = some st ∧
        nth st.predecessors (-1) = none) ∧
      ssmap_path_create flat_distance line_map (-1) 0 = some (.no_path_found (-1) 0) ∧
      ssmap_path_create flat_distance line_map 0 3 = some (.no_path_found 0 3) := by
  refine ⟨by decide!, by decide!, by decide!, ?_, by decide!, by decide!⟩
  have h : (ssmap_path_search flat_distance line_map 0 (-1)).isSome = true := by decide!
  obtain ⟨st, hst⟩ := Option.isSome_iff_exists.mp h
  exact ⟨st, hst, by simp [nth]⟩

/-! ## Sequences of heap calls -/

/-- A sequence of calls that lower keys keeps the heap inside its array and in
heap order, and none of the calls touches memory outside the array. -/
theorem run_calls_spec : ∀ (calls : List heap_call) (h : MinHeap), heap_wf h →
    heap_ordered h.elements h.size → calls_lower h calls →
    ∃ h2, run_calls h calls = some h2 ∧ heap_wf h2 ∧ heap_ordered h2.elements h2.size := by
  intro calls
  induction calls with
  | nil => intro h hwf hord _; exact ⟨h, rfl, hwf, hord⟩
  | cons c rest ih =>
    intro h hwf hord hl
    obtain ⟨hc, hrest⟩ := hl
    have hstep : ∃ h1, apply_call h c = some h1 ∧ heap_wf h1 ∧
        heap_ordered h1.elements h1.size := by
      cases c with
      | insert node_id priority =>
        by_cases hfull : h.size = h.capacity
        · exact ⟨h, insert_into_heap_full h node_id priority hfull, hwf, hord⟩
        · have hroom : h.size < h.capacity := by
            have := hwf.1; have := hwf.2
            omega
          obtain ⟨h1, hi, hwf1, -, -, -, hord1⟩ :=
            insert_into_heap_spec h node_id priority hwf hroom
          exact ⟨h1, hi, hwf1, hord1 hord⟩
      | decrease node_id priority =>
        obtain ⟨hpres, hlow⟩ := hc
        obtain ⟨h1, i, e, hdk, hwf1, -, -, hget, hid, -, hord1⟩ :=
          decrease_key_spec h node_id priority hwf hpres
        have hmem : e ∈ heap_entries h := List.mem_iff_getElem?.mpr ⟨i, hget⟩
        exact ⟨h1, hdk, hwf1, hord1 hord (hlow e hmem hid)⟩
    obtain ⟨h1, happ, hwf1, hord1⟩ := hstep
    simp only [happ] at hrest
    obtain ⟨h2, hrun, hwf2, hord2⟩ := ih h1 hwf1 hord1 hrest
    exact ⟨h2, by simp only [run_calls, happ, hrun], hwf2, hord2⟩

/-- C14 is false as stated: after `insert_into_heap(heap, 1, 1)`,
`insert_into_heap(heap, 2, 2)` and `decrease_key(heap, 1, 10)` on a fresh heap,
`remove_min` returns the entry of node `1` with priority `10` although the
entry of node `2`, with priority `2`, is present. -/
theorem raised_key_returned_first :
    run_calls (create_min_heap 3) [.insert 1 1, .insert 2 2, .decrease 1 10] =
        some ⟨2, 3, [⟨1, 10⟩, ⟨2, 2⟩]⟩ ∧
      remove_min ⟨2, 3, [⟨1, 10⟩, ⟨2, 2⟩]⟩ = some (⟨1, 10⟩, ⟨1, 3, [⟨2, 2⟩, ⟨2, 2⟩]⟩) ∧
      (⟨2, 2⟩ : HeapNode) ∈ heap_entries ⟨2, 3, [⟨1, 10⟩, ⟨2, 2⟩]⟩ ∧
      ¬ (⟨1, 10⟩ : HeapNode).priority ≤ (⟨2, 2⟩ : HeapNode).priority := by
  refine ⟨by decide!, by decide!, by decide!, by norm_num⟩

/-- C14, amended: take any sequence of `insert_into_heap` and `decrease_key`
calls on a freshly created heap in which every `decrease_key` call names a node
id present in the heap and gives a priority not above the current priority of
the entries with that id. The calls all return, and if they leave the heap
non-empty, the next `remove_min` returns an entry of the heap whose priority is
less than or equal to the priority of every entry present at that moment. -/
theorem remove_min_returns_minimum (capacity : Nat) (calls : List heap_call)
    (hl : calls_lower (create_min_heap capacity) calls) :
    ∃ h, run_calls (create_min_heap capacity) calls = some h ∧
      (0 < h.size → ∃ e h2, remove_min h = some (e, h2) ∧ e ∈ heap_entries h ∧
        ∀ x ∈ heap_entries h, e.priority ≤ x.priority) := by
  obtain ⟨h, hrun, hwf, hord⟩ :=
    run_calls_spec calls (create_min_heap capacity)
      ⟨by simp [create_min_heap], by simp [create_min_heap]⟩
      (by intro i _ hin; simp [create_min_heap] at hin) hl
  refine ⟨h, hrun, fun hpos => ?_⟩
  obtain ⟨root, h2, hrm, -, -, -, -, hperm, hmin⟩ := remove_min_spec h hwf hpos
  exact ⟨root, h2, hrm, hperm.symm.subset (List.mem_cons_self _ _), (hmin hord).2⟩

/-- Instance of C14: two insertions and a `decrease_key` call that lowers the
priority of node `1` from `5` to `1`. -/
theorem remove_min_returns_minimum_witness :
    ∃ h, run_calls (create_min_heap 3) [.insert 1 5, .insert 2 3, .decrease 1 1] = some h ∧
      (0 < h.size → ∃ e h2, remove_min h = some (e, h2) ∧ e ∈ heap_entries h ∧
        ∀ x ∈ heap_entries h, e.priority ≤ x.priority) :=
  remove_min_returns_minimum 3 [.insert 1 5, .insert 2 3, .decrease 1 1] (by decide!)

/-! ## `remove_min` on an empty heap -/

/-- C15: on a heap of size 0, whatever its backing array holds, `remove_min`
returns the sentinel entry `{-1, 0}`, whose node id `-1` is not the id of a
node of any map, and leaves the size, the capacity and the array as they
were; the returned entry is built by the code and not read from the array, so
it is never an entry left over from earlier insertions. -/
theorem remove_min_empty (h : MinHeap) (hz : h.size = 0) :
    remove_min h = some (⟨-1, 0⟩, h) ∧ ∀ m : ssmap, ¬ node_exists m (-1) := by
  constructor
  · simp [remove_min, hz]
  · intro m hex
    have := hex.1
    omega

/-- Instance of C15: the heap left by one insertion followed by one
`remove_min`, whose array still holds the entry of node `5`. -/
theorem remove_min_empty_witness :
    (∃ h1, insert_into_heap (create_min_heap 2) 5 1 = some h1 ∧
      remove_min h1 = some (⟨5, 1⟩, ⟨0, 2, [⟨5, 1⟩]⟩)) ∧
      remove_min ⟨0, 2, [⟨5, 1⟩]⟩ = some (⟨-1, 0⟩, ⟨0, 2, [⟨5, 1⟩]⟩) ∧
      ∀ m : ssmap, ¬ node_exists m (-1) :=
  ⟨⟨⟨1, 2, [⟨5, 1⟩]⟩, by decide!, by decide!⟩, remove_min_empty ⟨0, 2, [⟨5, 1⟩]⟩ rfl⟩

/-! ## The neighbours, way by way -/

/-- The body of the loop of `find_neighbors` for a way (with at least two,
pairwise distinct nodes) in which `u` sits at position `p`, on a heap with
room for two entries: the entries inserted are those of `way_contribution`. -/
theorem neighbors_of_way_at (u : Int) (way1 : way) (heap : MinHeap)
    (hn : way1.node_ids.Nodup) (hlen : 2 ≤ way1.node_ids.length) (p : Nat)
    (hp : way1.node_ids[p]? = some u)
    (hwf : heap_wf heap) (hroom : heap.size + 2 ≤ heap.capacity) :
    ∃ heap2, neighbors_of_way u way1 heap = some heap2 ∧ heap_wf heap2 ∧
      heap2.capacity = heap.capacity ∧
      heap2.size = heap.size + (way_contribution way1 p).length ∧
      (way_contribution way1 p).length ≤ 2 ∧
      List.Perm (heap_entries heap2)
        ((way_contribution way1 p).map (fun v => (⟨v, 0⟩ : HeapNode)) ++ heap_entries heap) := by
  have hplt : p < way1.node_ids.length := (List.getElem?_eq_some_iff.mp hp).1
  have hg0 : way1.node_ids[0]? = some way1.node_ids[0] := List.getElem?_eq_getElem (by omega)
  have hg1 : way1.node_ids[1]? = some way1.node_ids[1] := List.getElem?_eq_getElem (by omega)
  have hgl : way1.node_ids[way1.node_ids.length - 1]? =
      some way1.node_ids[way1.node_ids.length - 1] := List.getElem?_eq_getElem (by omega)
  have hgl2 : way1.node_ids[way1.node_ids.length - 2]? =
      some way1.node_ids[way1.node_ids.length - 2] := List.getElem?_eq_getElem (by omega)
  have hnl : nth way1.node_ids ((way1.node_ids.length : Int) - 1) =
      some way1.node_ids[way1.node_ids.length - 1] := by
    have : ((way1.node_ids.length : Int) - 1) = ((way1.node_ids.length - 1 : Nat) : Int) := by
      omega
    rw [this, nth_natCast]; exact hgl
  have hnl2 : nth way1.node_ids ((way1.node_ids.length : Int) - 2) =
      some way1.node_ids[way1.node_ids.length - 2] := by
    have : ((way1.node_ids.length : Int) - 2) = ((way1.node_ids.length - 2 : Nat) : Int) := by
      omega
    rw [this, nth_natCast]; exact hgl2
  have hfirst_iff : way1.node_ids[0] = u ↔ p = 0 := by
    constructor
    · intro h
      exact (nodup_getElem?_inj _ hn 0 p u (by rw [hg0, h]) hp).symm
    · intro h
      subst h
      rw [hg0] at hp
      exact Option.some.inj hp
  have hlast_iff : way1.node_ids[way1.node_ids.length - 1] = u ↔
      p + 1 = way1.node_ids.length := by
    constructor
    · intro h
      have := nodup_getElem?_inj _ hn (way1.node_ids.length - 1) p u (by rw [hgl, h]) hp
      omega
    · intro h
      have hpe : p = way1.node_ids.length - 1 := by omega
      subst hpe
      rw [hgl] at hp
      exact Option.some.inj hp
  unfold neighbors_of_way way_contribution
  simp only [hg0]
  by_cases hp0 : p = 0
  · -- first position
    subst hp0
    simp only [if_pos (hfirst_iff.mpr rfl), hg1, if_true, Nat.zero_add, Option.toList_some]
    obtain ⟨h1, hi1, hwf1, hsz1, hcap1, hperm1, -⟩ :=
      insert_into_heap_spec heap way1.node_ids[1] 0 hwf (by omega)
    exact ⟨h1, hi1, hwf1, hcap1, by simp [hsz1], by simp, by simpa using hperm1⟩
  · have hfirst : ¬ way1.node_ids[0] = u := fun h => hp0 (hfirst_iff.mp h)
    simp only [if_neg hfirst, hnl, if_neg hp0]
    by_cases hpl : p + 1 = way1.node_ids.length
    · -- last position
      have hpe : p - 1 = way1.node_ids.length - 2 := by omega
      simp only [if_pos (hlast_iff.mpr hpl), if_pos hpl, hpe, hgl2, Option.toList_some]
      by_cases hone : way1.one_way = true
      · simp only [hone, Bool.not_true, Bool.false_eq_true, if_false, if_true]
        exact ⟨heap, rfl, hwf, rfl, by simp, by simp, by simp⟩
      · have hone2 : way1.one_way = false := by simpa using hone
        simp only [hone2, Bool.not_false, if_true, hnl2, Bool.false_eq_true, if_false]
        obtain ⟨h1, hi1, hwf1, hsz1, hcap1, hperm1, -⟩ :=
          insert_into_heap_spec heap way1.node_ids[way1.node_ids.length - 2] 0 hwf (by omega)
        exact ⟨h1, hi1, hwf1, hcap1, by simp [hsz1], by simp, by simpa using hperm1⟩
    · -- interior position
      have hlast : ¬ way1.node_ids[way1.node_ids.length - 1] = u :=
        fun h => hpl (hlast_iff.mp h)
      have hgprv : way1.node_ids[p - 1]? = some way1.node_ids[p - 1] :=
        List.getElem?_eq_getElem (by omega)
      have hgnxt : way1.node_ids[p + 1]? = some way1.node_ids[p + 1] :=
        List.getElem?_eq_getElem (by omega)
      simp only [if_neg hlast, if_neg hpl, hgprv, hgnxt, Option.toList_some]
      obtain ⟨heap2, hscan, hwf2, hcap2, hsz2, hperm2⟩ :=
        interior_scan_present u way1 hn p _ _ hp (by omega) hgprv hgnxt way1.node_ids.length 0
          heap (by omega) (by omega) hwf hroom
      refine ⟨heap2, hscan, hwf2, hcap2, ?_, ?_, ?_⟩
      · rw [hsz2]; split <;> simp
      · split <;> simp
      · refine hperm2.trans ?_
        split <;> simp

/-- The loop of `find_neighbors` over incident ways that exist, have at least
two pairwise distinct nodes and contain `u`, on a heap with room for two
entries per way: the entries inserted are the contributions of the ways. -/
theorem find_neighbors_loop_at (m : ssmap) (u : Int) :
    ∀ (ws : List Int) (heap : MinHeap),
      (∀ w ∈ ws, ∃ way1, nth m.ways w = some way1 ∧ 2 ≤ way1.node_ids.length ∧
        way1.node_ids.Nodup ∧ u ∈ way1.node_ids) →
      heap_wf heap → heap.size + 2 * ws.length ≤ heap.capacity →
      ∃ heap2, find_neighbors_loop m u ws heap = some heap2 ∧ heap_wf heap2 ∧
        List.Perm (heap_entries heap2)
          ((neighbor_contributions m u ws).map (fun v => (⟨v, 0⟩ : HeapNode)) ++
            heap_entries heap) := by
  intro ws
  induction ws with
  | nil =>
    intro heap _ hwf _
    exact ⟨heap, rfl, hwf, by simp [neighbor_contributions]⟩
  | cons w rest ih =>
    intro heap hws hwf hroom
    obtain ⟨way1, hway, hlen, hnd, hmem⟩ := hws w (List.mem_cons_self _ _)
    simp only [List.length_cons] at hroom
    obtain ⟨h1, hnw, hwf1, hcap1, hsz1, hadd, hperm1⟩ :=
      neighbors_of_way_at u way1 heap hnd hlen _ (List.getElem?_indexOf hmem) hwf (by omega)
    obtain ⟨h2, hloop, hwf2, hperm2⟩ :=
      ih h1 (fun x hx => hws x (List.mem_cons_of_mem _ hx)) hwf1 (by omega)
    refine ⟨h2, by simp only [find_neighbors_loop, hway, hnw, hloop], hwf2, ?_⟩
    have hc : neighbor_contributions m u (w :: rest) =
        way_contribution way1 (way1.node_ids.indexOf u) ++ neighbor_contributions m u rest := by
      simp only [neighbor_contributions, List.flatMap_cons, hway]
    rw [hc, List.map_append]
    refine hperm2.trans ((List.Perm.append_left _ hperm1).trans ?_)
    rw [← List.append_assoc]
    exact List.Perm.append_right _ List.perm_append_comm

/-- The rules of the resolver on ways that repeat no node. On a graph with ids
in range, ways of at least two pairwise distinct nodes and exact incident-way
lists, for every existing node `n`: `find_neighbors(n)` returns; in every way
`n` lists, `n` sits at exactly one position `p`; and the entries of the heap
returned (all with priority 0) are, counted with their multiplicity, the
contributions of the incident ways put together, where a way contributes the
entry at `p + 1` if `p` is the first position, the entry at `p - 1` if `p` is
the last position and the way is not one-way (nothing if it is one-way), and
at an interior position the entry at `p + 1` plus, when the way is not
one-way, the entry at `p - 1`. (On a way that comes back to a node the rules
can fail: see the last section of this file.) -/
theorem find_neighbors_contributions (m : ssmap) (hwf : well_formed m) (n : Int) (nu : node)
    (hnu : nth m.nodes n = some nu) :
    ∃ h, find_neighbors m n = some h ∧
      (∀ w ∈ nu.way_ids, ∃ way1, nth m.ways w = some way1 ∧
        ∀ p : Nat, way1.node_ids[p]? = some n ↔ p = way1.node_ids.indexOf n) ∧
      List.Perm (heap_entries h)
        ((neighbor_contributions m n nu.way_ids).map (fun v => (⟨v, 0⟩ : HeapNode))) := by
  have hways : ∀ w ∈ nu.way_ids, ∃ way1, nth m.ways w = some way1 ∧
      2 ≤ way1.node_ids.length ∧ way1.node_ids.Nodup ∧ n ∈ way1.node_ids := by
    intro w hw
    have hr := hwf.2.1 nu (nth_mem _ _ _ hnu) w hw
    obtain ⟨way1, hway, hmem⟩ := nth_eq_some_of_range m.ways w hr.1 hr.2
    obtain ⟨hlen, hnd, -⟩ := hwf.1 way1 hmem
    exact ⟨way1, hway, hlen, hnd, (well_formed_incident m hwf n w nu way1 hnu hway).mp hw⟩
  obtain ⟨h, hloop, -, hperm⟩ :=
    find_neighbors_loop_at m n nu.way_ids (create_min_heap (nu.way_ids.length * 2)) hways
      ⟨by simp [create_min_heap], by simp [create_min_heap]⟩
      (by simp [create_min_heap]; omega)
  refine ⟨h, by simp only [find_neighbors, hnu, hloop], ?_, ?_⟩
  · intro w hw
    obtain ⟨way1, hway, -, hnd, hmem⟩ := hways w hw
    refine ⟨way1, hway, fun p => ⟨fun hp => ?_, fun hp => ?_⟩⟩
    · exact nodup_getElem?_inj _ hnd _ _ n hp (List.getElem?_indexOf hmem)
    · rw [hp]; exact List.getElem?_indexOf hmem
  · simpa [heap_entries, create_min_heap] using hperm

/-- Instance of `find_neighbors_contributions`: node `1` of `one_way_map`, which
is the last node of the two-way road `2, 1` and an interior node of the
one-way road `0, 1, 2`. -/
theorem find_neighbors_contributions_witness :
    ∃ h, find_neighbors one_way_map 1 = some h ∧
      (∀ w ∈ [0, 1], ∃ way1, nth one_way_map.ways w = some way1 ∧
        ∀ p : Nat, way1.node_ids[p]? = some 1 ↔ p = way1.node_ids.indexOf 1) ∧
      List.Perm (heap_entries h)
        ((neighbor_contributions one_way_map 1 [0, 1]).map (fun v => (⟨v, 0⟩ : HeapNode))) :=
  find_neighbors_contributions one_way_map (by decide) 1 ⟨0, 1, 1, [0, 1]⟩ rfl

/-! ## Neighbours are adjacent, on any graph -/

/-- An insertion into a heap that lies inside its array returns, and every
entry of the heap afterwards is an old entry or the new one (which is dropped
when the heap is full). -/
theorem insert_into_heap_mem (h : MinHeap) (node_id : Int) (priority : ℚ) (hwf : heap_wf h) :
    ∃ h2, insert_into_heap h node_id priority = some h2 ∧ heap_wf h2 ∧
      ∀ e ∈ heap_entries h2, e ∈ heap_entries h ∨ e = ⟨node_id, priority⟩ := by
  by_cases hfull : h.size = h.capacity
  · exact ⟨h, insert_into_heap_full h node_id priority hfull, hwf, fun e he => Or.inl he⟩
  · have hroom : h.size < h.capacity := by
      have := hwf.1; have := hwf.2
      omega
    obtain ⟨h2, hi, hwf2, -, -, hperm, -⟩ := insert_into_heap_spec h node_id priority hwf hroom
    refine ⟨h2, hi, hwf2, fun e he => ?_⟩
    rcases List.mem_cons.mp (hperm.subset he) with h1 | h1
    · exact Or.inr h1
    · exact Or.inl h1

/-- The scan of the interior positions of a way whose first and last nodes
are not `u`: it reads inside the node sequence only, and every entry it
inserts is adjacent to an occurrence of `u`. -/
theorem interior_scan_adjacent (u : Int) (way1 : way) (Q : HeapNode → Prop)
    (hQ : ∀ v, adjacent_in_way way1 u v → Q ⟨v, 0⟩)
    (hfirst : way1.node_ids[0]? ≠ some u)
    (hlast : way1.node_ids[way1.node_ids.length - 1]? ≠ some u) :
    ∀ (k j : Nat) (heap : MinHeap), j + k = way1.node_ids.length → heap_wf heap →
      (∀ e ∈ heap_entries heap, Q e) →
      ∃ heap2, interior_scan u way1 k j heap = some heap2 ∧ heap_wf heap2 ∧
        ∀ e ∈ heap_entries heap2, Q e := by
  intro k
  induction k with
  | zero => intro j heap _ hwf hq; exact ⟨heap, rfl, hwf, hq⟩
  | succ k ih =>
    intro j heap hlen hwf hq
    have hg : way1.node_ids[j]? = some way1.node_ids[j] := List.getElem?_eq_getElem (by omega)
    unfold interior_scan
    simp only [hg]
    by_cases heq : way1.node_ids[j] = u
    · have hju : way1.node_ids[j]? = some u := by rw [hg, heq]
      have hj0 : 0 < j := by
        by_contra hcon
        have : j = 0 := by omega
        subst this
        exact hfirst hju
      have hjl : j + 1 < way1.node_ids.length := by
        by_contra hcon
        have : j = way1.node_ids.length - 1 := by omega
        rw [this] at hju
        exact hlast hju
      have hgn : way1.node_ids[j + 1]? = some way1.node_ids[j + 1] :=
        List.getElem?_eq_getElem hjl
      have hgp : way1.node_ids[j - 1]? = some way1.node_ids[j - 1] :=
        List.getElem?_eq_getElem (by omega)
      have hqn : Q ⟨way1.node_ids[j + 1], 0⟩ := hQ _ ⟨j, Or.inl ⟨hju, hgn⟩⟩
      have hqp : Q ⟨way1.node_ids[j - 1], 0⟩ := by
        refine hQ _ ⟨j - 1, Or.inr ⟨hgp, ?_⟩⟩
        have : j - 1 + 1 = j := by omega
        rw [this]; exact hju
      simp only [if_pos heq]
      by_cases hone : way1.one_way = true
      · simp only [hone, if_true, hgn]
        obtain ⟨h1, hi1, hwf1, hmem1⟩ := insert_into_heap_mem heap way1.node_ids[j + 1] 0 hwf
        simp only [hi1]
        refine ih (j + 1) h1 (by omega) hwf1 (fun e he => ?_)
        rcases hmem1 e he with h | h
        · exact hq e h
        · rw [h]; exact hqn
      · have hone2 : way1.one_way = false := by simpa using hone
        have hprv : nth way1.node_ids ((j : Int) - 1) = some way1.node_ids[j - 1] := by
          have : ((j : Int) - 1) = ((j - 1 : Nat) : Int) := by omega
          rw [this, nth_natCast]; exact hgp
        simp only [hone2, hprv, hgn]
        obtain ⟨h1, hi1, hwf1, hmem1⟩ := insert_into_heap_mem heap way1.node_ids[j - 1] 0 hwf
        obtain ⟨h2, hi2, hwf2, hmem2⟩ := insert_into_heap_mem h1 way1.node_ids[j + 1] 0 hwf1
        simp only [hi1, hi2]
        refine ih (j + 1) h2 (by omega) hwf2 (fun e he => ?_)
        rcases hmem2 e he with h | h
        · rcases hmem1 e h with h' | h'
          · exact hq e h'
          · rw [h']; exact hqp
        · rw [h]; exact hqn
    · simp only [if_neg heq]
      exact ih (j + 1) heap (by omega) hwf hq

/-- The body of the loop of `find_neighbors` for a way with at least two
nodes: it reads inside the node sequence only, and every entry it inserts is
adjacent to an occurrence of `u`. -/
theorem neighbors_of_way_adjacent (u : Int) (way1 : way) (heap : MinHeap)
    (Q : HeapNode → Prop) (hQ : ∀ v, adjacent_in_way way1 u v → Q ⟨v, 0⟩)
    (hlen : 2 ≤ way1.node_ids.length) (hwf : heap_wf heap)
    (hq : ∀ e ∈ heap_entries heap, Q e) :
    ∃ heap2, neighbors_of_way u way1 heap = some heap2 ∧ heap_wf heap2 ∧
      ∀ e ∈ heap_entries heap2, Q e := by
  have hg0 : way1.node_ids[0]? = some way1.node_ids[0] := List.getElem?_eq_getElem (by omega)
  have hg1 : way1.node_ids[1]? = some way1.node_ids[1] := List.getElem?_eq_getElem (by omega)
  have hgl : way1.node_ids[way1.node_ids.length - 1]? =
      some way1.node_ids[way1.node_ids.length - 1] := List.getElem?_eq_getElem (by omega)
  have hgl2 : way1.node_ids[way1.node_ids.length - 2]? =
      some way1.node_ids[way1.node_ids.length - 2] := List.getElem?_eq_getElem (by omega)
  have hnl : nth way1.node_ids ((way1.node_ids.length : Int) - 1) =
      some way1.node_ids[way1.node_ids.length - 1] := by
    have : ((way1.node_ids.length : Int) - 1) = ((way1.node_ids.length - 1 : Nat) : Int) := by
      omega
    rw [this, nth_natCast]; exact hgl
  have hnl2 : nth way1.node_ids ((way1.node_ids.length : Int) - 2) =
      some way1.node_ids[way1.node_ids.length - 2] := by
    have : ((way1.node_ids.length : Int) - 2) = ((way1.node_ids.length - 2 : Nat) : Int) := by
      omega
    rw [this, nth_natCast]; exact hgl2
  unfold neighbors_of_way
  simp only [hg0]
  by_cases hfirst : way1.node_ids[0] = u
  · simp only [if_pos hfirst, hg1]
    obtain ⟨h1, hi1, hwf1, hmem1⟩ := insert_into_heap_mem heap way1.node_ids[1] 0 hwf
    refine ⟨h1, hi1, hwf1, fun e he => ?_⟩
    rcases hmem1 e he with h | h
    · exact hq e h
    · rw [h]; exact hQ _ ⟨0, Or.inl ⟨by rw [hg0, hfirst], hg1⟩⟩
  · simp only [if_neg hfirst, hnl]
    by_cases hlast : way1.node_ids[way1.node_ids.length - 1] = u
    · simp only [if_pos hlast]
      by_cases hone : way1.one_way = true
      · simp only [hone, Bool.not_true, Bool.false_eq_true, if_false]
        exact ⟨heap, rfl, hwf, hq⟩
      · have hone2 : way1.one_way = false := by simpa using hone
        simp only [hone2, Bool.not_false, if_true, hnl2]
        obtain ⟨h1, hi1, hwf1, hmem1⟩ :=
          insert_into_heap_mem heap way1.node_ids[way1.node_ids.length - 2] 0 hwf
        refine ⟨h1, hi1, hwf1, fun e he => ?_⟩
        rcases hmem1 e he with h | h
        · exact hq e h
        · rw [h]
          refine hQ _ ⟨way1.node_ids.length - 2, Or.inr ⟨hgl2, ?_⟩⟩
          have : way1.node_ids.length - 2 + 1 = way1.node_ids.length - 1 := by omega
          rw [this, hgl, hlast]
    · simp only [if_neg hlast]
      exact interior_scan_adjacent u way1 Q hQ (by rw [hg0]; simpa using hfirst)
        (by rw [hgl]; simpa using hlast) way1.node_ids.length 0 heap (by omega) hwf hq

theorem find_neighbors_loop_adjacent (m : ssmap) (u : Int) (Q : HeapNode → Prop)
    (hlen : ∀ w ∈ m.ways, 2 ≤ w.node_ids.length) :
    ∀ (ws : List Int) (heap : MinHeap), (∀ w ∈ ws, 0 ≤ w ∧ w < m.nr_ways) →
      (∀ w ∈ ws, ∀ way1, nth m.ways w = some way1 → ∀ v, adjacent_in_way way1 u v → Q ⟨v, 0⟩) →
      heap_wf heap → (∀ e ∈ heap_entries heap, Q e) →
      ∃ heap2, find_neighbors_loop m u ws heap = some heap2 ∧ heap_wf heap2 ∧
        ∀ e ∈ heap_entries heap2, Q e := by
  intro ws
  induction ws with
  | nil => intro heap _ _ hwf hq; exact ⟨heap, rfl, hwf, hq⟩
  | cons w rest ih =>
    intro heap hr hQ hwf hq
    have hw := hr w (List.mem_cons_self _ _)
    obtain ⟨way1, hway, hmem⟩ := nth_eq_some_of_range m.ways w hw.1 hw.2
    obtain ⟨h1, hnw, hwf1, hq1⟩ :=
      neighbors_of_way_adjacent u way1 heap Q (hQ w (List.mem_cons_self _ _) way1 hway)
        (hlen way1 hmem) hwf hq
    obtain ⟨h2, hloop, hwf2, hq2⟩ :=
      ih h1 (fun x hx => hr x (List.mem_cons_of_mem _ hx))
        (fun x hx => hQ x (List.mem_cons_of_mem _ hx)) hwf1 hq1
    exact ⟨h2, by simp only [find_neighbors_loop, hway, hnw, hloop], hwf2, hq2⟩

/-- C17: on every graph whose ways all have at least two nodes, for every
existing node `n` (whose incident way ids are ways of the map),
`find_neighbors(n)` returns, and every node id in the heap it returns sits,
in the node sequence of some way `n` lists, at a position whose index differs
by exactly 1 from the index of an occurrence of `n`. No assumption is made on
repeated nodes within a way. -/
theorem find_neighbors_adjacent (m : ssmap) (hlen : ∀ w ∈ m.ways, 2 ≤ w.node_ids.length)
    (n : Int) (nu : node) (hnu : nth m.nodes n = some nu)
    (hinc : ∀ w ∈ nu.way_ids, 0 ≤ w ∧ w < m.nr_ways) :
    ∃ h, find_neighbors m n = some h ∧
      ∀ e ∈ heap_entries h, ∃ w ∈ nu.way_ids, ∃ way1, nth m.ways w = some way1 ∧
        adjacent_in_way way1 n e.node_id := by
  obtain ⟨h, hloop, -, hq⟩ :=
    find_neighbors_loop_adjacent m n
      (fun e => ∃ w ∈ nu.way_ids, ∃ way1, nth m.ways w = some way1 ∧
        adjacent_in_way way1 n e.node_id) hlen nu.way_ids
      (create_min_heap (nu.way_ids.length * 2)) hinc
      (fun w hw way1 hway v hadj => ⟨w, hw, way1, hway, hadj⟩)
      ⟨by simp [create_min_heap], by simp [create_min_heap]⟩
      (by intro e he; simp [heap_entries, create_min_heap] at he)
  exact ⟨h, by simp only [find_neighbors, hnu, hloop], hq⟩

/-- Instance of C17: node `0` of `ring_map`, whose only road starts and ends
at node `0`. -/
theorem find_neighbors_adjacent_witness :
    ∃ h, find_neighbors ring_map 0 = some h ∧
      ∀ e ∈ heap_entries h, ∃ w ∈ [0], ∃ way1, nth ring_map.ways w = some way1 ∧
        adjacent_in_way way1 0 e.node_id :=
  find_neighbors_adjacent ring_map (by decide) 0 ⟨0, 0, 0, [0]⟩ rfl (by decide)

/-! ## The name searches -/

/-- C18 fails on the code: every node of `line_map` lists the single way 0,
"Avenue", and `ssmap_find_node_by_names` with the keywords "Ave" and "nue"
prints all three nodes, because the two flags `found1` and `found2` may be set
by one and the same way. The claim (and the comment above the function) lets
a node be printed only if the keywords match two distinct ways. -/
theorem one_way_matches_both_names :
    (∀ n ∈ line_map.nodes, n.way_ids = [0]) ∧
      ssmap_find_node_by_names line_map "Ave" (some "nue") = some [0, 1, 2] := by
  decide

theorem find_way_loop_mem (name : String) (x : Int) :
    ∀ ws : List way, x ∈ find_way_loop name ws ↔
      ∃ w ∈ ws, w.id = x ∧ strstr_found w.name name = true := by
  intro ws
  induction ws with
  | nil => simp [find_way_loop]
  | cons w rest ih =>
    unfold find_way_loop
    simp only [List.mem_cons, exists_eq_or_imp]
    by_cases hw : strstr_found w.name name = true
    · rw [if_pos hw, List.mem_cons, ih]
      constructor
      · rintro (h | h)
        · exact Or.inl ⟨h.symm, hw⟩
        · exact Or.inr h
      · rintro (⟨h, -⟩ | h)
        · exact Or.inl h.symm
        · exact Or.inr h
    · rw [if_neg hw, ih]
      constructor
      · intro h; exact Or.inr h
      · rintro (⟨-, h⟩ | h)
        · exact absurd h hw
        · exact h

theorem find_way_loop_sorted (name : String) :
    ∀ (ws : List way) (k : Nat), (∀ (i : Nat) (w : way), ws[i]? = some w → w.id = ((k + i : Nat) : Int)) →
      List.Pairwise (fun a b => a < b) (find_way_loop name ws) ∧
        ∀ x ∈ find_way_loop name ws, (k : Int) ≤ x := by
  intro ws
  induction ws with
  | nil => intro k _; simp [find_way_loop]
  | cons w rest ih =>
    intro k hid
    have hw : w.id = (k : Int) := by simpa using hid 0 w (by simp)
    obtain ⟨hp, hlb⟩ := ih (k + 1) (fun i w2 h => by
      have := hid (i + 1) w2 (by simpa using h)
      rw [this]; congr 1; omega)
    unfold find_way_loop
    split
    · refine ⟨List.pairwise_cons.mpr ⟨fun x hx => ?_, hp⟩, fun x hx => ?_⟩
      · have := hlb x hx
        rw [hw]; push_cast at this; omega
      · rcases List.mem_cons.mp hx with h | h
        · rw [h, hw]
        · have := hlb x h
          push_cast at this; omega
    · exact ⟨hp, fun x hx => by have := hlb x hx; push_cast at this; omega⟩

/-- C19: on a fully populated store (the way stored at index `i` has id `i`, for
every index), for every keyword, `ssmap_find_way_by_name` prints exactly the
ids of the ways whose name contains the keyword as a substring, in strictly
ascending order, hence each exactly once. -/
theorem find_way_by_name_ascending (m : ssmap) (name : String)
    (hfull : ∀ (i : Nat) (w : way), m.ways[i]? = some w → w.id = (i : Int)) :
    (∀ x, x ∈ ssmap_find_way_by_name m name ↔
      ∃ w ∈ m.ways, w.id = x ∧ List.IsInfix name.toList w.name.toList) ∧
      List.Pairwise (fun a b => a < b) (ssmap_find_way_by_name m name) ∧
      (ssmap_find_way_by_name m name).Nodup := by
  have hs := (find_way_loop_sorted name m.ways 0 (fun i w h => by simpa using hfull i w h)).1
  refine ⟨fun x => ?_, hs, hs.imp (fun h => ne_of_lt h)⟩
  unfold ssmap_find_way_by_name
  rw [find_way_loop_mem]
  simp [strstr_found]

/-- Instance of C19: the keyword "Street" on `detour_map`. -/
theorem find_way_by_name_ascending_witness :
    (∀ x, x ∈ ssmap_find_way_by_name detour_map "Street" ↔
      ∃ w ∈ detour_map.ways, w.id = x ∧ List.IsInfix "Street".toList w.name.toList) ∧
      List.Pairwise (fun a b => a < b) (ssmap_find_way_by_name detour_map "Street") ∧
      (ssmap_find_way_by_name detour_map "Street").Nodup :=
  find_way_by_name_ascending detour_map "Street" (by
    intro i w h
    rcases i with _ | _ | i
    · simp only [detour_map, List.getElem?_cons_zero, Option.some.injEq] at h
      subst h; rfl
    · simp only [detour_map, List.getElem?_cons_succ, List.getElem?_cons_zero,
        Option.some.injEq] at h
      subst h; rfl
    · simp [detour_map] at h)

/-! ## Filling the store -/

/-- C20 is false as stated: neither function tests the id. On `line_map`, two
calls of `ssmap_add_way` with id `0` both return the record, and the second
replaces what the first stored; the same holds for two calls of
`ssmap_add_node` with id `1`. A call with the id `1` for a way, or `3` for a
node, which are outside the arrays, does not return `NULL` either: it writes
outside the array. -/
theorem add_twice_overwrites :
    (∃ m1 m2, ssmap_add_way line_map 0 "Old Road" 40 false [0, 1] =
          some (some ⟨0, "Old Road", 40, false, [0, 1]⟩, m1) ∧
        ssmap_add_way m1 0 "New Road" 30 true [2, 1] =
          some (some ⟨0, "New Road", 30, true, [2, 1]⟩, m2) ∧
        nth m1.ways 0 = some ⟨0, "Old Road", 40, false, [0, 1]⟩ ∧
        nth m2.ways 0 = some ⟨0, "New Road", 30, true, [2, 1]⟩) ∧
      (∃ m1 m2, ssmap_add_node line_map 1 7 8 [0] = some (some ⟨7, 8, 1, [0]⟩, m1) ∧
        ssmap_add_node m1 1 2 3 [0, 0] = some (some ⟨2, 3, 1, [0, 0]⟩, m2) ∧
        nth m1.nodes 1 = some ⟨7, 8, 1, [0]⟩ ∧
        nth m2.nodes 1 = some ⟨2, 3, 1, [0, 0]⟩) ∧
      ssmap_add_way line_map 1 "New Road" 30 true [2, 1] = none ∧
      ssmap_add_node line_map 3 2 3 [0] = none := by
  refine ⟨⟨_, _, rfl, rfl, rfl, rfl⟩, ⟨_, _, rfl, rfl, rfl, rfl⟩, rfl, rfl⟩

/-- C20, amended: for an id inside the array, `ssmap_add_way` with at least one
node, and `ssmap_add_node`, succeed whatever the slot held before, also a
record assigned by an earlier call: they return the record, which is now
stored at index `id` with the arguments of the call, and leave every other
record of the store unchanged. -/
theorem add_stores_record (m : ssmap) (id : Int) (name : String) (maxspeed : ℚ)
    (oneway : Bool) (node_ids : List Int) (node_id : Int) (lat lon : ℚ) (way_ids : List Int)
    (hid : 0 ≤ id ∧ id < m.nr_ways) (hlen : 0 < node_ids.length)
    (hnode : 0 ≤ node_id ∧ node_id < m.nr_nodes) :
    (∃ m2, ssmap_add_way m id name maxspeed oneway node_ids =
          some (some ⟨id, name, maxspeed, oneway, node_ids⟩, m2) ∧
        nth m2.ways id = some ⟨id, name, maxspeed, oneway, node_ids⟩ ∧
        (∀ j, j ≠ id → nth m2.ways j = nth m.ways j) ∧
        m2.ways.length = m.ways.length ∧ m2.nodes = m.nodes) ∧
      (∃ m2, ssmap_add_node m node_id lat lon way_ids =
          some (some ⟨lat, lon, node_id, way_ids⟩, m2) ∧
        nth m2.nodes node_id = some ⟨lat, lon, node_id, way_ids⟩ ∧
        (∀ j, j ≠ node_id → nth m2.nodes j = nth m.nodes j) ∧
        m2.nodes.length = m.nodes.length ∧ m2.ways = m.ways) := by
  constructor
  · refine ⟨⟨m.nodes, m.ways.set id.toNat ⟨id, name, maxspeed, oneway, node_ids⟩⟩,
      ?_, ?_, ?_, ?_, rfl⟩
    · unfold ssmap_add_way
      rw [if_neg (by omega), store_spec _ _ _ hid.1 hid.2]
    · simp only [nth_set _ _ _ _ hid.1 hid.2, if_true]
    · intro j hj
      simp only [nth_set _ _ _ _ hid.1 hid.2, if_neg hj]
    · simp
  · refine ⟨⟨m.nodes.set node_id.toNat ⟨lat, lon, node_id, way_ids⟩, m.ways⟩,
      ?_, ?_, ?_, ?_, rfl⟩
    · unfold ssmap_add_node
      rw [store_spec _ _ _ hnode.1 hnode.2]
    · simp only [nth_set _ _ _ _ hnode.1 hnode.2, if_true]
    · intro j hj
      simp only [nth_set _ _ _ _ hnode.1 hnode.2, if_neg hj]
    · simp

/-- Instance of C20, amended: a second way record for id `0` and a second node
record for id `1` of `line_map`. -/
theorem add_stores_record_witness :
    (∃ m2, ssmap_add_way line_map 0 "New Road" 30 true [2, 1] =
          some (some ⟨0, "New Road", 30, true, [2, 1]⟩, m2) ∧
        nth m2.ways 0 = some ⟨0, "New Road", 30, true, [2, 1]⟩ ∧
        (∀ j, j ≠ 0 → nth m2.ways j = nth line_map.ways j) ∧
        m2.ways.length = line_map.ways.length ∧ m2.nodes = line_map.nodes) ∧
      (∃ m2, ssmap_add_node line_map 1 2 3 [0, 0] = some (some ⟨2, 3, 1, [0, 0]⟩, m2) ∧
        nth m2.nodes 1 = some ⟨2, 3, 1, [0, 0]⟩ ∧
        (∀ j, j ≠ 1 → nth m2.nodes j = nth line_map.nodes j) ∧
        m2.nodes.length = line_map.nodes.length ∧ m2.ways = line_map.ways) :=
  add_stores_record line_map 0 "New Road" 30 true [2, 1] 1 2 3 [0, 0] (by decide) (by decide)
    (by decide)

/-! ## `ssmap_add_way`: empty ways -/

/-- C21: `ssmap_add_way` with `num_nodes <= 0` (`num_nodes` being the length of
the node sequence handed over, so: with the empty sequence) returns `NULL` and
leaves the store, hence every way record including the one at index `id`,
unchanged, whatever `id`, name, speed and one-way flag are. With
`num_nodes >= 1` and `id` in range, the record found at index `id` afterwards
has the id, speed limit, one-way flag, node count and node sequence given as
arguments (and the name). -/
theorem add_way_checks_node_count (m : ssmap) (id : Int) (name : String) (maxspeed : ℚ)
    (oneway : Bool) (node_ids : List Int) :
    (node_ids.length ≤ 0 →
      ssmap_add_way m id name maxspeed oneway node_ids = some (none, m)) ∧
    (1 ≤ node_ids.length → 0 ≤ id ∧ id < m.nr_ways →
      ∃ p m2 r, ssmap_add_way m id name maxspeed oneway node_ids = some (some p, m2) ∧
        nth m2.ways id = some r ∧ p = r ∧ r.id = id ∧ r.name = name ∧
        r.speed_limit = maxspeed ∧ r.one_way = oneway ∧
        r.node_ids.length = node_ids.length ∧ r.node_ids = node_ids) := by
  constructor
  · intro h
    simp [ssmap_add_way, h]
  · intro h hid
    refine ⟨⟨id, name, maxspeed, oneway, node_ids⟩,
      ⟨m.nodes, m.ways.set id.toNat ⟨id, name, maxspeed, oneway, node_ids⟩⟩,
      ⟨id, name, maxspeed, oneway, node_ids⟩, ?_, ?_, rfl, rfl, rfl, rfl, rfl, rfl, rfl⟩
    · unfold ssmap_add_way
      rw [if_neg (by omega), store_spec _ _ _ hid.1 hid.2]
    · simp only [nth_set _ _ _ _ hid.1 hid.2, if_true]

/-- Instance of C21: on `line_map`, a way without nodes is refused and a way
with two nodes is stored at index `0`. -/
theorem add_way_checks_node_count_witness :
    ssmap_add_way line_map 0 "Path" 20 false [] = some (none, line_map) ∧
      ∃ p m2 r, ssmap_add_way line_map 0 "Path" 20 false [2, 0] = some (some p, m2) ∧
        nth m2.ways 0 = some r ∧ p = r ∧ r.id = 0 ∧ r.name = "Path" ∧
        r.speed_limit = 20 ∧ r.one_way = false ∧
        r.node_ids.length = [2, 0].length ∧ r.node_ids = [2, 0] :=
  ⟨(add_way_checks_node_count line_map 0 "Path" 20 false []).1 (by decide),
    (add_way_checks_node_count line_map 0 "Path" 20 false [2, 0]).2 (by decide) (by decide)⟩

/-! ## The way behind a leg of the search -/

/-- C22 fails on the code: in `two_speed_map` (well formed) node `1` is a
neighbour of node `0` through way 1 only (way 0 contributes node `2`), and way
1 has the speed limit 60, which gives the leg a time of 1 minute; but the
relaxation from `0` to `1` takes the speed limit of the way `shared_way(0, 1)`
returns, way 0 with 30 km/h, and stores `times[1] = 2`. -/
theorem relaxation_uses_first_common_way :
    well_formed two_speed_map ∧
      neighbor_contributions two_speed_map 0 [0] = [2] ∧
      neighbor_contributions two_speed_map 0 [1] = [1] ∧
      (find_neighbors two_speed_map 0).map (fun h => (heap_entries h).map HeapNode.node_id) =
        some [2, 1] ∧
      shared_way two_speed_map 0 1 = some 0 ∧
      calculate_travel_time flat_distance ⟨0, 0, 0, [0, 1]⟩ ⟨0, 1, 1, [0, 1]⟩ 60 = 1 ∧
      calculate_travel_time flat_distance ⟨0, 0, 0, [0, 1]⟩ ⟨0, 1, 1, [0, 1]⟩ 30 = 2 ∧
      (ssmap_path_search flat_distance two_speed_map 0 1).map
          (fun st => (nth st.times 1, nth st.predecessors 1)) = some (some 2, some 0) := by
  refine ⟨by decide, by decide, by decide, by decide!, by decide, by decide!, by decide!,
    by decide!⟩

/-! ## The edges of the search and the legs of the validator -/

/-- C30 fails on the code: `detour_map` is well formed with positive speed
limits, and `find_neighbors(0)` returns node `1` (through way 1), but
`ssmap_path_travel_time` on the route `0, 1` prints "cannot go directly" and
returns `-1`, because it looks at way 0 only, the way `shared_way(0, 1)`
returns. -/
theorem neighbor_rejected_by_validator :
    well_formed detour_map ∧ (∀ w ∈ detour_map.ways, 0 < w.speed_limit) ∧
      (find_neighbors detour_map 0).map (fun h => (heap_entries h).map HeapNode.node_id) =
        some [2, 1] ∧
      shared_way detour_map 0 1 = some 0 ∧
      ssmap_path_travel_time flat_distance detour_map [0, 1] =
        some ⟨some (.cannot_go_directly 0 1), -1⟩ := by
  refine ⟨by decide, by decide!, by decide!, by decide, by decide!⟩

/-! ## The search and its record -/

/-- Recording the events does not change the loop of `relax_neighbors`. -/
theorem relax_neighbors_log_state (dist : node → node → ℚ) (m : ssmap) (c : Int) (cn : node) :
    ∀ (fuel : Nat) (nb : MinHeap) (st : search_state),
      (relax_neighbors_log dist m c cn fuel nb st).map Prod.fst =
        relax_neighbors dist m c cn fuel nb st := by
  intro fuel
  induction fuel with
  | zero => intro nb st; rfl
  | succ fuel ih =>
    intro nb st
    unfold relax_neighbors_log relax_neighbors
    split
    · cases remove_min nb with
      | none => rfl
      | some p =>
        obtain ⟨e, nb2⟩ := p
        simp only
        cases nth st.visited e.node_id with
        | none => rfl
        | some b =>
          cases b with
          | true => exact ih nb2 st
          | false =>
            simp only
            cases shared_way m c e.node_id with
            | none => rfl
            | some w =>
              simp only
              cases nth m.nodes e.node_id <;> cases nth m.ways w <;>
                cases nth st.times c <;> cases nth st.times e.node_id <;> try rfl
              simp only
              split
              · cases store st.times e.node_id _ <;> cases store st.predecessors e.node_id c <;>
                  cases decrease_key st.heap e.node_id _ <;> try rfl
                simp only
                rw [← ih]
                cases relax_neighbors_log dist m c cn fuel nb2 _ with
                | none => rfl
                | some q => rfl
              · exact ih nb2 st
    · rfl

/-- Recording the events does not change the main loop. -/
theorem search_loop_log_state (dist : node → node → ℚ) (m : ssmap) (end_id : Int) :
    ∀ (fuel : Nat) (st : search_state),
      (search_loop_log dist m end_id fuel st).map Prod.fst =
        search_loop dist m end_id fuel st := by
  intro fuel
  induction fuel with
  | zero => intro st; rfl
  | succ fuel ih =>
    intro st
    unfold search_loop_log search_loop
    split
    · cases remove_min st.heap with
      | none => rfl
      | some p =>
        obtain ⟨e, h1⟩ := p
        simp only
        split
        · rfl
        · cases store st.visited e.node_id true <;> cases nth m.nodes e.node_id <;>
            cases hfn : find_neighbors m e.node_id <;> try rfl
          rename_i vis cn nb
          simp only
          rw [← relax_neighbors_log_state]
          cases relax_neighbors_log dist m e.node_id cn (nb.size + 1) nb _ with
          | none => rfl
          | some q =>
            obtain ⟨st2, log1⟩ := q
            simp only [Option.map_some']
            rw [← ih]
            cases search_loop_log dist m end_id fuel st2 with
            | none => rfl
            | some r => rfl
    · rfl

/-- Recording the events does not change the search. -/
theorem ssmap_path_search_log_state (dist : node → node → ℚ) (m : ssmap)
    (start_id end_id : Int) :
    (ssmap_path_search_log dist m start_id end_id).map Prod.fst =
      ssmap_path_search dist m start_id end_id := by
  unfold ssmap_path_search_log ssmap_path_search
  cases search_init m start_id with
  | none => rfl
  | some st => exact search_loop_log_state dist m end_id _ st

/-! ## No relaxation of a node after its extraction -/

/-- The relaxation loop leaves `visited` alone, and relaxes only nodes whose
`visited` flag is false. -/
theorem relax_neighbors_log_events (dist : node → node → ℚ) (m : ssmap) (c : Int) (cn : node) :
    ∀ (fuel : Nat) (nb : MinHeap) (st st2 : search_state) (log : List search_event),
      relax_neighbors_log dist m c cn fuel nb st = some (st2, log) →
      st2.visited = st.visited ∧ ∀ ev ∈ log, ∃ v, ev = .relaxed v ∧ vis st v = false := by
  intro fuel
  induction fuel with
  | zero => intro nb st st2 log h; cases h
  | succ fuel ih =>
    intro nb st st2 log h
    unfold relax_neighbors_log at h
    split at h
    · cases hrm : remove_min nb with
      | none => simp only [hrm] at h; cases h
      | some p =>
        obtain ⟨e, nb2⟩ := p
        simp only [hrm] at h
        cases hv : nth st.visited e.node_id with
        | none => simp only [hv] at h; cases h
        | some b =>
          cases b with
          | true =>
            simp only [hv] at h
            exact ih nb2 st st2 log h
          | false =>
            simp only [hv] at h
            cases hsw : shared_way m c e.node_id with
            | none => simp only [hsw] at h; cases h
            | some w =>
              simp only [hsw] at h
              split at h
              · split at h
                · split at h
                  · rename_i ts ps hp _ _ _
                    cases hr : relax_neighbors_log dist m c cn fuel nb2
                        { st with heap := hp, times := ts, predecessors := ps } with
                    | none => simp only [hr] at h; cases h
                    | some q =>
                      obtain ⟨st3, log3⟩ := q
                      simp only [hr, Option.some.injEq, Prod.mk.injEq] at h
                      obtain ⟨h1, h2⟩ := h
                      subst h1 h2
                      obtain ⟨g1, g2⟩ := ih nb2 _ st3 log3 hr
                      refine ⟨g1, fun ev hev => ?_⟩
                      rcases List.mem_cons.mp hev with hev | hev
                      · exact ⟨e.node_id, hev, by simp [vis, hv]⟩
                      · exact g2 ev hev
                  · cases h
                · exact ih nb2 st st2 log h
              · cases h
    · simp only [Option.some.injEq, Prod.mk.injEq] at h
      obtain ⟨h1, h2⟩ := h
      subst h1 h2
      exact ⟨rfl, fun ev hev => by cases hev⟩

theorem vis_store_true (st : search_state) (c : Int) (vs : List Bool)
    (h : store st.visited c true = some vs) (v : Int) :
    (nth vs v).getD false = if v = c then true else vis st v := by
  unfold store at h
  split at h
  · rename_i hc
    simp only [Option.some.injEq] at h
    subst h
    rw [nth_set _ _ _ _ hc.1 hc.2]
    split <;> simp [vis]
  · cases h

/-- The main loop, from any state on: a node relaxed later on has its
`visited` flag false now, and no node is relaxed after its extraction. -/
theorem search_loop_log_events (dist : node → node → ℚ) (m : ssmap) (end_id : Int) :
    ∀ (fuel : Nat) (st st2 : search_state) (log : List search_event),
      search_loop_log dist m end_id fuel st = some (st2, log) →
      (∀ v, .relaxed v ∈ log → vis st v = false) ∧ List.Pairwise no_relax_after log := by
  intro fuel
  induction fuel with
  | zero => intro st st2 log h; cases h
  | succ fuel ih =>
    intro st st2 log h
    unfold search_loop_log at h
    split at h
    · cases hrm : remove_min st.heap with
      | none => simp only [hrm] at h; cases h
      | some p =>
        obtain ⟨e, h1⟩ := p
        simp only [hrm] at h
        split at h
        · simp only [Option.some.injEq, Prod.mk.injEq] at h
          obtain ⟨-, h2⟩ := h
          subst h2
          exact ⟨fun v hv => by simp at hv, List.pairwise_singleton _ _⟩
        · split at h
          · rename_i vs cn nb hst _ _
            cases hr : relax_neighbors_log dist m e.node_id cn (nb.size + 1) nb
                { st with heap := h1, visited := vs } with
            | none => simp only [hr] at h; cases h
            | some q =>
              obtain ⟨st3, log1⟩ := q
              simp only [hr] at h
              cases hl : search_loop_log dist m end_id fuel st3 with
              | none => simp only [hl] at h; cases h
              | some r =>
                obtain ⟨st4, log2⟩ := r
                simp only [hl, Option.some.injEq, Prod.mk.injEq] at h
                obtain ⟨-, h2⟩ := h
                subst h2
                obtain ⟨g1, g2⟩ := relax_neighbors_log_events dist m _ cn _ nb _ st3 log1 hr
                obtain ⟨k1, k2⟩ := ih st3 st4 log2 hl
                have hvis1 : ∀ v, vis { st with heap := h1, visited := vs } v =
                    if v = e.node_id then true else vis st v := fun v => vis_store_true st _ vs hst v
                have hvis3 : ∀ v, vis st3 v = if v = e.node_id then true else vis st v := by
                  intro v
                  rw [← hvis1 v]
                  simp only [vis, g1]
                have hrel : ∀ v, search_event.relaxed v ∈ log1 ++ log2 →
                    v ≠ e.node_id ∧ vis st v = false := by
                  intro v hv
                  rcases List.mem_append.mp hv with hv | hv
                  · obtain ⟨v2, hv2, hvf⟩ := g2 _ hv
                    cases hv2
                    rw [hvis1 v] at hvf
                    split at hvf
                    · cases hvf
                    · exact ⟨by assumption, hvf⟩
                  · have hvf := k1 v hv
                    rw [hvis3 v] at hvf
                    split at hvf
                    · cases hvf
                    · exact ⟨by assumption, hvf⟩
                constructor
                · intro v hv
                  rcases List.mem_cons.mp hv with hv | hv
                  · cases hv
                  · exact (hrel v hv).2
                · refine List.pairwise_cons.mpr ⟨?_, List.pairwise_append.mpr ⟨?_, k2, ?_⟩⟩
                  · intro b hb v hv hbv
                    cases hv
                    subst hbv
                    exact (hrel _ hb).1 rfl
                  · refine List.Pairwise.imp_of_mem ?_ (List.pairwise_of_forall (R := fun _ _ => True) (fun _ _ => trivial))
                    intro a b ha _ _ v hav
                    obtain ⟨v2, hv2, -⟩ := g2 a ha
                    rw [hv2] at hav
                    cases hav
                  · intro a ha b _ v hav
                    obtain ⟨v2, hv2, -⟩ := g2 a ha
                    rw [hv2] at hav
                    cases hav
          · cases h
    · simp only [Option.some.injEq, Prod.mk.injEq] at h
      obtain ⟨-, h2⟩ := h
      subst h2
      exact ⟨fun v hv => (by cases hv), List.Pairwise.nil⟩

/-! ## The run of the search, without any assumption on the leg times -/

theorem search_shape_of_inv (dist : node → node → ℚ) (m : ssmap) (start_id : Int)
    (st : search_state) (rank : Int → Nat) (k : Nat) (c : Int) (pend : List HeapNode)
    (hinv : search_inv dist m start_id st rank k c pend) : search_shape m st :=
  { len_times := hinv.len_times
    len_preds := hinv.len_preds
    len_visited := hinv.len_visited
    heap_ok := hinv.heap_ok
    keys := hinv.keys
    entry := fun e he => ⟨(hinv.entry e he).1, (hinv.entry e he).2.1⟩
    present := hinv.present }

/-- The shape of the state is kept by one execution of the block that writes
`times[v]` and `predecessors[v]` and calls `decrease_key` for an existing node
`v` not marked visited; the call returns and keeps the size of the queue. -/
theorem search_shape_relax (m : ssmap) (st : search_state) (hsh : search_shape m st) (v c : Int)
    (hv : node_exists m v) (hvis : vis st v = false) (new : ℚ) :
    ∃ ts ps h2, store st.times v new = some ts ∧ store st.predecessors v c = some ps ∧
      decrease_key st.heap v new = some h2 ∧ h2.size = st.heap.size ∧
      search_shape m { st with heap := h2, times := ts, predecessors := ps } := by
  have hv0 : 0 ≤ v := hv.1
  have hvt : v < (st.times.length : Int) := by rw [hsh.len_times]; exact hv.2
  have hvp : v < (st.predecessors.length : Int) := by rw [hsh.len_preds]; exact hv.2
  obtain ⟨e0, he0, he0v⟩ := hsh.present v hv hvis
  obtain ⟨h2, i, e, hdk, hwf2, hsz2, hcap2, hgi, hide, hperm, -⟩ :=
    decrease_key_spec st.heap v new hsh.heap_ok ⟨e0, he0, he0v⟩
  refine ⟨_, _, h2, store_spec _ _ _ hv0 hvt, store_spec _ _ _ hv0 hvp, hdk, hsz2, ?_⟩
  have hilen : i < (heap_entries st.heap).length := (List.getElem?_eq_some_iff.mp hgi).1
  have hmapset : ((heap_entries st.heap).set i ⟨v, new⟩).map
      HeapNode.node_id = (heap_entries st.heap).map HeapNode.node_id := by
    rw [List.map_set]
    apply List.ext_getElem?
    intro t
    by_cases hti : t = i
    · subst hti
      rw [List.getElem?_set_self (by simpa using hilen)]
      simp only [List.getElem?_map, hgi, Option.map_some', hide]
    · rw [List.getElem?_set_ne (Ne.symm hti)]
  exact
  { len_times := by simp only [List.length_set]; exact hsh.len_times
    len_preds := by simp only [List.length_set]; exact hsh.len_preds
    len_visited := hsh.len_visited
    heap_ok := hwf2
    keys := by
      show ((heap_entries h2).map HeapNode.node_id).Nodup
      exact ((hperm.map HeapNode.node_id).nodup_iff).mpr (by rw [hmapset]; exact hsh.keys)
    entry := by
      intro a ha
      show node_exists m a.node_id ∧ vis st a.node_id = false
      rcases mem_set_cases _ _ _ _ (hperm.mem_iff.mp ha) with h | ⟨t, -, hgt⟩
      · rw [h]; exact ⟨hv, hvis⟩
      · exact hsh.entry a (List.mem_iff_getElem?.mpr ⟨t, hgt⟩)
    present := by
      intro x hx hxv
      show ∃ a ∈ heap_entries h2, a.node_id = x
      by_cases hxeq : x = v
      · refine ⟨⟨v, new⟩, hperm.mem_iff.mpr ?_, hxeq.symm⟩
        exact List.mem_iff_getElem?.mpr ⟨i, List.getElem?_set_self hilen⟩
      · obtain ⟨a, ha, hax⟩ := hsh.present x hx hxv
        obtain ⟨t, hgt⟩ := List.mem_iff_getElem?.mp ha
        have hti : t ≠ i := by
          intro h; subst h
          rw [hgi] at hgt
          cases hgt
          exact hxeq (hax.symm.trans hide)
        exact ⟨a, hperm.mem_iff.mpr (mem_set_of_ne _ _ _ _ _ hti hgt), hax⟩ }

/-- On a well-formed graph the relaxation loop, run on the neighbours of `c`
with more iterations allowed than there are neighbours, returns; it keeps the
shape of the state and the size of the queue. -/
theorem relax_neighbors_log_total (dist : node → node → ℚ) (m : ssmap) (hwf : well_formed m)
    (c : Int) (cn : node) :
    ∀ (fuel : Nat) (nb : MinHeap) (st : search_state), nb.size < fuel → heap_wf nb →
      (∀ e ∈ heap_entries nb, search_edge m c e.node_id) → search_shape m st →
      ∃ st2 log, relax_neighbors_log dist m c cn fuel nb st = some (st2, log) ∧
        search_shape m st2 ∧ st2.heap.size = st.heap.size := by
  intro fuel
  induction fuel with
  | zero => intro nb st h; omega
  | succ fuel ih =>
    intro nb st hfuel hnb hedges hsh
    unfold relax_neighbors_log
    by_cases hpos : nb.size > 0
    · simp only [if_pos hpos]
      obtain ⟨root, nb2, hrm, -, hwf2, hsz2, -, hperm, -⟩ := remove_min_spec nb hnb hpos
      simp only [hrm]
      have hedges2 : ∀ e ∈ heap_entries nb2, search_edge m c e.node_id := fun e he =>
        hedges e (hperm.mem_iff.mpr (List.mem_cons_of_mem _ he))
      have hedge := hedges root (hperm.mem_iff.mpr (List.mem_cons_self _ _))
      obtain ⟨hce, hve, nu, nv, w, way1, -, hnv, hsw, hway, -⟩ :=
        search_edge_spec m hwf c root.node_id hedge
      have hnvis : nth st.visited root.node_id = some (vis st root.node_id) :=
        nth_of_exists _ _ false hve.1 (by rw [hsh.len_visited]; exact hve.2)
      rw [hnvis]
      cases hvv : vis st root.node_id with
      | true =>
        simp only
        exact ih nb2 st (by omega) hwf2 hedges2 hsh
      | false =>
        have htc : nth st.times c = some (tm st c) :=
          nth_of_exists _ _ 0 hce.1 (by rw [hsh.len_times]; exact hce.2)
        have htv : nth st.times root.node_id = some (tm st root.node_id) :=
          nth_of_exists _ _ 0 hve.1 (by rw [hsh.len_times]; exact hve.2)
        simp only [hsw, hnv, hway, htc, htv]
        split
        · obtain ⟨ts, ps, h2, hts, hps, hdk, hsz, hsh2⟩ :=
            search_shape_relax m st hsh root.node_id c hve hvv
              (tm st c + calculate_travel_time dist cn nv way1.speed_limit)
          simp only [hts, hps, hdk]
          obtain ⟨st2, log, hr, hsh3, hsz3⟩ := ih nb2 _ (by omega) hwf2 hedges2 hsh2
          simp only [hr]
          exact ⟨st2, _, rfl, hsh3, by rw [hsz3]; exact hsz⟩
        · exact ih nb2 st (by omega) hwf2 hedges2 hsh
    · simp only [if_neg hpos]
      exact ⟨st, [], rfl, hsh, rfl⟩

theorem extracted_ids_append (l1 l2 : List search_event) :
    extracted_ids (l1 ++ l2) = extracted_ids l1 ++ extracted_ids l2 := by
  induction l1 with
  | nil => rfl
  | cons a rest ih => cases a <;> simp [extracted_ids, ih]

theorem extracted_ids_of_relaxed (l : List search_event)
    (h : ∀ ev ∈ l, ∃ v, ev = search_event.relaxed v) : extracted_ids l = [] := by
  induction l with
  | nil => rfl
  | cons a rest ih =>
    obtain ⟨v, hv⟩ := h a (List.mem_cons_self _ _)
    subst hv
    simpa [extracted_ids] using ih (fun ev hev => h ev (List.mem_cons_of_mem _ hev))

/-- The shape of the state after a node has been taken from the queue and
marked visited. -/
theorem search_shape_extract (m : ssmap) (st : search_state) (hsh : search_shape m st)
    (root : HeapNode) (h1 : MinHeap) (hwf1 : heap_wf h1)
    (hperm : List.Perm (heap_entries st.heap) (root :: heap_entries h1)) :
    ∃ vs, store st.visited root.node_id true = some vs ∧
      search_shape m { st with heap := h1, visited := vs } ∧
      ∀ x, vis { st with heap := h1, visited := vs } x =
        if x = root.node_id then true else vis st x := by
  have hrmem : root ∈ heap_entries st.heap := hperm.mem_iff.mpr (List.mem_cons_self _ _)
  obtain ⟨hrex, hrvis⟩ := hsh.entry root hrmem
  have hr0 : 0 ≤ root.node_id := hrex.1
  have hrl : root.node_id < (st.visited.length : Int) := by
    rw [hsh.len_visited]; exact hrex.2
  have hvs : ∀ x, vis { st with heap := h1, visited := st.visited.set root.node_id.toNat true } x =
      if x = root.node_id then true else vis st x := by
    intro x
    simp only [vis, nth_set _ _ _ _ hr0 hrl]
    split <;> rfl
  have hnd : (root.node_id :: (heap_entries h1).map HeapNode.node_id).Nodup := by
    have := ((hperm.map HeapNode.node_id).nodup_iff).mp hsh.keys
    simpa using this
  have hnotin : ∀ e ∈ heap_entries h1, e.node_id ≠ root.node_id := by
    intro e he heq
    exact (List.nodup_cons.mp hnd).1 (heq ▸ List.mem_map_of_mem _ he)
  refine ⟨_, store_spec _ _ _ hr0 hrl, ?_, hvs⟩
  exact
  { len_times := hsh.len_times
    len_preds := hsh.len_preds
    len_visited := by simp only [List.length_set]; exact hsh.len_visited
    heap_ok := hwf1
    keys := (List.nodup_cons.mp hnd).2
    entry := by
      intro e he
      show node_exists m e.node_id ∧ _
      rw [hvs, if_neg (hnotin e he)]
      exact hsh.entry e (hperm.mem_iff.mpr (List.mem_cons_of_mem _ he))
    present := by
      intro v hv hvv
      rw [hvs] at hvv
      show ∃ e ∈ heap_entries h1, e.node_id = v
      by_cases hvr : v = root.node_id
      · rw [if_pos hvr] at hvv; cases hvv
      · rw [if_neg hvr] at hvv
        obtain ⟨e, he, hev⟩ := hsh.present v hv hvv
        rcases List.mem_cons.mp (hperm.mem_iff.mp he) with h | h
        · exact absurd (by rw [← hev, h]) hvr
        · exact ⟨e, h, hev⟩ }

/-- On a well-formed graph the main loop, allowed more iterations than the
queue has entries, returns: every iteration takes one entry from the queue and
none is put back, the nodes extracted are existing nodes not yet marked
visited, and no node is extracted twice. -/
theorem search_loop_log_total (dist : node → node → ℚ) (m : ssmap) (hwf : well_formed m)
    (end_id : Int) :
    ∀ (fuel : Nat) (st : search_state), st.heap.size < fuel → search_shape m st →
      ∃ st2 log, search_loop_log dist m end_id fuel st = some (st2, log) ∧
        (extracted_ids log).Nodup ∧
        (∀ v ∈ extracted_ids log, vis st v = false ∧ node_exists m v) ∧
        st2.heap.size + (extracted_ids log).length = st.heap.size := by
  intro fuel
  induction fuel with
  | zero => intro st h; omega
  | succ fuel ih =>
    intro st hfuel hsh
    unfold search_loop_log
    by_cases hpos : st.heap.size > 0
    · simp only [if_pos hpos]
      obtain ⟨root, h1, hrm, -, hwf1, hsz1, -, hperm, -⟩ := remove_min_spec st.heap hsh.heap_ok hpos
      simp only [hrm]
      have hrmem : root ∈ heap_entries st.heap := hperm.mem_iff.mpr (List.mem_cons_self _ _)
      obtain ⟨hrex, hrvis⟩ := hsh.entry root hrmem
      by_cases hend : root.node_id = end_id
      · simp only [if_pos hend]
        refine ⟨_, _, rfl, by simp [extracted_ids], ?_, ?_⟩
        · intro v hv
          simp only [extracted_ids, List.mem_singleton] at hv
          rw [hv]; exact ⟨hrvis, hrex⟩
        · simp only [extracted_ids, List.length_singleton]
          omega
      · simp only [if_neg hend]
        obtain ⟨vs, hst, hsh1, hvs⟩ := search_shape_extract m st hsh root h1 hwf1 hperm
        obtain ⟨cn, hcn, -⟩ := nth_eq_some_of_range m.nodes root.node_id hrex.1 hrex.2
        obtain ⟨nb, hfn, hnbwf, -⟩ := find_neighbors_spec m hwf root.node_id cn hcn
        simp only [hst, hcn, hfn]
        obtain ⟨st2, log1, hr, hsh2, hsz2⟩ :=
          relax_neighbors_log_total dist m hwf root.node_id cn (nb.size + 1) nb _ (by omega)
            hnbwf (fun e he => ⟨nb, hfn, e, he, rfl⟩) hsh1
        obtain ⟨hv2, hev1⟩ := relax_neighbors_log_events dist m _ cn _ nb _ st2 log1 hr
        simp only [hr]
        have hsz2' : st2.heap.size = h1.size := hsz2
        obtain ⟨st3, log2, hl, hnd, hex, hsz3⟩ := ih st2 (by omega) hsh2
        simp only [hl]
        have hvis2 : ∀ x, vis st2 x = if x = root.node_id then true else vis st x := by
          intro x
          rw [← hvs x]
          simp only [vis, hv2]
        have hids : extracted_ids (search_event.extracted root.node_id :: (log1 ++ log2)) =
            root.node_id :: extracted_ids log2 := by
          simp only [extracted_ids, extracted_ids_append,
            extracted_ids_of_relaxed log1 (fun ev hev => by
              obtain ⟨v, hv, -⟩ := hev1 ev hev
              exact ⟨v, hv⟩), List.nil_append]
        refine ⟨st3, _, rfl, ?_, ?_, ?_⟩
        · rw [hids]
          refine List.nodup_cons.mpr ⟨fun hmem => ?_, hnd⟩
          have := (hex _ hmem).1
          rw [hvis2, if_pos rfl] at this
          cases this
        · rw [hids]
          intro v hv
          rcases List.mem_cons.mp hv with hv | hv
          · rw [hv]; exact ⟨hrvis, hrex⟩
          · obtain ⟨g1, g2⟩ := hex v hv
            rw [hvis2] at g1
            split at g1
            · cases g1
            · exact ⟨g1, g2⟩
        · rw [hids]
          simp only [List.length_cons]
          omega
    · simp only [if_neg hpos]
      exact ⟨st, [], rfl, by simp [extracted_ids], by simp [extracted_ids],
        by simp [extracted_ids]⟩

/-! ## Visited nodes are left alone; the search ends -/

/-- The run of the search with its events exists as soon as the plain run
does, and on a well-formed graph with existing end points both exist. -/
theorem ssmap_path_search_log_total (dist : node → node → ℚ) (m : ssmap) (hwf : well_formed m)
    (start_id end_id : Int) (hstart : node_exists m start_id) :
    ∃ st0 st log, search_init m start_id = some st0 ∧ search_shape m st0 ∧
      (∀ v, vis st0 v = false) ∧
      ssmap_path_search_log dist m start_id end_id = some (st, log) ∧
      ssmap_path_search dist m start_id end_id = some st ∧
      (extracted_ids log).Nodup ∧ (∀ v ∈ extracted_ids log, node_exists m v) ∧
      st.heap.size + (extracted_ids log).length = st0.heap.size := by
  obtain ⟨st0, hinit, hinv, hvis⟩ := search_init_spec dist m start_id hstart
  have hsh := search_shape_of_inv dist m start_id st0 _ _ _ _ hinv
  obtain ⟨st, log, hl, hnd, hex, hsz⟩ :=
    search_loop_log_total dist m hwf end_id (st0.heap.size + 1) st0 (by omega) hsh
  have hlog : ssmap_path_search_log dist m start_id end_id = some (st, log) := by
    simp only [ssmap_path_search_log, hinit, hl]
  refine ⟨st0, st, log, hinit, hsh, hvis, hlog, ?_, hnd, fun v hv => (hex v hv).2, hsz⟩
  rw [← ssmap_path_search_log_state, hlog]
  rfl

/-- C23: in every run of the search of `ssmap_path_create`, on any graph, no
node is relaxed after it has been extracted from the queue; `visited[v]` is
set right after the extraction of `v`, and a relaxation of `v` is the block
that writes `times[v]` and `predecessors[v]` and calls `decrease_key` for `v`,
so none of the three happens once `visited[v]` is true. Nothing is assumed on
the leg times (they may be zero) or on the ways (a way may list a node next
to itself). On a well-formed graph with an existing `start_id` the run
exists, whatever `end_id` is. -/
theorem no_relaxation_after_visit (dist : node → node → ℚ) (m : ssmap)
    (start_id end_id : Int) :
    (∀ st log, ssmap_path_search_log dist m start_id end_id = some (st, log) →
      ssmap_path_search dist m start_id end_id = some st ∧
        List.Pairwise no_relax_after log) ∧
    (well_formed m → node_exists m start_id →
      ∃ st log, ssmap_path_search_log dist m start_id end_id = some (st, log)) := by
  constructor
  · intro st log h
    constructor
    · rw [← ssmap_path_search_log_state, h]; rfl
    · unfold ssmap_path_search_log at h
      cases hinit : search_init m start_id with
      | none => simp only [hinit] at h; cases h
      | some st0 =>
        simp only [hinit] at h
        exact (search_loop_log_events dist m end_id _ st0 st log h).2
  · intro hwf hstart
    obtain ⟨-, st, log, -, -, -, hlog, -⟩ :=
      ssmap_path_search_log_total dist m hwf start_id end_id hstart
    exact ⟨st, log, hlog⟩

/-- Instance of C23: the run from `0` to `1` on `detour_map`, and the run from
`0` to `1` on `stutter_map`, whose road lists node `0` next to itself. -/
theorem no_relaxation_after_visit_witness :
    (∃ st log, ssmap_path_search_log flat_distance detour_map 0 1 = some (st, log) ∧
      ssmap_path_search flat_distance detour_map 0 1 = some st ∧
      List.Pairwise no_relax_after log) ∧
    (∃ st, ssmap_path_search flat_distance stutter_map 0 1 = some st ∧
      List.Pairwise no_relax_after [.extracted 0, .extracted 1]) :=
  have h1 := (no_relaxation_after_visit flat_distance detour_map 0 1).2 (by decide)
    (by decide)
  have h2 : ∃ st, ssmap_path_search_log flat_distance stutter_map 0 1 =
      some (st, [.extracted 0, .extracted 1]) := by
    have h : (ssmap_path_search_log flat_distance stutter_map 0 1).map Prod.snd =
        some [.extracted 0, .extracted 1] := by decide!
    cases hr : ssmap_path_search_log flat_distance stutter_map 0 1 with
    | none => rw [hr] at h; cases h
    | some p =>
      rw [hr] at h
      simp only [Option.map_some', Option.some.injEq] at h
      exact ⟨p.1, by rw [← h]⟩
  ⟨h1.elim fun st h => h.elim fun log hlog =>
      ⟨st, log, hlog, (no_relaxation_after_visit flat_distance detour_map 0 1).1 st log hlog⟩,
    h2.elim fun st hst =>
      ⟨st, (no_relaxation_after_visit flat_distance stutter_map 0 1).1 st _ hst⟩⟩

/-- C27: on a well-formed graph with `V` nodes and an existing `start_id`,
whatever the leg times and whatever `end_id` (in `[0, V)` or not): the queue
initially holds each node id of `[0, V)` exactly once; the main loop ends
within the `V + 1` iterations allowed to it, having extracted at most `V`
nodes, no node twice, and every extraction takes one entry from the queue for
good (the entries left plus the extractions make `V`); and
`min_heapify(heap, idx)` ends on every heap, within `size + 1 - idx` levels of
recursion, its index growing at each level and staying below `size`. -/
theorem search_terminates (dist : node → node → ℚ) (m : ssmap) (hwf : well_formed m)
    (start_id end_id : Int) (hstart : node_exists m start_id) :
    (∃ st0, search_init m start_id = some st0 ∧ st0.heap.size = m.nodes.length ∧
      List.Perm ((heap_entries st0.heap).map HeapNode.node_id)
        ((List.range m.nodes.length).map (fun i : Nat => (i : Int)))) ∧
    (∃ st log, ssmap_path_search_log dist m start_id end_id = some (st, log) ∧
      ssmap_path_search dist m start_id end_id = some st ∧
      (extracted_ids log).Nodup ∧ (extracted_ids log).length ≤ m.nodes.length ∧
      st.heap.size + (extracted_ids log).length = m.nodes.length) ∧
    (∀ (heap : MinHeap) (idx : Nat), heap.size ≤ heap.elements.length →
      ∃ h2, min_heapify heap idx = some h2) ∧
    (∀ (heap : MinHeap) (idx fuel : Nat), heap.size ≤ heap.elements.length →
      0 < fuel → heap.size + 1 ≤ fuel + idx →
      ∃ h2, min_heapify_fuel fuel heap idx = some h2) := by
  obtain ⟨st0, st, log, hinit, hsh, hvis, hlog, hplain, hnd, hex, hsz⟩ :=
    ssmap_path_search_log_total dist m hwf start_id end_id hstart
  have hperm : List.Perm ((heap_entries st0.heap).map HeapNode.node_id)
      ((List.range m.nodes.length).map (fun i : Nat => (i : Int))) := by
    refine (List.perm_ext_iff_of_nodup hsh.keys ?_).mpr (fun x => ?_)
    · exact (List.nodup_range _).map (fun a b h => by simpa using h)
    · simp only [List.mem_map, List.mem_range]
      constructor
      · rintro ⟨e, he, rfl⟩
        obtain ⟨h0, h1⟩ := (hsh.entry e he).1
        unfold ssmap.nr_nodes at h1
        exact ⟨e.node_id.toNat, by omega, by omega⟩
      · rintro ⟨i, hi, rfl⟩
        have hex : node_exists m (i : Int) := ⟨by omega, by unfold ssmap.nr_nodes; omega⟩
        obtain ⟨e, he, hev⟩ := hsh.present _ hex (hvis _)
        exact ⟨e, he, hev⟩
  have hsize : st0.heap.size = m.nodes.length := by
    have h1 := hperm.length_eq
    simp only [List.length_map, List.length_range, heap_entries, List.length_take] at h1
    have := hsh.heap_ok.1
    omega
  refine ⟨⟨st0, hinit, hsize, hperm⟩, ⟨st, log, hlog, hplain, hnd, by omega, by omega⟩, ?_, ?_⟩
  · intro heap idx hlen
    obtain ⟨h2, hh, -⟩ :=
      min_heapify_fuel_spec (heap.size + 1) heap idx hlen (by omega) (by omega)
    exact ⟨h2, hh⟩
  · intro heap idx fuel hlen hpos hfuel
    obtain ⟨h2, hh, -⟩ := min_heapify_fuel_spec fuel heap idx hlen hpos (by omega)
    exact ⟨h2, hh⟩

/-- Instance of C27: the search from `0` to `1` on `detour_map`, and
`min_heapify` at the indices `0` and `1` of `ordered_heap`. -/
theorem search_terminates_witness :
    (∃ st0, search_init detour_map 0 = some st0 ∧ st0.heap.size = detour_map.nodes.length ∧
      List.Perm ((heap_entries st0.heap).map HeapNode.node_id)
        ((List.range detour_map.nodes.length).map (fun i : Nat => (i : Int)))) ∧
    (∃ st log, ssmap_path_search_log flat_distance detour_map 0 1 = some (st, log) ∧
      ssmap_path_search flat_distance detour_map 0 1 = some st ∧
      (extracted_ids log).Nodup ∧ (extracted_ids log).length ≤ detour_map.nodes.length ∧
      st.heap.size + (extracted_ids log).length = detour_map.nodes.length) ∧
    (∃ h2, min_heapify ordered_heap 0 = some h2) ∧
    (∃ h2, min_heapify_fuel 3 ordered_heap 1 = some h2) :=
  have h := search_terminates flat_distance detour_map (by decide) 0 1 (by decide)
  ⟨h.1, h.2.1, h.2.2.1 ordered_heap 0 (by decide),
    h.2.2.2 ordered_heap 1 3 (by decide) (by decide) (by decide)⟩

/-! ## The heap order and the entries through the heap operations -/

/-- C24: the min-heap order property (for every index `i` in `[1, size)` the
priority of entry `(i - 1) / 2` is at most the priority of entry `i`) is kept
by the three operations, on a heap whose entries lie inside its array: if it
holds before, then `insert_into_heap` returns and it holds after; `remove_min`
returns and it holds after; and `decrease_key`, called with a node id present
in the heap and a priority not above the current priority of that id,
returns and it holds after. -/
theorem heap_order_invariant (h : MinHeap) (hwf : heap_wf h)
    (hord : heap_ordered h.elements h.size) :
    (∀ node_id priority, ∃ h2, insert_into_heap h node_id priority = some h2 ∧
      heap_ordered h2.elements h2.size) ∧
    (∃ e h2, remove_min h = some (e, h2) ∧ heap_ordered h2.elements h2.size) ∧
    (∀ node_id priority, (∃ e ∈ heap_entries h, e.node_id = node_id) →
      (∀ e ∈ heap_entries h, e.node_id = node_id → priority ≤ e.priority) →
      ∃ h2, decrease_key h node_id priority = some h2 ∧ heap_ordered h2.elements h2.size) := by
  refine ⟨fun node_id priority => ?_, ?_, fun node_id priority hpres hlow => ?_⟩
  · by_cases hfull : h.size = h.capacity
    · exact ⟨h, insert_into_heap_full h node_id priority hfull, hord⟩
    · have hroom : h.size < h.capacity := by
        have := hwf.1; have := hwf.2
        omega
      obtain ⟨h2, hi, -, -, -, -, hord2⟩ := insert_into_heap_spec h node_id priority hwf hroom
      exact ⟨h2, hi, hord2 hord⟩
  · by_cases hpos : 0 < h.size
    · obtain ⟨root, h2, hrm, -, -, -, -, -, hmin⟩ := remove_min_spec h hwf hpos
      exact ⟨root, h2, hrm, (hmin hord).1⟩
    · exact ⟨⟨-1, 0⟩, h, by simp [remove_min]; omega, hord⟩
  · obtain ⟨h2, i, e, hdk, -, -, -, hget, hid, -, hord2⟩ :=
      decrease_key_spec h node_id priority hwf hpres
    exact ⟨h2, hdk, hord2 hord (hlow e (List.mem_iff_getElem?.mpr ⟨i, hget⟩) hid)⟩

/-- Instance of C24: on `ordered_heap`, the insertion of `(9, 1)`, a
`remove_min`, and `decrease_key` lowering the priority of node `2` from `5`
to `3`. -/
theorem heap_order_invariant_witness :
    (∃ h2, insert_into_heap ordered_heap 9 1 = some h2 ∧ heap_ordered h2.elements h2.size) ∧
    (∃ e h2, remove_min ordered_heap = some (e, h2) ∧ heap_ordered h2.elements h2.size) ∧
    (∃ h2, decrease_key ordered_heap 2 3 = some h2 ∧ heap_ordered h2.elements h2.size) :=
  have hwf : heap_wf ordered_heap := by unfold heap_wf; decide
  have hord : heap_ordered ordered_heap.elements ordered_heap.size := by
    intro i hi0 hin
    have hin3 : i < 3 := hin
    interval_cases i <;> simp [slot_priority, ordered_heap] <;> norm_num
  ⟨(heap_order_invariant ordered_heap hwf hord).1 9 1,
    (heap_order_invariant ordered_heap hwf hord).2.1,
    (heap_order_invariant ordered_heap hwf hord).2.2 2 3 (by decide) (by decide!)⟩

/-- C25: on a heap whose entries lie inside its array: if the heap is not
empty, `remove_min` returns, the size drops by exactly 1, and the entries
before the call are, as a multiset, the entries left plus one copy of the
returned entry (this part needs no heap order); if `size < capacity`,
`insert_into_heap` returns, the size grows by exactly 1 and the entries
afterwards are, as a multiset, the entries before plus the new entry
`(node_id, priority)`; and if `size == capacity`, `insert_into_heap` returns
the heap unchanged. -/
theorem heap_entries_frame (h : MinHeap) (hwf : heap_wf h) :
    (0 < h.size → ∃ e h2, remove_min h = some (e, h2) ∧ h2.size + 1 = h.size ∧
      h2.capacity = h.capacity ∧
      (heap_entries h : Multiset HeapNode) = e ::ₘ (heap_entries h2 : Multiset HeapNode)) ∧
    (∀ node_id priority, h.size < h.capacity →
      ∃ h2, insert_into_heap h node_id priority = some h2 ∧ h2.size = h.size + 1 ∧
        h2.capacity = h.capacity ∧
        (heap_entries h2 : Multiset HeapNode) =
          ⟨node_id, priority⟩ ::ₘ (heap_entries h : Multiset HeapNode)) ∧
    (∀ node_id priority, h.size = h.capacity →
      insert_into_heap h node_id priority = some h) := by
  refine ⟨fun hpos => ?_, fun node_id priority hroom => ?_, fun node_id priority hfull => ?_⟩
  · obtain ⟨root, h2, hrm, -, -, hsz, hcap, hperm, -⟩ := remove_min_spec h hwf hpos
    refine ⟨root, h2, hrm, by omega, hcap, ?_⟩
    rw [Multiset.cons_coe]
    exact Multiset.coe_eq_coe.mpr hperm
  · obtain ⟨h2, hi, -, hsz, hcap, hperm, -⟩ := insert_into_heap_spec h node_id priority hwf hroom
    refine ⟨h2, hi, hsz, hcap, ?_⟩
    rw [Multiset.cons_coe]
    exact Multiset.coe_eq_coe.mpr hperm
  · exact insert_into_heap_full h node_id priority hfull

/-- Instance of C25: `remove_min` and the insertion of `(9, 1)` on `stale_heap`,
and the insertion of `(9, 1)` into a full heap of capacity 1. -/
theorem heap_entries_frame_witness :
    (∃ e h2, remove_min stale_heap = some (e, h2) ∧ h2.size + 1 = stale_heap.size ∧
      h2.capacity = stale_heap.capacity ∧
      (heap_entries stale_heap : Multiset HeapNode) =
        e ::ₘ (heap_entries h2 : Multiset HeapNode)) ∧
    (∃ h2, insert_into_heap stale_heap 9 1 = some h2 ∧ h2.size = stale_heap.size + 1 ∧
      h2.capacity = stale_heap.capacity ∧
      (heap_entries h2 : Multiset HeapNode) =
        ⟨9, 1⟩ ::ₘ (heap_entries stale_heap : Multiset HeapNode)) ∧
    insert_into_heap ⟨1, 1, [⟨1, 2⟩]⟩ 9 1 = some ⟨1, 1, [⟨1, 2⟩]⟩ :=
  ⟨(heap_entries_frame stale_heap (by unfold heap_wf; decide)).1 (by decide),
    (heap_entries_frame stale_heap (by unfold heap_wf; decide)).2.1 9 1 (by decide),
    (heap_entries_frame ⟨1, 1, [⟨1, 2⟩]⟩ (by unfold heap_wf; decide)).2.2 9 1 rfl⟩

/-! ## The leg-time formula -/

/-- C26: over exact arithmetic, for every distance `d` (in kilometres, whatever
the two nodes) and every non-zero speed limit `s`, `calculate_travel_time`
returns `d * 1000 / (s / 3.6) / 60`, which equals `60 * d / s`, the distance
divided by the speed, in minutes; and the result is not negative when
`0 ≤ d` and `0 < s`. -/
theorem travel_time_formula (d s : ℚ) (node1 node2 : node) (hs : s ≠ 0) :
    calculate_travel_time (fun _ _ => d) node1 node2 s = d * 1000 / (s / 3.6) / 60 ∧
      calculate_travel_time (fun _ _ => d) node1 node2 s = 60 * d / s ∧
      (0 ≤ d → 0 < s → 0 ≤ calculate_travel_time (fun _ _ => d) node1 node2 s) := by
  have h60 : calculate_travel_time (fun _ _ => d) node1 node2 s = 60 * d / s := by
    unfold calculate_travel_time
    field_simp
    ring
  refine ⟨rfl, h60, fun hd hpos => ?_⟩
  rw [h60]
  positivity

/-- Instance of C26: 2 km at 40 km/h take 3 minutes. -/
theorem travel_time_formula_witness :
    calculate_travel_time (fun _ _ => 2) ⟨0, 0, 0, []⟩ ⟨0, 2, 1, []⟩ 40 = 2 * 1000 / (40 / 3.6) / 60 ∧
      calculate_travel_time (fun _ _ => 2) ⟨0, 0, 0, []⟩ ⟨0, 2, 1, []⟩ 40 = 60 * 2 / 40 ∧
      ((0 : ℚ) ≤ 2 → (0 : ℚ) < 40 →
        0 ≤ calculate_travel_time (fun _ _ => 2) ⟨0, 0, 0, []⟩ ⟨0, 2, 1, []⟩ 40) :=
  travel_time_formula 2 40 ⟨0, 0, 0, []⟩ ⟨0, 2, 1, []⟩ (by norm_num)

/-! ## The predecessor links -/

/-- The reconstruction loop writes one entry per free slot it uses: a result
has at most `room` entries more than the part already written. -/
theorem walk_back_length (predecessors : List Int) :
    ∀ (room : Nat) (u : Int) (acc P : List Int),
      walk_back predecessors room u acc = some P → P.length ≤ room + acc.length := by
  intro room
  induction room with
  | zero =>
    intro u acc P h
    rw [walk_back] at h
    by_cases hu : u = -1
    · simp only [if_pos hu, Option.some.injEq] at h
      rw [← h]; omega
    · simp only [if_neg hu] at h
      cases h
  | succ room ih =>
    intro u acc P h
    rw [walk_back] at h
    by_cases hu : u = -1
    · simp only [if_pos hu, Option.some.injEq] at h
      rw [← h]; omega
    · simp only [if_neg hu] at h
      cases hp : nth predecessors u with
      | none => simp only [hp] at h; cases h
      | some p =>
        simp only [hp] at h
        have := ih p (u :: acc) P h
        simp only [List.length_cons] at this
        omega

/-- Walking the predecessor links back from `v`, as in `walk_back_spec`: the
nodes met have ranks growing strictly towards `v`, so none is met twice. -/
theorem walk_back_nodup (dist : node → node → ℚ) (m : ssmap) (hwf : well_formed m)
    (hd : ∀ x y, 0 ≤ dist x y) (hs : ∀ w ∈ m.ways, 0 < w.speed_limit) (start_id : Int)
    (st : search_state) (rank : Int → Nat) (k : Nat) (c : Int)
    (hinv : search_inv dist m start_id st rank k c []) :
    ∀ (room : Nat) (v : Int) (acc : List Int), node_exists m v →
      (v = start_id ∨ tm st v < INFINITY_COST) → rank v < room →
      ∃ P, walk_back st.predecessors room v acc = some (P ++ acc) ∧
        P.head? = some start_id ∧ P.getLast? = some v ∧ P.Nodup ∧
        ∀ x ∈ P, rank x ≤ rank v := by
  intro room
  induction room with
  | zero => intro v acc _ _ h; omega
  | succ room ih =>
    intro v acc hv hfin hrank
    have hv1 : ¬ v = -1 := by have := hv.1; omega
    have hnp : nth st.predecessors v = some (pd st v) :=
      nth_of_exists _ _ (-1) hv.1 (by rw [hinv.len_preds]; exact hv.2)
    rw [walk_back]
    simp only [if_neg hv1, hnp]
    by_cases hp : pd st v = -1
    · rw [hp, walk_back_stop]
      have hvs : v = start_id := by
        rcases hfin with h | h
        · exact h
        · rcases hinv.pred_none v hv hp with h2 | h2
          · exact h2
          · rw [h2] at h; exact absurd h (lt_irrefl _)
      refine ⟨[v], rfl, by rw [hvs]; rfl, rfl, List.nodup_singleton _, ?_⟩
      intro x hx
      rw [List.mem_singleton.mp hx]
    · obtain ⟨g1, g2, g3, g4, g5⟩ := hinv.pred_some v hp
      have hpe := vis_true_exists m st hinv.len_visited _ g1
      have hw0 := wt_nonneg dist m hwf hd hs _ _ g2
      obtain ⟨P, hP1, hP2, hP3, hP4, hP5⟩ :=
        ih (pd st v) (v :: acc) hpe (Or.inr (by linarith)) (by omega)
      refine ⟨P ++ [v], by rw [hP1]; simp, ?_, by simp, ?_, ?_⟩
      · cases P with
        | nil => simp at hP3
        | cons a rest => simpa using hP2
      · refine List.Nodup.append hP4 (List.nodup_singleton _) ?_
        intro x hx hxv
        rw [List.mem_singleton.mp hxv] at hx
        have := hP5 v hx
        omega
      · intro x hx
        rcases List.mem_append.mp hx with h | h
        · have := hP5 x h
          omega
        · rw [List.mem_singleton.mp h]

/-- C28: on a well-formed graph with non-negative leg times and existing
`start_id` and `end_id`, the search returns, and in its final arrays
`predecessors[start_id]` is `-1` and, from every node that has a predecessor,
following the predecessor links reaches `start_id` without meeting a node
twice, within the `nr_nodes` slots of the path buffer. `ssmap_path_create`
returns, and when it prints a node sequence, the reconstruction loop has
written at most `nr_nodes` entries and the sequence begins with `start_id`,
ends with `end_id` and repeats no node. -/
theorem predecessors_form_forest (dist : node → node → ℚ) (m : ssmap) (hwf : well_formed m)
    (hd : ∀ x y, 0 ≤ dist x y) (hs : ∀ w ∈ m.ways, 0 < w.speed_limit) (start_id end_id : Int)
    (hstart : node_exists m start_id) (hend : node_exists m end_id) :
    (∃ st, ssmap_path_search dist m start_id end_id = some st ∧
      nth st.predecessors start_id = some (-1) ∧
      ∀ v, node_exists m v → nth st.predecessors v ≠ some (-1) →
        ∃ P, walk_back st.predecessors m.nodes.length v [] = some P ∧
          P.head? = some start_id ∧ P.getLast? = some v ∧ P.Nodup ∧
          P.length ≤ m.nodes.length) ∧
    ∃ out, ssmap_path_create dist m start_id end_id = some out ∧
      ∀ P, out = .path P →
        P.head? = some start_id ∧ P.getLast? = some end_id ∧ P.Nodup ∧
          P.length ≤ m.nodes.length := by
  obtain ⟨st2, st0, rank0, k0, c0, hsearch, hinv, -, hpreds, hvend, hpos, -⟩ :=
    ssmap_path_search_spec dist m hwf hd hs start_id end_id hstart hend
  have hnp : ∀ v, node_exists m v → nth st0.predecessors v = some (pd st0 v) := fun v hv =>
    nth_of_exists _ _ (-1) hv.1 (by rw [hinv.len_preds]; exact hv.2)
  have hrank : ∀ v, rank0 v < m.nodes.length := by
    intro v
    have hc := hinv.count
    cases hv : vis st0 v with
    | false => have := hinv.rank_unvisited v hv; omega
    | true => have := hinv.rank_visited v hv; omega
  have hwalk : ∀ v, node_exists m v → (v = start_id ∨ tm st0 v < INFINITY_COST) →
      ∃ P, walk_back st0.predecessors m.nodes.length v [] = some P ∧
        P.head? = some start_id ∧ P.getLast? = some v ∧ P.Nodup ∧
        P.length ≤ m.nodes.length := by
    intro v hv hfin
    obtain ⟨P, hw, h1, h2, h3, -⟩ :=
      walk_back_nodup dist m hwf hd hs start_id st0 rank0 k0 c0 hinv m.nodes.length v []
        hv hfin (hrank v)
    simp only [List.append_nil] at hw
    have := walk_back_length _ _ _ _ _ hw
    exact ⟨P, hw, h1, h2, h3, by simpa using this⟩
  constructor
  · refine ⟨st2, hsearch, ?_, ?_⟩
    · rw [hpreds, hnp start_id hstart, hinv.start_pred]
    · intro v hv hne
      rw [hpreds] at hne ⊢
      have hp : pd st0 v ≠ -1 := by
        intro h
        rw [hnp v hv, h] at hne
        exact hne rfl
      exact hwalk v hv (Or.inr (hinv.pred_some v hp).2.2.2.1)
  · have hguard : ¬ (start_id < 0 ∨ end_id ≥ m.nr_nodes) := by
      have := hstart.1; have := hend.2
      omega
    unfold ssmap_path_create
    simp only [if_neg hguard, hsearch, hpreds]
    by_cases hes : end_id = start_id
    · obtain ⟨P, hw, h1, h2, h3, h4⟩ := hwalk end_id hend (Or.inl hes)
      simp only [if_pos hes, hw, Option.map_some']
      refine ⟨_, rfl, fun P2 hP2 => ?_⟩
      cases hP2
      exact ⟨h1, h2, h3, h4⟩
    · simp only [if_neg hes, hnp end_id hend]
      by_cases hp : pd st0 end_id = -1
      · simp only [hp, ne_eq, not_true_eq_false, if_false]
        exact ⟨_, rfl, fun P2 hP2 => by cases hP2⟩
      · obtain ⟨P, hw, h1, h2, h3, h4⟩ :=
          hwalk end_id hend (Or.inr (hinv.pred_some end_id hp).2.2.2.1)
        simp only [ne_eq, hp, not_false_eq_true, if_true, hw, Option.map_some']
        refine ⟨_, rfl, fun P2 hP2 => ?_⟩
        cases hP2
        exact ⟨h1, h2, h3, h4⟩

/-- Instance of C28: from node `0` to node `1` on `detour_map`. -/
theorem predecessors_form_forest_witness :
    (∃ st, ssmap_path_search flat_distance detour_map 0 1 = some st ∧
      nth st.predecessors 0 = some (-1) ∧
      ∀ v, node_exists detour_map v → nth st.predecessors v ≠ some (-1) →
        ∃ P, walk_back st.predecessors detour_map.nodes.length v [] = some P ∧
          P.head? = some 0 ∧ P.getLast? = some v ∧ P.Nodup ∧
          P.length ≤ detour_map.nodes.length) ∧
    ∃ out, ssmap_path_create flat_distance detour_map 0 1 = some out ∧
      ∀ P, out = .path P →
        P.head? = some 0 ∧ P.getLast? = some 1 ∧ P.Nodup ∧
          P.length ≤ detour_map.nodes.length :=
  predecessors_form_forest flat_distance detour_map (by decide) flat_distance_nonneg
    (by decide!) 0 1 (by decide) (by decide)

/-! ## `decrease_key` for an absent node id -/

/-- C29 fails on the code: `refilled_heap` is reached by calls of
`insert_into_heap` and `remove_min` (as listed), no entry of it has the node
id `42`, and `decrease_key(heap, 42, 0)` replaces its entry `(2, 9)` at index 0
by the stale entry `(3, 2)`: the search loop ends with `i == size`, and the
sift-up loop then starts from the slot at index `size`. On a full heap the
same call reads outside the array. -/
theorem decrease_key_absent_disturbs :
    run_calls (create_min_heap 3) [.insert 1 1, .insert 2 9, .insert 3 2] =
        some ⟨3, 3, [⟨1, 1⟩, ⟨2, 9⟩, ⟨3, 2⟩]⟩ ∧
      remove_min ⟨3, 3, [⟨1, 1⟩, ⟨2, 9⟩, ⟨3, 2⟩]⟩ =
        some (⟨1, 1⟩, ⟨2, 3, [⟨3, 2⟩, ⟨2, 9⟩, ⟨3, 2⟩]⟩) ∧
      remove_min ⟨2, 3, [⟨3, 2⟩, ⟨2, 9⟩, ⟨3, 2⟩]⟩ =
        some (⟨3, 2⟩, ⟨1, 3, [⟨2, 9⟩, ⟨2, 9⟩, ⟨3, 2⟩]⟩) ∧
      insert_into_heap ⟨1, 3, [⟨2, 9⟩, ⟨2, 9⟩, ⟨3, 2⟩]⟩ 7 10 = some refilled_heap ∧
      (∀ e ∈ heap_entries refilled_heap, e.node_id ≠ 42) ∧
      heap_entries refilled_heap = [⟨2, 9⟩, ⟨7, 10⟩] ∧
      (∃ h2, decrease_key refilled_heap 42 0 = some h2 ∧ h2.size = 2 ∧
        heap_entries h2 = [⟨3, 2⟩, ⟨7, 10⟩]) ∧
      decrease_key ⟨1, 1, [⟨1, 5⟩]⟩ 2 0 = none := by
  refine ⟨by decide!, by decide!, by decide!, by decide!, by decide, by decide!,
    ⟨⟨2, 3, [⟨3, 2⟩, ⟨7, 10⟩, ⟨2, 9⟩]⟩, by decide!, rfl, by decide!⟩, by decide!⟩

/-! ## Where the search and the validator part ways -/

/-- C2 fails on the code. `slow_street_map` is well formed with positive speed
limits, and the route `0, 2, 1` along its ring road is valid and takes 3
minutes. `ssmap_path_create(0, 1)` prints `0, 1`: node `1` is a neighbour of
node `0` through way 1 only, the slow street, on which the leg takes 12
minutes, but the search priced the leg with the speed limit of way 0, the way
`shared_way(0, 1)` returns. The printed route is not even valid:
`ssmap_path_travel_time` rejects it. On `ring_map`, whose closed road is
`0, 1, 2, 0`, `ssmap_path_create(0, 2)` prints `0, 1, 2`, which takes 11
minutes, although the route `0, 2` is valid and takes 1 minute, because
`find_neighbors(0)` does not return node `2`. -/
theorem path_create_not_optimal :
    well_formed slow_street_map ∧ (∀ w ∈ slow_street_map.ways, 0 < w.speed_limit) ∧
      ssmap_path_travel_time flat_distance slow_street_map [0, 2, 1] = some ⟨none, 3⟩ ∧
      ssmap_path_create flat_distance slow_street_map 0 1 = some (.path [0, 1]) ∧
      ssmap_path_travel_time flat_distance slow_street_map [0, 1] =
        some ⟨some (.cannot_go_directly 0 1), -1⟩ ∧
      neighbor_contributions slow_street_map 0 [0] = [2] ∧
      neighbor_contributions slow_street_map 0 [1] = [1] ∧
      calculate_travel_time flat_distance ⟨0, 0, 0, [0, 1]⟩ ⟨0, 1, 1, [0, 1]⟩ 5 = 12 ∧
      well_formed_with_repeats ring_map ∧ (∀ w ∈ ring_map.ways, 0 < w.speed_limit) ∧
      ssmap_path_create flat_distance ring_map 0 2 = some (.path [0, 1, 2]) ∧
      ssmap_path_travel_time flat_distance ring_map [0, 1, 2] = some ⟨none, 11⟩ ∧
      ssmap_path_travel_time flat_distance ring_map [0, 2] = some ⟨none, 1⟩ := by
  refine ⟨by decide, by decide!, by decide!, by decide!, by decide!, by decide, by decide,
    by decide!, by decide, by decide!, by decide!, by decide!, by decide!⟩

/-- C16 fails on the code. The road of `ring_map` (well formed, its way has
three different nodes) is the closed two-way road `0, 1, 2, 0`: node `0` sits
at its first position, which contributes the entry at position 1, node `1`,
and at its last position, which on a road that is not one-way contributes the
entry at position 2, node `2`. `find_neighbors(0)` returns node `1` only: the
test for the last position is the `else` branch of the test for the first.
The validator knows the step: it accepts the route `0, 2`. -/
theorem closed_way_neighbor_dropped :
    well_formed_with_repeats ring_map ∧
      (∃ way1, nth ring_map.ways 0 = some way1 ∧ way1.one_way = false ∧
        way1.node_ids.length = 4 ∧ way1.node_ids[0]? = some 0 ∧ way1.node_ids[3]? = some 0 ∧
        way_contribution way1 0 = [1] ∧ way_contribution way1 3 = [2]) ∧
      (find_neighbors ring_map 0).map (fun h => (heap_entries h).map HeapNode.node_id) =
        some [1] ∧
      ssmap_path_travel_time flat_distance ring_map [0, 2] = some ⟨none, 1⟩ := by
  refine ⟨by decide, ⟨_, rfl, by decide⟩, by decide!, by decide!⟩

end Streets
